import Mathlib

/-
Verification of the ordered-JSON-map core (package ordered): an
insertion-order-preserving string-keyed map with a recursive JSON codec.

Shallow embedding notes:
- Go values of type interface\x7b\x7d restricted to the JSON-decodable shapes
  (nil, bool, string, json.Number, []interface, *ordered.Map) are modelled by
  the inductive type Value.  A json.Number is kept as its lexical string, which
  is exactly what the Go decoder stores under dec.UseNumber().
- The Go struct Map \x7b m map[string]interface; l *list.List;
  keys map[string]*list.Element \x7d is modelled by the inductive Map below:
  m is an association list standing for the (unordered) hash map, l is the
  doubly linked list of keys, keys is the key-to-element index.  List elements
  of container/list have pointer identity; the model gives each pushed element
  a fresh numeric id (nextId is the allocation counter; it has no Go
  counterpart and is never compared by any equality).
- The sync.RWMutex field only serialises access and has no sequential effect,
  so it is not modelled.
-/

namespace OrderedJson

/-- Left brace character (written via a code to keep it out of string/char
literals). -/
def lbrace : Char := Char.ofNat 123

/-- Right brace character. -/
def rbrace : Char := Char.ofNat 125

mutual

/-- Model of the Go dynamic values stored in the map: the JSON-decodable
subset of interface values.  vnum holds a json.Number lexical string;
vnull models the nil interface (which is also what JSON null decodes to). -/
inductive Value where
  | vnull : Value
  | vbool : Bool → Value
  | vnum : String → Value
  | vstr : String → Value
  | varr : List Value → Value
  | vmap : Map → Value

/-- Model of ordered.Map: value mapping m, key order list l (each element is
(id, key) where id models the list.Element pointer identity), the key-to-element
index keys (key to element id), and the allocation counter for fresh ids. -/
inductive Map where
  | mk : List (String × Value) → List (Nat × String) → List (String × Nat) → Nat → Map

end

/-- The value mapping field m of the Go struct. -/
def Map.m : Map → List (String × Value)
  | .mk m _ _ _ => m

/-- The key order list field l of the Go struct. -/
def Map.l : Map → List (Nat × String)
  | .mk _ l _ _ => l

/-- The key-to-element index field keys of the Go struct. -/
def Map.keys : Map → List (String × Nat)
  | .mk _ _ ks _ => ks

/-- Allocation counter for element identities (model artifact). -/
def Map.nextId : Map → Nat
  | .mk _ _ _ n => n

/-- Association-list lookup, modelling a Go map read m[k] (with existence). -/
def alistFind {α : Type} : List (String × α) → String → Option α
  | [], _ => none
  | (k, v) :: rest, key => if k = key then some v else alistFind rest key

/-- Association-list store, modelling a Go map write m[k] = v. -/
def alistStore {α : Type} : List (String × α) → String → α → List (String × α)
  | [], key, value => [(key, value)]
  | (k, v) :: rest, key, value =>
      if k = key then (k, value) :: rest else (k, v) :: alistStore rest key value

/-- Association-list removal, modelling Go delete(m, k). -/
def alistErase {α : Type} : List (String × α) → String → List (String × α)
  | [], _ => []
  | (k, v) :: rest, key => if k = key then rest else (k, v) :: alistErase rest key

/-- Removal of the list element with a given identity, modelling
om.l.Remove(e) in container/list. -/
def listRemove : List (Nat × String) → Nat → List (Nat × String)
  | [], _ => []
  | e :: rest, id => if e.1 = id then rest else e :: listRemove rest id

/-- Go map read om.m[key] as a value: a missing key yields the zero value of
interface (nil), i.e. vnull. -/
def mGet (m : List (String × Value)) (key : String) : Value :=
  (alistFind m key).getD .vnull

/-- NewMap creates a new empty Map (source NewMap). -/
def NewMap : Map := .mk [] [] [] 0

/-- Set value for a particular key; remembers the order of keys inserted, but
if the key already exists the order is not updated (source Map.Set). -/
def Map.Set (om : Map) (key : String) (value : Value) : Map :=
  match alistFind om.m key with
  | some _ => .mk (alistStore om.m key value) om.l om.keys om.nextId
  | none =>
      .mk (alistStore om.m key value)
        (om.l ++ [(om.nextId, key)])
        (alistStore om.keys key om.nextId)
        (om.nextId + 1)

/-- Has checks if a value exists (source Map.Has). -/
def Map.Has (om : Map) (key : String) : Bool :=
  (alistFind om.m key).isSome

/-- Get returns the value for a key, or the nil interface (vnull) if absent
(source Map.Get). -/
def Map.Get (om : Map) (key : String) : Value :=
  mGet om.m key

/-- GetValue returns value and existence together (source Map.GetValue). -/
def Map.GetValue (om : Map) (key : String) : Value × Bool :=
  (mGet om.m key, (alistFind om.m key).isSome)

/-- Delete removes the element with the given key from the value mapping, the
order list and the key index; a no-op returning false if the key is absent
(source Map.Delete).  Returns ((removed value, ok), updated map).  When the
key is present, om.keys[key] is the identity of its list element (Go removes
exactly that element; on states violating the invariant Go would dereference
a nil element, which is unreachable, and the model removes nothing). -/
def Map.Delete (om : Map) (key : String) : (Value × Bool) × Map :=
  match alistFind om.m key with
  | some v =>
      ((v, true),
        .mk (alistErase om.m key)
          (match alistFind om.keys key with
           | some id => listRemove om.l id
           | none => om.l)
          (alistErase om.keys key)
          om.nextId)
  | none => ((.vnull, false), om)

/-- Len returns the number of elements, read from the order list
(source Map.Len, om.l.Len()). -/
def Map.Len (om : Map) : Nat := om.l.length

/-- NewMapFromKVPairs populates a new Map from a list of key-value pairs by
repeated Set (source NewMapFromKVPairs).  A KVPair (Key, Value) is modelled as
a pair (fst = Key, snd = Value). -/
def setAll (om : Map) : List (String × Value) → Map
  | [] => om
  | (k, v) :: rest => setAll (om.Set k v) rest

/-- NewMapFromKVPairs (source): NewMap followed by Set for each pair. -/
def NewMapFromKVPairs (pairs : List (String × Value)) : Map :=
  setAll NewMap pairs

/-- The sequence of keys in insertion order (the contents of l). -/
def Map.toKeys (om : Map) : List String := om.l.map Prod.snd

/-- The (key, value) pairs in insertion order, with values read from m the way
the iterators read them (a key missing from m reads as the nil interface). -/
def Map.toPairs (om : Map) : List (String × Value) :=
  om.l.map (fun e => (e.2, mGet om.m e.2))

/-! ### Iteration cursors

EntriesIter captures om.l.Front() in a closure; each call yields the captured
element key, the live lookup om.m[key], and advances to e.Next() computed
against the live list (a removed element has no successor; container/list
clears its links on removal).  The cursor is the captured element
(id, key), or none. -/

/-- Successor of the element with the given id in the live list (e.Next()):
none when the element is no longer in the list or is last. -/
def elemNext : List (Nat × String) → Nat → Option (Nat × String)
  | [], _ => none
  | e :: rest, id => if e.1 = id then rest.head? else elemNext rest id

/-- Predecessor of the element with the given id in the live list (e.Prev()). -/
def elemPrev (l : List (Nat × String)) (id : Nat) : Option (Nat × String) :=
  elemNext l.reverse id

/-- EntriesIter: a fresh forward cursor, capturing om.l.Front()
(source Map.EntriesIter). -/
def Map.EntriesIter (om : Map) : Option (Nat × String) := om.l.head?

/-- EntriesReverseIter: a fresh backward cursor, capturing om.l.Back()
(source Map.EntriesReverseIter). -/
def Map.EntriesReverseIter (om : Map) : Option (Nat × String) := om.l.getLast?

/-- One call of the closure returned by EntriesIter, evaluated against the
live map om: yields (key, om.m[key]) and the advanced cursor. -/
def iterStep (om : Map) : Option (Nat × String) →
    Option ((String × Value) × Option (Nat × String))
  | none => none
  | some e => some ((e.2, mGet om.m e.2), elemNext om.l e.1)

/-- One call of the closure returned by EntriesReverseIter. -/
def iterStepBack (om : Map) : Option (Nat × String) →
    Option ((String × Value) × Option (Nat × String))
  | none => none
  | some e => some ((e.2, mGet om.m e.2), elemPrev om.l e.1)

/-- Drain a forward cursor against the live map (fuel bounds the calls). -/
def drainIter : Nat → Map → Option (Nat × String) → List (String × Value)
  | 0, _, _ => []
  | fuel + 1, om, cur =>
      match iterStep om cur with
      | none => []
      | some (pair, cur1) => pair :: drainIter fuel om cur1

/-- Drain a backward cursor against the live map. -/
def drainIterBack : Nat → Map → Option (Nat × String) → List (String × Value)
  | 0, _, _ => []
  | fuel + 1, om, cur =>
      match iterStepBack om cur with
      | none => []
      | some (pair, cur1) => pair :: drainIterBack fuel om cur1

/-- Full forward iteration of an unmutated map: create a cursor and drain it
(enough fuel for every element). -/
def Map.iterateAll (om : Map) : List (String × Value) :=
  drainIter om.l.length om om.EntriesIter

/-- Full backward iteration of an unmutated map. -/
def Map.iterateAllBack (om : Map) : List (String × Value) :=
  drainIterBack om.l.length om om.EntriesReverseIter

/-! ### Deep equality

reflect.DeepEqual on the stored dynamic values: values of distinct dynamic
types are never equal; json.Number compares as its string; slices compare
pointwise; *Map pointers dereference and compare the struct: the hash map m
compares as a map (same key set, deep-equal values — order of the association
list is irrelevant), the linked list l compares as the sequence of keys it
holds (element identities are pointers in Go and are not observable), and the
keys index is determined by l for every state the code can build, so it adds
no constraint.  The model artifact nextId has no Go counterpart and is not
compared. -/

mutual

def deepEqual : Value → Value → Bool
  | .vnull, .vnull => true
  | .vbool a, .vbool b => a == b
  | .vnum a, .vnum b => a == b
  | .vstr a, .vstr b => a == b
  | .varr a, .varr b => deepEqualList a b
  | .vmap a, .vmap b => deepEqualMap a b
  | _, _ => false
termination_by a _ => sizeOf a

def deepEqualList : List Value → List Value → Bool
  | [], [] => true
  | a :: as1, b :: bs => deepEqual a b && deepEqualList as1 bs
  | _, _ => false
termination_by l _ => sizeOf l

/-- Every entry of the first Go map is present in the second with a
deep-equal value. -/
def deepEqualEntries : List (String × Value) → List (String × Value) → Bool
  | [], _ => true
  | (k, v) :: rest, b =>
      (match alistFind b k with
       | some w => deepEqual v w
       | none => false) && deepEqualEntries rest b
termination_by l _ => sizeOf l

def deepEqualMap : Map → Map → Bool
  | .mk m l _ _, b =>
      m.length == b.m.length && deepEqualEntries m b.m &&
      decide (l.map Prod.snd = b.l.map Prod.snd)
termination_by a _ => sizeOf a

end

/-- KVPair.Equal (source): both nil, or both non-nil with equal Key and
reflect.DeepEqual Values.  A *KVPair is modelled as Option (String × Value),
none standing for the nil pointer. -/
def KVPairEqual : Option (String × Value) → Option (String × Value) → Bool
  | none, none => true
  | some p, some q => p.1 == q.1 && deepEqual p.2 q.2
  | _, _ => false

/-- The comparison loop of Map.Equal: pairs from the first iterator drive the
loop; the second iterator may run out (its nil pair then fails KVPair.Equal). -/
def eqLoop : List (String × Value) → List (String × Value) → Bool
  | [], _ => true
  | p :: ps, [] => KVPairEqual (some p) none && eqLoop ps []
  | p :: ps, q :: qs => KVPairEqual (some p) (some q) && eqLoop ps qs

/-- Map.Equal (source): true if both are nil; false if exactly one is nil;
otherwise equal lengths and the iterator loop succeeds.  A *Map is modelled
as Option Map, none standing for the nil pointer. -/
def Map.Equal : Option Map → Option Map → Bool
  | none, none => true
  | some _, none => false
  | none, some _ => false
  | some om, some other =>
      if om.Len = other.Len then eqLoop om.iterateAll other.iterateAll
      else false

/-! ### Well-formedness

The representation invariant every reachable Map satisfies: the hash map, the
order list and the key index hold the same keys (the association list m is
kept parallel to l, which in particular puts their key sets in bijection),
keys in l are pairwise distinct, element identities are pairwise distinct and
below the allocation counter, the index maps each key to the identity of its
element, and every stored value is itself well formed. -/

mutual

def wfValue : Value → Bool
  | .varr vs => wfList vs
  | .vmap om => wfMap om
  | _ => true
termination_by v => sizeOf v

def wfList : List Value → Bool
  | [] => true
  | v :: vs => wfValue v && wfList vs
termination_by l => sizeOf l

def wfEntries : List (String × Value) → Bool
  | [] => true
  | (_, v) :: rest => wfValue v && wfEntries rest
termination_by l => sizeOf l

def wfMap : Map → Bool
  | .mk m l ks nid =>
      decide (m.map Prod.fst = l.map Prod.snd) &&
      decide ((l.map Prod.snd).Nodup) &&
      decide ((l.map Prod.fst).Nodup) &&
      decide (ks = l.map (fun e => (e.2, e.1))) &&
      l.all (fun e => e.1 < nid) &&
      wfEntries m
termination_by om => sizeOf om

end

/-! ### Lexical layer of the JSON decoder

Models the scanning and literal decoding done by encoding/json underneath
Decoder.Token() (with dec.UseNumber(): numbers are captured as their lexical
strings). -/

/-- JSON whitespace (the characters the scanner skips). -/
def isWs (c : Char) : Bool := c == ' ' || c == '\t' || c == '\n' || c == '\r'

def skipWs : List Char → List Char
  | [] => []
  | c :: cs => if isWs c then skipWs cs else c :: cs

def isDigit (c : Char) : Bool := '0' ≤ c && c ≤ '9'

def takeDigits : List Char → List Char × List Char
  | [] => ([], [])
  | c :: cs =>
      if isDigit c then
        let p := takeDigits cs
        (c :: p.1, p.2)
      else ([], c :: cs)

def hexVal (c : Char) : Option Nat :=
  if '0' ≤ c ∧ c ≤ '9' then some (c.toNat - '0'.toNat)
  else if 'a' ≤ c ∧ c ≤ 'f' then some (c.toNat - 'a'.toNat + 10)
  else if 'A' ≤ c ∧ c ≤ 'F' then some (c.toNat - 'A'.toNat + 10)
  else none

/-- Single-character escapes the scanner accepts after a backslash
(besides u). -/
def unescape : Char → Option Char
  | '"' => some '"'
  | '\\' => some '\\'
  | '/' => some '/'
  | 'b' => some (Char.ofNat 8)
  | 'f' => some (Char.ofNat 12)
  | 'n' => some '\n'
  | 'r' => some '\r'
  | 't' => some '\t'
  | _ => none

/-- Errors of the token machine: eof models io.EOF from Token() at a clean
position; msg models every other decoding error. -/
inductive JErr where
  | eof : JErr
  | msg : String → JErr
deriving DecidableEq

/-- Scan the contents of a string literal after its opening quote into UTF-16
code units: raw characters (control characters are rejected), simple escapes,
and \u escapes with exactly four hex digits (anything else is a scanner
error).  The scanner validates the whole literal before the units are
combined, exactly as encoding/json scans a string value completely before
unquoting it.  The accumulator collects the code points in reverse. -/
def readStringRaw : List Nat → List Char → Except JErr (List Nat × List Char)
  | _, [] => .error (.msg "unexpected end of JSON input")
  | acc, '"' :: rest => .ok (acc.reverse, rest)
  | acc, '\\' :: 'u' :: a :: b :: c :: d :: rest =>
      (match hexVal a, hexVal b, hexVal c, hexVal d with
       | some x, some y, some z, some w =>
           readStringRaw ((((x * 16 + y) * 16 + z) * 16 + w) :: acc) rest
       | _, _, _, _ => .error (.msg "invalid hex escape in string"))
  | acc, '\\' :: e :: rest =>
      (match unescape e with
       | some ch => readStringRaw (ch.toNat :: acc) rest
       | none => .error (.msg "invalid escape in string"))
  | acc, c :: rest =>
      if c.toNat < 0x20 then .error (.msg "invalid control character in string literal")
      else readStringRaw (c.toNat :: acc) rest

/-- Combine the scanned code units into characters, pairing UTF-16
surrogates: a high surrogate combines with an immediately following low
surrogate; any lone surrogate becomes U+FFFD, consuming only itself — the
pairing discipline of the unquote step of encoding/json.  Units that did not
come from \u escapes are valid scalar values and are never surrogates. -/
def surrPairSt : Option Nat → List Nat → List Char
  | none, [] => []
  | some _, [] => [Char.ofNat 0xFFFD]
  | none, n :: rest =>
      if 0xD800 ≤ n ∧ n < 0xDC00 then surrPairSt (some n) rest
      else if 0xDC00 ≤ n ∧ n < 0xE000 then Char.ofNat 0xFFFD :: surrPairSt none rest
      else Char.ofNat n :: surrPairSt none rest
  | some h, n :: rest =>
      if 0xDC00 ≤ n ∧ n < 0xE000 then
        Char.ofNat (0x10000 + (h - 0xD800) * 0x400 + (n - 0xDC00)) :: surrPairSt none rest
      else if 0xD800 ≤ n ∧ n < 0xDC00 then Char.ofNat 0xFFFD :: surrPairSt (some n) rest
      else Char.ofNat 0xFFFD :: Char.ofNat n :: surrPairSt none rest

def surrPair (ns : List Nat) : List Char := surrPairSt none ns

/-- Decode a string literal after its opening quote: scan, then combine. -/
def readString (cs : List Char) : Except JErr (String × List Char) :=
  match readStringRaw [] cs with
  | .ok (ns, rest) => .ok (⟨surrPair ns⟩, rest)
  | .error e => .error e

/-- A complete scalar or literal must be followed by whitespace, a comma, a
closing delimiter, or end of input (the scanner rejects any other
continuation while reading the value). -/
def litEndOk : List Char → Bool
  | [] => true
  | c :: _ => isWs c || c == ',' || c == rbrace || c == ']'

/-- Scan a JSON number lexeme (grammar of the scanner:
minus? (0 | [1-9][0-9]*) (. [0-9]+)? ([eE][+-]?[0-9]+)?) and return it as the
json.Number lexical string. -/
def readNumber (cs : List Char) : Except JErr (String × List Char) :=
  let signed : List Char × List Char :=
    match cs with
    | '-' :: r => (['-'], r)
    | _ => ([], cs)
  match signed.2 with
  | [] => .error (.msg "invalid numeric literal")
  | c :: r1 =>
      if h0 : c = '0' then
        numTail (signed.1 ++ ['0']) r1
      else if isDigit c then
        let p := takeDigits r1
        numTail (signed.1 ++ c :: p.1) p.2
      else .error (.msg "invalid character in numeric literal")
where
  /-- Optional fraction and exponent, then the end-of-value check. -/
  numTail (intPart : List Char) (rest : List Char) : Except JErr (String × List Char) :=
    let frac : Except JErr (List Char × List Char) :=
      match rest with
      | '.' :: r =>
          let p := takeDigits r
          if p.1.isEmpty then .error (.msg "invalid character after decimal point")
          else .ok ('.' :: p.1, p.2)
      | _ => .ok ([], rest)
    match frac with
    | .error e => .error e
    | .ok (fracPart, r2) =>
        let expo : Except JErr (List Char × List Char) :=
          match r2 with
          | 'e' :: r | 'E' :: r =>
              let sgn : List Char × List Char :=
                match r with
                | '+' :: r3 => (['+'], r3)
                | '-' :: r3 => (['-'], r3)
                | _ => ([], r)
              let p := takeDigits sgn.2
              if p.1.isEmpty then .error (.msg "invalid character in exponent")
              else .ok ((r2.head?.toList) ++ sgn.1 ++ p.1, p.2)
          | _ => .ok ([], r2)
        match expo with
        | .error e => .error e
        | .ok (expPart, r3) =>
            if litEndOk r3 then .ok (⟨intPart ++ fracPart ++ expPart⟩, r3)
            else .error (.msg "invalid character after numeric literal")

/-- The leading-minus phase of readNumber, split out for the lexical lemmas
(definitionally the let signed of readNumber). -/
def minusStep (cs : List Char) : List Char × List Char :=
  match cs with
  | '-' :: r => (['-'], r)
  | _ => ([], cs)

/-- The exponent-sign phase of numTail, split out for the lexical lemmas. -/
def signStep (r : List Char) : List Char × List Char :=
  match r with
  | '+' :: r3 => (['+'], r3)
  | '-' :: r3 => (['-'], r3)
  | _ => ([], r)

/-- The fraction phase of numTail, split out for the lexical lemmas. -/
def fracStep (rest : List Char) : Except JErr (List Char × List Char) :=
  match rest with
  | '.' :: r =>
      let p := takeDigits r
      if p.1.isEmpty then .error (.msg "invalid character after decimal point")
      else .ok ('.' :: p.1, p.2)
  | _ => .ok ([], rest)

/-- The exponent phase of numTail, split out for the lexical lemmas. -/
def expoStep (r2 : List Char) : Except JErr (List Char × List Char) :=
  match r2 with
  | 'e' :: r | 'E' :: r =>
      let sgn := signStep r
      let p := takeDigits sgn.2
      if p.1.isEmpty then .error (.msg "invalid character in exponent")
      else .ok ((r2.head?.toList) ++ sgn.1 ++ p.1, p.2)
  | _ => .ok ([], r2)

/-- Tokens Decoder.Token() can yield (with UseNumber: numbers come back as
json.Number lexical strings). -/
inductive JToken where
  | tdelim : Char → JToken
  | tstr : String → JToken
  | tnum : String → JToken
  | tbool : Bool → JToken
  | tnull : JToken
deriving DecidableEq

/-- Decode one scalar value at the current position: a string, a number, or a
named literal (true / false / null); anything else is the scanner error for a
malformed value start. -/
def readScalar : List Char → Except JErr (JToken × List Char)
  | [] => .error .eof
  | c :: cs =>
      if c = '"' then
        match readString cs with
        | .ok (s, rest) => .ok (.tstr s, rest)
        | .error e => .error e
      else if c = '-' ∨ isDigit c then
        match readNumber (c :: cs) with
        | .ok (s, rest) => .ok (.tnum s, rest)
        | .error e => .error e
      else
        match c :: cs with
        | 't' :: 'r' :: 'u' :: 'e' :: rest =>
            if litEndOk rest then .ok (.tbool true, rest)
            else .error (.msg "invalid character after literal")
        | 'f' :: 'a' :: 'l' :: 's' :: 'e' :: rest =>
            if litEndOk rest then .ok (.tbool false, rest)
            else .error (.msg "invalid character after literal")
        | 'n' :: 'u' :: 'l' :: 'l' :: rest =>
            if litEndOk rest then .ok (.tnull, rest)
            else .error (.msg "invalid character after literal")
        | _ => .error (.msg "invalid character looking for beginning of value")

/-! ### The token machine

Models the state machine of json.Decoder.Token(): the decoder tracks where it
is inside the value (top level, inside an array, inside an object, before or
after a key, a colon, a comma) and consumes colons and commas silently at the
right states, returning only delimiters, keys and scalar values. -/

inductive TokState where
  | top | arrStart | arrVal | arrComma | objStart | objKey | objColon | objVal | objComma
deriving DecidableEq

/-- States at which a value may begin (tokenValueAllowed). -/
def valueAllowed : TokState → Bool
  | .top | .arrStart | .arrVal | .objVal => true
  | _ => false

/-- State transition after a value completes (tokenValueEnd). -/
def valueEnd : TokState → TokState
  | .arrStart | .arrVal => .arrComma
  | .objVal => .objComma
  | s => s

/-- The decoder handle: remaining input, the stack of enclosing states, and
the current token state. -/
structure Dec where
  input : List Char
  stk : List TokState
  st : TokState

/-- Decoder.Token(): skip whitespace, then dispatch on the next character;
consuming a colon or comma loops once more (gas bounds that loop; two steps
always suffice because after a consumed colon or comma no second one is
accepted). -/
def tokenCore : Nat → Dec → Except JErr (JToken × Dec)
  | 0, _ => .error (.msg "token machine gas exhausted")
  | gas + 1, d =>
      match skipWs d.input with
      | [] => .error .eof
      | c :: cs =>
          if c = '[' then
            if valueAllowed d.st then .ok (.tdelim '[', ⟨cs, d.st :: d.stk, .arrStart⟩)
            else .error (.msg "invalid character in token stream")
          else if c = ']' then
            if d.st = .arrStart ∨ d.st = .arrComma then
              match d.stk with
              | s :: rest => .ok (.tdelim ']', ⟨cs, rest, valueEnd s⟩)
              | [] => .error (.msg "invalid character in token stream")
            else .error (.msg "invalid character in token stream")
          else if c = lbrace then
            if valueAllowed d.st then .ok (.tdelim lbrace, ⟨cs, d.st :: d.stk, .objStart⟩)
            else .error (.msg "invalid character in token stream")
          else if c = rbrace then
            if d.st = .objStart ∨ d.st = .objComma then
              match d.stk with
              | s :: rest => .ok (.tdelim rbrace, ⟨cs, rest, valueEnd s⟩)
              | [] => .error (.msg "invalid character in token stream")
            else .error (.msg "invalid character in token stream")
          else if c = ':' then
            if d.st = .objColon then tokenCore gas ⟨cs, d.stk, .objVal⟩
            else .error (.msg "invalid character in token stream")
          else if c = ',' then
            if d.st = .arrComma then tokenCore gas ⟨cs, d.stk, .arrVal⟩
            else if d.st = .objComma then tokenCore gas ⟨cs, d.stk, .objKey⟩
            else .error (.msg "invalid character in token stream")
          else if c = '"' ∧ (d.st = .objStart ∨ d.st = .objKey) then
            match readString cs with
            | .ok (s, rest) => .ok (.tstr s, ⟨rest, d.stk, .objColon⟩)
            | .error e => .error e
          else if valueAllowed d.st then
            match readScalar (c :: cs) with
            | .ok (t, rest) => .ok (t, ⟨rest, d.stk, valueEnd d.st⟩)
            | .error e => .error e
          else .error (.msg "invalid character in token stream")

/-- Decoder.Token() (gas 2 always suffices, see tokenCore). -/
def token (d : Dec) : Except JErr (JToken × Dec) := tokenCore 2 d

/-- Decoder.More(): whether another element follows in the current array or
object (next non-space character exists and is not a closing delimiter). -/
def Dec.More (d : Dec) : Bool :=
  match skipWs d.input with
  | [] => false
  | c :: _ => !(c == ']' || c == rbrace)

/-! ### The recursive-descent decoder (source parseobject / parsearray /
handledelim / UnmarshalJSON)

parseobject mutates the receiver via Set and reports the error beside the
updated receiver, as the Go method does; fuel bounds the recursion (the Go
code recurses on the shrinking input, and UnmarshalJSON passes ample fuel). -/

/-- The code after parseobject's member loop: one more token that must be the
object-closing delimiter. -/
def closeObject (om : Map) (d : Dec) : Map × Except JErr Dec :=
  match token d with
  | .error e => (om, .error e)
  | .ok (.tdelim c, d1) =>
      if c = rbrace then (om, .ok d1)
      else (om, .error (.msg "expect JSON object close with right brace"))
  | .ok (_, _) => (om, .error (.msg "expect JSON object close with right brace"))

mutual

def parseobject : Nat → Map → Dec → Map × Except JErr Dec
  | 0, om, _ => (om, .error (.msg "recursion fuel exhausted"))
  | fuel + 1, om, d =>
      if d.More then
        match token d with
        | .error e => (om, .error e)
        | .ok (t, d1) =>
            match t with
            | .tstr key =>
                (match token d1 with
                 | .error .eof => closeObject om d1
                 | .error e => (om, .error e)
                 | .ok (vt, d2) =>
                     match handledelim fuel vt d2 with
                     | .error e => (om, .error e)
                     | .ok (value, d3) => parseobject fuel (om.Set key value) d3)
            | _ => (om, .error (.msg "expecting JSON key should be always a string"))
      else closeObject om d

def parsearray : Nat → Dec → Except JErr (List Value × Dec)
  | 0, _ => .error (.msg "recursion fuel exhausted")
  | fuel + 1, d =>
      if d.More then
        match token d with
        | .error e => .error e
        | .ok (t, d1) =>
            match handledelim fuel t d1 with
            | .error e => .error e
            | .ok (value, d2) =>
                match parsearray fuel d2 with
                | .error e => .error e
                | .ok (arr, d3) => .ok (value :: arr, d3)
      else
        match token d with
        | .error e => .error e
        | .ok (.tdelim c, d1) =>
            if c = ']' then .ok ([], d1)
            else .error (.msg "expect JSON array close with right bracket")
        | .ok (_, _) => .error (.msg "expect JSON array close with right bracket")

def handledelim : Nat → JToken → Dec → Except JErr (Value × Dec)
  | 0, _, _ => .error (.msg "recursion fuel exhausted")
  | fuel + 1, t, d =>
      match t with
      | .tdelim c =>
          if c = lbrace then
            match parseobject fuel NewMap d with
            | (om, .ok d1) => .ok (.vmap om, d1)
            | (_, .error e) => .error e
          else if c = '[' then
            match parsearray fuel d with
            | .ok (arr, d1) => .ok (.varr arr, d1)
            | .error e => .error e
          else .error (.msg "unexpected delimiter")
      | .tstr s => .ok (.vstr s, d)
      | .tnum s => .ok (.vnum s, d)
      | .tbool b => .ok (.vbool b, d)
      | .tnull => .ok (.vnull, d)

end

/-- UnmarshalJSON (source): a fresh decoder with UseNumber, an opening
object delimiter, parseobject into the receiver, and exactly io.EOF after the
top-level object.  Returns the receiver state after the call together with
the error, if any (the Go method mutates its receiver in place and returns
only the error). -/
def Map.UnmarshalJSON (om : Map) (data : String) : Map × Option JErr :=
  let d0 : Dec := ⟨data.data, [], .top⟩
  match token d0 with
  | .error e => (om, some e)
  | .ok (.tdelim c, d1) =>
      if c = lbrace then
        match parseobject (2 * data.length + 2) om d1 with
        | (om1, .error e) => (om1, some e)
        | (om1, .ok d2) =>
            match token d2 with
            | .error .eof => (om1, none)
            | _ => (om1, some (.msg "expect end of JSON object but got more token"))
      else (om, some (.msg "expect JSON object open with left brace"))
  | .ok (_, _) => (om, some (.msg "expect JSON object open with left brace"))

/-! ### The JSON encoder

Models Map.MarshalJSON and the json.Marshal encoding of the stored values:
keys are rendered with fmt.Sprintf("%q", k) (strconv.Quote, Go source-style
escaping), values with json.Marshal (JSON escaping with HTML escaping on, as
json.Marshal defaults to); a nested *Map value goes through its own
MarshalJSON and json.Marshal then compacts that output with HTML escaping. -/

def toHexDigitL (n : Nat) : Char :=
  if n < 10 then Char.ofNat ('0'.toNat + n) else Char.ofNat ('a'.toNat + (n - 10))

/-- A backslash-u escape with four lowercase hex digits. -/
def uEscape (n : Nat) : List Char :=
  ['\\', 'u', toHexDigitL (n / 4096 % 16), toHexDigitL (n / 256 % 16),
    toHexDigitL (n / 16 % 16), toHexDigitL (n % 16)]

/-- One character of a string value as json.Marshal emits it (escapeHTML on):
quote, backslash and the named control escapes; other control characters,
angle brackets and ampersand as backslash-u; U+2028 and U+2029 escaped; all
other characters raw. -/
def jsonEscapeChar (c : Char) : List Char :=
  if c = '"' then ['\\', '"']
  else if c = '\\' then ['\\', '\\']
  else if c = '\n' then ['\\', 'n']
  else if c = '\r' then ['\\', 'r']
  else if c = '\t' then ['\\', 't']
  else if c.toNat < 0x20 ∨ c = '<' ∨ c = '>' ∨ c = '&' then uEscape c.toNat
  else if c.toNat = 0x2028 ∨ c.toNat = 0x2029 then uEscape c.toNat
  else [c]

/-- json.Marshal of a string value. -/
def jsonQuote (s : String) : String :=
  ⟨'"' :: (s.data.flatMap jsonEscapeChar ++ ['"'])⟩

/-- One character of a key as fmt %q (strconv.Quote) emits it: quote and
backslash escaped, printable ASCII raw, the named Go escapes
(a b f n r t v), remaining ASCII (including DEL) as backslash-x hex.
Non-ASCII runes are modelled raw (Go keeps printable runes raw and escapes
the unprintable rest as backslash-u; the theorems below only quantify over
ASCII keys, where the model is exact). -/
def goQuoteChar (c : Char) : List Char :=
  if c = '"' then ['\\', '"']
  else if c = '\\' then ['\\', '\\']
  else if 0x20 ≤ c.toNat ∧ c.toNat ≤ 0x7e then [c]
  else if c.toNat = 0x07 then ['\\', 'a']
  else if c.toNat = 0x08 then ['\\', 'b']
  else if c.toNat = 0x0c then ['\\', 'f']
  else if c = '\n' then ['\\', 'n']
  else if c = '\r' then ['\\', 'r']
  else if c = '\t' then ['\\', 't']
  else if c.toNat = 0x0b then ['\\', 'v']
  else if c.toNat < 0x80 then ['\\', 'x', toHexDigitL (c.toNat / 16), toHexDigitL (c.toNat % 16)]
  else [c]

/-- fmt.Sprintf("%q", k): strconv.Quote of the key. -/
def goQuote (s : String) : String :=
  ⟨'"' :: (s.data.flatMap goQuoteChar ++ ['"'])⟩

/-- One character as the compact step of json.Marshal rewrites embedded
Marshaler output (escapeHTML): raw angle brackets, ampersand and the two
line separators become backslash-u escapes. -/
def htmlEscChar (c : Char) : List Char :=
  if c = '<' ∨ c = '>' ∨ c = '&' ∨ c.toNat = 0x2028 ∨ c.toNat = 0x2029 then uEscape c.toNat
  else [c]

def htmlEsc (s : String) : String := ⟨s.data.flatMap htmlEscChar⟩

/-- The string-literal renderings of one character that the scanner decodes
back to exactly that character: the raw character (printable, unescaped), the
named escapes, or a backslash-u escape of its code point (below the surrogate
range).  Each per-character key and value escaper used by the encoder lands in
this relation, which drives the round-trip lemmas. -/
def encCharOk (c : Char) (l : List Char) : Prop :=
  (l = [c] ∧ 0x20 ≤ c.toNat ∧ c ≠ '"' ∧ c ≠ '\\') ∨
  (l = ['\\', '"'] ∧ c = '"') ∨
  (l = ['\\', '\\'] ∧ c = '\\') ∨
  (l = ['\\', 'n'] ∧ c = '\n') ∨
  (l = ['\\', 'r'] ∧ c = '\r') ∨
  (l = ['\\', 't'] ∧ c = '\t') ∨
  (l = uEscape c.toNat ∧ c.toNat < 0xD800)

/-- The characters a JSON number literal can contain (digits, sign, decimal
point, exponent markers); none is affected by the compact-step HTML
escaping. -/
def numChar (c : Char) : Bool :=
  isDigit c || c == '-' || c == '+' || c == '.' || c == 'e' || c == 'E'

/-- Go isValidNumber (the check json.Marshal applies to a json.Number):
the whole string is one number of the JSON grammar.  Modelled by the number
scanner consuming the entire string. -/
def isValidNumber (s : String) : Bool :=
  match readNumber s.data with
  | .ok (_, []) => true
  | _ => false

/-- Size bound for association-list lookup; used by the termination argument
of the encoder and of the structural-equality functions below. -/
def alistFind_sizeOf_lt :
    ∀ (m : List (String × Value)) (key : String) (v : Value),
      alistFind m key = some v → sizeOf v < sizeOf m
  | [], _, _, h => by simp [alistFind] at h
  | (k0, v0) :: rest, key, v, h => by
      by_cases hk : k0 = key
      · simp only [alistFind, hk, if_pos] at h
        cases h
        simp only [List.cons.sizeOf_spec, Prod.mk.sizeOf_spec]
        omega
      · simp only [alistFind, hk, if_neg, if_false] at h
        have := alistFind_sizeOf_lt rest key v h
        simp only [List.cons.sizeOf_spec]
        omega

/-- Size bound for the Go read m[key]; termination helper. -/
def mGet_sizeOf_le (m : List (String × Value)) (key : String) :
    sizeOf (mGet m key) ≤ sizeOf m := by
  unfold mGet
  match hfind : alistFind m key with
  | some v =>
      simp only [Option.getD]
      exact Nat.le_of_lt (alistFind_sizeOf_lt m key v hfind)
  | none =>
      simp only [Option.getD]
      cases m with
      | nil => simp
      | cons a rest =>
          simp only [List.cons.sizeOf_spec, Value.vnull.sizeOf_spec]
          omega

mutual

/-- json.Marshal restricted to the value shapes the map can hold.  A
json.Number must be a valid literal; a nested *Map uses its MarshalJSON whose
output the encoder compacts with HTML escaping. -/
def marshalValue : Value → Except String String
  | .vnull => .ok "null"
  | .vbool b => .ok (if b then "true" else "false")
  | .vnum s => if isValidNumber s then .ok s else .error "json: invalid number literal"
  | .vstr s => .ok (jsonQuote s)
  | .varr vs =>
      (match marshalList vs with
       | .ok body => .ok ("[" ++ body ++ "]")
       | .error e => .error e)
  | .vmap om =>
      (match Map.MarshalJSON om with
       | .ok s => .ok (htmlEsc s)
       | .error e => .error e)
termination_by v => sizeOf v

/-- Comma-separated encodings of array elements. -/
def marshalList : List Value → Except String String
  | [] => .ok ""
  | [v] => marshalValue v
  | v :: rest =>
      (match marshalValue v, marshalList rest with
       | .ok a, .ok b => .ok (a ++ "," ++ b)
       | .error e, _ => .error e
       | _, .error e => .error e)
termination_by l => sizeOf l

/-- The member loop of Map.MarshalJSON: for each element of l, the %q-quoted
key, a colon, the json.Marshal of om.m[key], with commas between members. -/
def marshalEntries : List (Nat × String) → List (String × Value) → Except String String
  | [], _ => .ok ""
  | [e], m =>
      (match marshalValue (mGet m e.2) with
       | .ok b => .ok (goQuote e.2 ++ ":" ++ b)
       | .error er => .error er)
  | e :: rest, m =>
      (match marshalValue (mGet m e.2), marshalEntries rest m with
       | .ok b, .ok tl => .ok (goQuote e.2 ++ ":" ++ b ++ "," ++ tl)
       | .error er, _ => .error er
       | _, .error er => .error er)
termination_by l m => sizeOf m + sizeOf l
decreasing_by all_goals
  (have h := mGet_sizeOf_le m e.2
   simp only [List.cons.sizeOf_spec, List.nil.sizeOf_spec]
   omega)

/-- Map.MarshalJSON (source): an opening brace, the members in l order, a
closing brace; the first value error aborts (the Go method returns the error
beside the partial bytes, which the caller then discards). -/
def Map.MarshalJSON : Map → Except String String
  | .mk m l _ _ =>
      (match marshalEntries l m with
       | .ok body => .ok (⟨[lbrace]⟩ ++ body ++ ⟨[rbrace]⟩)
       | .error e => .error e)
termination_by om => sizeOf om

end

/-- The member loop of the encoder with the per-character key escaper
abstracted: instantiated with goQuoteChar it is marshalEntries, and with
goQuoteChar followed by the compact-step HTML escaping it is the member text
of a nested map after the enclosing json.Marshal re-escapes it. -/
def emitEntriesF (f : Char → List Char) :
    List (Nat × String) → List (String × Value) → Except String String
  | [], _ => .ok ""
  | [e], m =>
      (match marshalValue (mGet m e.2) with
       | .ok b => .ok (⟨'"' :: (e.2.data.flatMap f ++ ['"'])⟩ ++ ":" ++ b)
       | .error er => .error er)
  | e :: rest, m =>
      (match marshalValue (mGet m e.2), emitEntriesF f rest m with
       | .ok b, .ok tl =>
           .ok (⟨'"' :: (e.2.data.flatMap f ++ ['"'])⟩ ++ ":" ++ b ++ "," ++ tl)
       | .error er, _ => .error er
       | _, .error er => .error er)

/-! ### Spec-modelled structural equality

Second definition for the refinement claim on Map.Equal, following the spec
words: both nil are equal; both non-nil are equal iff same length and the
forward iterations produce identical (key, value) pairs in identical order
under deep structural value comparison, where the structural comparison
recurses over the value variants (scalar, ordered sequence, nested ordered
map, the latter again compared pairwise in order). -/

mutual

def specStructEq : Value → Value → Bool
  | .vnull, .vnull => true
  | .vbool a, .vbool b => a == b
  | .vnum a, .vnum b => a == b
  | .vstr a, .vstr b => a == b
  | .varr a, .varr b => specSeqEq a b
  | .vmap (.mk m1 l1 _ _), .vmap (.mk m2 l2 _ _) => specEntriesEq l1 m1 l2 m2
  | _, _ => false
termination_by a _ => sizeOf a

def specSeqEq : List Value → List Value → Bool
  | [], [] => true
  | a :: as1, b :: bs => specStructEq a b && specSeqEq as1 bs
  | _, _ => false
termination_by l _ => sizeOf l

/-- Pairwise in-order comparison of the (key, value) sequences of two maps,
reading values the way iteration does. -/
def specEntriesEq :
    List (Nat × String) → List (String × Value) → List (Nat × String) → List (String × Value) → Bool
  | [], _, [], _ => true
  | e1 :: l1, m1, e2 :: l2, m2 =>
      e1.2 == e2.2 && specStructEq (mGet m1 e1.2) (mGet m2 e2.2) && specEntriesEq l1 m1 l2 m2
  | _, _, _, _ => false
termination_by l1 m1 _ _ => sizeOf m1 + sizeOf l1
decreasing_by all_goals
  (have h := mGet_sizeOf_le m1 e1.2
   simp only [List.cons.sizeOf_spec, List.nil.sizeOf_spec]
   omega)

end

/-- Spec-modelled Map.Equal: nil maps are equal, a nil and a non-nil map are
not, two non-nil maps are equal iff their iterations agree pairwise in order
(which forces equal lengths) under specStructEq. -/
def specEqual : Option Map → Option Map → Bool
  | none, none => true
  | some (.mk m1 l1 _ _), some (.mk m2 l2 _ _) => specEntriesEq l1 m1 l2 m2
  | _, _ => false

/-! ### Round-trip safety

Keys made of printable ASCII quote identically under Go %q quoting and JSON
string escaping (up to the HTML escapes, which decode back); numbers must be
valid literals for json.Marshal to accept them.  rtSafe delimits the maps for
which the encode-then-decode round trip is proven below. -/

def safeKeyChar (c : Char) : Bool :=
  0x20 ≤ c.toNat && c.toNat ≤ 0x7e

mutual

def rtSafeValue : Value → Bool
  | .vnum s => isValidNumber s
  | .varr vs => rtSafeList vs
  | .vmap om => rtSafeMap om
  | _ => true
termination_by v => sizeOf v

def rtSafeList : List Value → Bool
  | [] => true
  | v :: vs => rtSafeValue v && rtSafeList vs
termination_by l => sizeOf l

def rtSafeEntries : List (String × Value) → Bool
  | [] => true
  | (k, v) :: rest => k.data.all safeKeyChar && rtSafeValue v && rtSafeEntries rest
termination_by l => sizeOf l

def rtSafeMap : Map → Bool
  | .mk m _ _ _ => rtSafeEntries m
termination_by om => sizeOf om

end

/-- The two-step value read inside the member loops: one token, then
handledelim on it (the composition parseobject and parsearray use). -/
def parseValue (fuel : Nat) (d : Dec) : Except JErr (Value × Dec) :=
  match token d with
  | .error e => .error e
  | .ok (t, d1) => handledelim fuel t d1

/-! ### Encoder layout, spec-modelled

Modelled from the spec words for the encoder contract: an opening brace, then
for each key in order-sequence order the escaped key, a colon and the JSON
encoding of its value, the pairs comma-separated, then a closing brace.  The
pair sequence is the iteration view toPairs; the per-key and per-value
encoders are the implementation primitives (the spec fixes the layout and the
order; that the key escaper is Go quoting rather than pure JSON escaping is
established separately by a counterexample). -/

/-- Comma-join of the encoded pairs (the spec words: pairs comma-separated). -/
def joinComma : List String → String
  | [] => ""
  | [x] => x
  | x :: rest => x ++ "," ++ joinComma rest

def encodeSpecList : List (String × Value) → Except String (List String)
  | [] => .ok []
  | (k, v) :: rest =>
      (match marshalValue v, encodeSpecList rest with
       | .ok b, .ok parts => .ok ((goQuote k ++ ":" ++ b) :: parts)
       | .error e, _ => .error e
       | _, .error e => .error e)

def encodeSpec (om : Map) : Except String String :=
  match encodeSpecList om.toPairs with
  | .ok parts => .ok (⟨[lbrace]⟩ ++ joinComma parts ++ ⟨[rbrace]⟩)
  | .error e => .error e

/-! ### Values json.Marshal cannot represent

Within the modelled value shapes, the unrepresentable values are exactly the
json.Number literals failing isValidNumber (Go reports
json: invalid number literal for them). -/

mutual

def hasBadNumValue : Value → Bool
  | .vnum s => !isValidNumber s
  | .varr vs => hasBadNumList vs
  | .vmap om => hasBadNumMap om
  | _ => false
termination_by v => sizeOf v

def hasBadNumList : List Value → Bool
  | [] => false
  | v :: vs => hasBadNumValue v || hasBadNumList vs
termination_by l => sizeOf l

def hasBadNumEntries : List (String × Value) → Bool
  | [] => false
  | (_, v) :: rest => hasBadNumValue v || hasBadNumEntries rest
termination_by l => sizeOf l

def hasBadNumMap : Map → Bool
  | .mk m _ _ _ => hasBadNumEntries m
termination_by om => sizeOf om

end

/-! ## Lemmas -/

/-! ### Association lists -/

theorem alistFind_store_self {α : Type} (m : List (String × α)) (k : String) (v : α) :
    alistFind (alistStore m k v) k = some v := by
  induction m with
  | nil => simp [alistStore, alistFind]
  | cons a rest ih =>
      obtain ⟨k0, v0⟩ := a
      by_cases h : k0 = k
      · simp [alistStore, alistFind, h]
      · simp [alistStore, alistFind, h, ih]

theorem alistFind_store_ne {α : Type} (m : List (String × α)) (k k1 : String) (v : α)
    (h : k1 ≠ k) : alistFind (alistStore m k v) k1 = alistFind m k1 := by
  induction m with
  | nil => simp [alistStore, alistFind, Ne.symm h]
  | cons a rest ih =>
      obtain ⟨k0, v0⟩ := a
      by_cases h0 : k0 = k
      · subst h0
        simp [alistStore, alistFind, Ne.symm h]
      · by_cases h1 : k0 = k1
        · simp [alistStore, alistFind, h0, h1, h]
        · simp [alistStore, alistFind, h0, h1, ih]

theorem alistFind_eq_none {α : Type} (m : List (String × α)) (k : String) :
    alistFind m k = none ↔ k ∉ m.map Prod.fst := by
  induction m with
  | nil => simp [alistFind]
  | cons a rest ih =>
      obtain ⟨k0, v0⟩ := a
      by_cases h : k0 = k
      · simp [alistFind, h]
      · simp [alistFind, h, ih, Ne.symm h]

theorem alistStore_of_found {α : Type} (m : List (String × α)) (k : String) (v : α)
    (h : alistFind m k ≠ none) :
    (alistStore m k v).map Prod.fst = m.map Prod.fst := by
  induction m with
  | nil => simp [alistFind] at h
  | cons a rest ih =>
      obtain ⟨k0, v0⟩ := a
      by_cases h0 : k0 = k
      · simp [alistStore, h0]
      · simp only [alistFind, h0, if_neg, if_false] at h
        simp [alistStore, h0, ih h]

theorem alistStore_of_not_found {α : Type} (m : List (String × α)) (k : String) (v : α)
    (h : alistFind m k = none) : alistStore m k v = m ++ [(k, v)] := by
  induction m with
  | nil => simp [alistStore]
  | cons a rest ih =>
      obtain ⟨k0, v0⟩ := a
      by_cases h0 : k0 = k
      · simp [alistFind, h0] at h
      · simp only [alistFind, h0, if_neg, if_false] at h
        simp [alistStore, h0, ih h]

theorem alistErase_append_left {α : Type} (pre suf : List (String × α)) (k : String) (v : α)
    (h : k ∉ pre.map Prod.fst) :
    alistErase (pre ++ (k, v) :: suf) k = pre ++ suf := by
  induction pre with
  | nil => simp [alistErase]
  | cons a rest ih =>
      obtain ⟨k0, v0⟩ := a
      simp only [List.map_cons, List.mem_cons] at h
      push_neg at h
      simp [alistErase, Ne.symm h.1, ih h.2]

theorem alistFind_append_left {α : Type} (pre suf : List (String × α)) (k : String)
    (h : k ∉ pre.map Prod.fst) :
    alistFind (pre ++ suf) k = alistFind suf k := by
  induction pre with
  | nil => simp
  | cons a rest ih =>
      obtain ⟨k0, v0⟩ := a
      simp only [List.map_cons, List.mem_cons] at h
      push_neg at h
      simp [alistFind, Ne.symm h.1, ih h.2]

theorem listRemove_append_left (pre suf : List (Nat × String)) (id : Nat) (k : String)
    (h : id ∉ pre.map Prod.fst) :
    listRemove (pre ++ (id, k) :: suf) id = pre ++ suf := by
  induction pre with
  | nil => simp [listRemove]
  | cons a rest ih =>
      obtain ⟨i0, k0⟩ := a
      simp only [List.map_cons, List.mem_cons] at h
      push_neg at h
      simp [listRemove, Ne.symm h.1, ih h.2]

theorem wfEntries_append (m1 m2 : List (String × Value)) :
    wfEntries (m1 ++ m2) = (wfEntries m1 && wfEntries m2) := by
  induction m1 with
  | nil => simp [wfEntries]
  | cons a rest ih =>
      obtain ⟨k, v⟩ := a
      simp [wfEntries, ih, Bool.and_assoc]

theorem wfEntries_store (m : List (String × Value)) (k : String) (v : Value)
    (hm : wfEntries m = true) (hv : wfValue v = true) :
    wfEntries (alistStore m k v) = true := by
  induction m with
  | nil => simp [alistStore, wfEntries, hv]
  | cons a rest ih =>
      obtain ⟨k0, v0⟩ := a
      simp only [wfEntries, Bool.and_eq_true] at hm
      by_cases h0 : k0 = k
      · simp [alistStore, h0, wfEntries, hv, hm.2]
      · simp [alistStore, h0, wfEntries, hm.1, ih hm.2]

theorem wfEntries_erase (m : List (String × Value)) (k : String)
    (hm : wfEntries m = true) : wfEntries (alistErase m k) = true := by
  induction m with
  | nil => simpa [alistErase] using hm
  | cons a rest ih =>
      obtain ⟨k0, v0⟩ := a
      simp only [wfEntries, Bool.and_eq_true] at hm
      by_cases h0 : k0 = k
      · simp [alistErase, h0, hm.2]
      · simp [alistErase, h0, wfEntries, hm.1, ih hm.2]

/-! ### Map operations -/

@[simp] theorem Map.m_mk (m : List (String × Value)) (l : List (Nat × String))
    (ks : List (String × Nat)) (n : Nat) : (Map.mk m l ks n).m = m := rfl

@[simp] theorem Map.l_mk (m : List (String × Value)) (l : List (Nat × String))
    (ks : List (String × Nat)) (n : Nat) : (Map.mk m l ks n).l = l := rfl

@[simp] theorem Map.keys_mk (m : List (String × Value)) (l : List (Nat × String))
    (ks : List (String × Nat)) (n : Nat) : (Map.mk m l ks n).keys = ks := rfl

@[simp] theorem Map.nextId_mk (m : List (String × Value)) (l : List (Nat × String))
    (ks : List (String × Nat)) (n : Nat) : (Map.mk m l ks n).nextId = n := rfl

theorem Set_of_found (om : Map) (k : String) (v : Value)
    (h : (alistFind om.m k).isSome = true) :
    om.Set k v = .mk (alistStore om.m k v) om.l om.keys om.nextId := by
  unfold Map.Set
  match hf : alistFind om.m k with
  | some w => rfl
  | none => rw [hf] at h; simp at h

theorem Set_of_not_found (om : Map) (k : String) (v : Value)
    (h : alistFind om.m k = none) :
    om.Set k v = .mk (alistStore om.m k v) (om.l ++ [(om.nextId, k)])
      (alistStore om.keys k om.nextId) (om.nextId + 1) := by
  unfold Map.Set
  rw [h]

theorem Has_iff_find (om : Map) (k : String) :
    om.Has k = (alistFind om.m k).isSome := rfl

theorem toKeys_Set_found (om : Map) (k : String) (v : Value) (h : om.Has k = true) :
    (om.Set k v).toKeys = om.toKeys := by
  rw [Set_of_found om k v h]
  simp [Map.toKeys]

theorem toKeys_Set_new (om : Map) (k : String) (v : Value) (h : om.Has k = false) :
    (om.Set k v).toKeys = om.toKeys ++ [k] := by
  have hf : alistFind om.m k = none := by
    rw [Has_iff_find] at h
    exact Option.not_isSome_iff_eq_none.mp (by simp [h])
  rw [Set_of_not_found om k v hf]
  simp [Map.toKeys]

theorem Has_Set_self (om : Map) (k : String) (v : Value) : (om.Set k v).Has k = true := by
  unfold Map.Set
  match hf : alistFind om.m k with
  | some w => simp [Map.Has, alistFind_store_self]
  | none => simp [Map.Has, alistFind_store_self]

theorem Get_Set_self (om : Map) (k : String) (v : Value) : (om.Set k v).Get k = v := by
  unfold Map.Set
  match hf : alistFind om.m k with
  | some w => simp [Map.Get, mGet, alistFind_store_self]
  | none => simp [Map.Get, mGet, alistFind_store_self]

theorem Has_Set_other (om : Map) (k k1 : String) (v : Value) (h : k ≠ k1) :
    (om.Set k1 v).Has k = om.Has k := by
  unfold Map.Set
  match hf : alistFind om.m k1 with
  | some w => simp [Map.Has, alistFind_store_ne _ _ _ _ h]
  | none => simp [Map.Has, alistFind_store_ne _ _ _ _ h]

theorem Get_Set_other (om : Map) (k k1 : String) (v : Value) (h : k ≠ k1) :
    (om.Set k1 v).Get k = om.Get k := by
  unfold Map.Set
  match hf : alistFind om.m k1 with
  | some w => simp [Map.Get, mGet, alistFind_store_ne _ _ _ _ h]
  | none => simp [Map.Get, mGet, alistFind_store_ne _ _ _ _ h]

theorem Has_Set_preserve (om : Map) (k k1 : String) (v : Value) (h : om.Has k = true) :
    (om.Set k1 v).Has k = true := by
  by_cases hk : k = k1
  · subst hk; exact Has_Set_self om k v
  · rw [Has_Set_other om k k1 v hk]; exact h

/-- The conjuncts of wfMap, unfolded. -/
theorem wfMap_iff (m : List (String × Value)) (l : List (Nat × String))
    (ks : List (String × Nat)) (nid : Nat) :
    wfMap (.mk m l ks nid) = true ↔
      m.map Prod.fst = l.map Prod.snd ∧ (l.map Prod.snd).Nodup ∧
      (l.map Prod.fst).Nodup ∧ ks = l.map (fun e => (e.2, e.1)) ∧
      (∀ e ∈ l, e.1 < nid) ∧ wfEntries m = true := by
  rw [wfMap]
  simp [List.all_eq_true, Bool.and_eq_true, decide_eq_true_eq, and_assoc]

theorem wf_NewMap : wfMap NewMap = true := by
  show wfMap (.mk [] [] [] 0) = true
  rw [wfMap_iff]
  refine ⟨rfl, List.nodup_nil, List.nodup_nil, rfl, ?_, ?_⟩
  · intro e he; cases he
  · rw [wfEntries]

theorem wf_Set (om : Map) (k : String) (v : Value)
    (hwf : wfMap om = true) (hv : wfValue v = true) : wfMap (om.Set k v) = true := by
  obtain ⟨m, l, ks, nid⟩ := om
  rw [wfMap_iff] at hwf
  obtain ⟨h1, h2, h3, h4, h5, h6⟩ := hwf
  unfold Map.Set
  match hf : alistFind m k with
  | some w =>
      rw [wfMap_iff]
      simp only [Map.m_mk, Map.l_mk, Map.keys_mk, Map.nextId_mk] at hf ⊢
      refine ⟨?_, h2, h3, h4, h5, wfEntries_store m k v h6 hv⟩
      rw [alistStore_of_found m k v (by simp [hf])]
      exact h1
  | none =>
      rw [wfMap_iff]
      simp only [Map.m_mk, Map.l_mk, Map.keys_mk, Map.nextId_mk] at hf ⊢
      have hnotmem : k ∉ m.map Prod.fst := (alistFind_eq_none m k).mp hf
      have hnotl : k ∉ l.map Prod.snd := h1 ▸ hnotmem
      have hstore := alistStore_of_not_found m k v hf
      constructor
      · rw [hstore]; simp [h1]
      refine ⟨?_, ?_, ?_, ?_, ?_⟩
      · simp [List.nodup_append, h2, hnotl]
      · have hid : nid ∉ l.map Prod.fst := by
          intro hmem
          obtain ⟨e, he, heq⟩ := List.mem_map.mp hmem
          exact absurd (heq ▸ h5 e he) (by omega)
        simp [List.nodup_append, h3, hid]
      · have hks : alistFind ks k = none := by
          rw [alistFind_eq_none, h4]
          intro hmem
          obtain ⟨p, hp, heq⟩ := List.mem_map.mp hmem
          obtain ⟨e, he, heq2⟩ := List.mem_map.mp hp
          refine hnotl (List.mem_map.mpr ⟨e, he, ?_⟩)
          rw [← heq, ← heq2]
        rw [alistStore_of_not_found ks k nid hks, h4]
        simp
      · intro e he
        rcases List.mem_append.mp he with hl | hr
        · exact Nat.lt_succ_of_lt (h5 e hl)
        · simp only [List.mem_singleton] at hr
          subst hr
          exact Nat.lt_succ_self nid
      · rw [hstore, wfEntries_append]
        simp [h6, wfEntries, hv]

theorem find_swap_decomp (l : List (Nat × String)) (key : String) (id : Nat)
    (h : alistFind (l.map (fun e => (e.2, e.1))) key = some id) :
    ∃ pre suf, l = pre ++ (id, key) :: suf ∧ key ∉ pre.map Prod.snd := by
  induction l with
  | nil => simp [alistFind] at h
  | cons a rest ih =>
      obtain ⟨i0, k0⟩ := a
      by_cases hk : k0 = key
      · subst hk
        have h2 : i0 = id := by simpa [alistFind] using h
        exact ⟨[], rest, by simp [h2], by simp⟩
      · simp only [List.map_cons, alistFind, hk, if_neg, if_false] at h
        obtain ⟨pre, suf, hdec, hnot⟩ := ih h
        refine ⟨(i0, k0) :: pre, suf, by simp [hdec], ?_⟩
        simp only [List.map_cons, List.mem_cons]
        push_neg
        exact ⟨Ne.symm hk, hnot⟩

theorem alistErase_map_fst {α : Type} (m : List (String × α)) (k : String) :
    (alistErase m k).map Prod.fst = (m.map Prod.fst).erase k := by
  induction m with
  | nil => simp [alistErase]
  | cons a rest ih =>
      obtain ⟨k0, v0⟩ := a
      by_cases h0 : k0 = k
      · subst h0
        simp [alistErase, List.erase_cons_head]
      · rw [List.map_cons, List.erase_cons_tail (by simp [h0])]
        simp [alistErase, h0, ih]

/-- The fields of a successful Delete, decomposed at the first (unique)
occurrence of the key in the order list. -/
theorem Delete_eq_of_decomp (m : List (String × Value)) (pre suf : List (Nat × String))
    (ks : List (String × Nat)) (nid : Nat) (key : String) (id : Nat) (v : Value)
    (hf : alistFind m key = some v)
    (hks : alistFind ks key = some id)
    (hprefst : id ∉ pre.map Prod.fst) :
    (Map.mk m (pre ++ (id, key) :: suf) ks nid).Delete key =
      ((v, true),
        .mk (alistErase m key) (pre ++ suf) (alistErase ks key) nid) := by
  unfold Map.Delete
  simp only [Map.m_mk, Map.l_mk, Map.keys_mk, Map.nextId_mk, hf, hks]
  rw [listRemove_append_left pre suf id key hprefst]

theorem wf_Delete (om : Map) (key : String) (hwf : wfMap om = true) :
    wfMap ((om.Delete key).2) = true := by
  obtain ⟨m, l, ks, nid⟩ := om
  have hwf0 := hwf
  rw [wfMap_iff] at hwf0
  obtain ⟨h1, h2, h3, h4, h5, h6⟩ := hwf0
  cases hf : alistFind m key with
  | none =>
      have heq : (Map.mk m l ks nid).Delete key = ((.vnull, false), .mk m l ks nid) := by
        unfold Map.Delete
        simp only [Map.m_mk, Map.l_mk, Map.keys_mk, Map.nextId_mk, hf]
      rw [heq]
      exact hwf
  | some v =>
      have hmem : key ∈ m.map Prod.fst := by
        by_contra hn
        rw [← alistFind_eq_none] at hn
        rw [hf] at hn; cases hn
      have hmeml : key ∈ l.map Prod.snd := h1 ▸ hmem
      have hkssome : ∃ id, alistFind ks key = some id := by
        have hz : key ∈ ks.map Prod.fst := by
          rw [h4]
          obtain ⟨e, he, heq⟩ := List.mem_map.mp hmeml
          refine List.mem_map.mpr ⟨(e.2, e.1), List.mem_map.mpr ⟨e, he, rfl⟩, ?_⟩
          exact heq
        match hx : alistFind ks key with
        | some id => exact ⟨id, rfl⟩
        | none => rw [alistFind_eq_none] at hx; exact absurd hz hx
      obtain ⟨id, hks⟩ := hkssome
      obtain ⟨pre, suf, hdec, hpre⟩ := find_swap_decomp l key id (h4 ▸ hks)
      subst hdec
      have h3' := h3
      rw [List.map_append, List.map_cons, List.nodup_append] at h3'
      have hprefst : id ∉ pre.map Prod.fst := fun hmem2 => h3'.2.2 hmem2 (by simp)
      have h2' := h2
      rw [List.map_append, List.map_cons, List.nodup_append] at h2'
      have hsufsnd : key ∉ suf.map Prod.snd := (List.nodup_cons.mp h2'.2.1).1
      rw [Delete_eq_of_decomp m pre suf ks nid key id v hf hks hprefst]
      rw [wfMap_iff]
      refine ⟨?_, ?_, ?_, ?_, ?_, wfEntries_erase m key h6⟩
      · rw [alistErase_map_fst, h1, List.map_append, List.map_cons,
          List.erase_append_right _ hpre, List.map_append]
        simp [List.erase_cons_head]
      · have hsub : List.Sublist ((pre ++ suf).map Prod.snd)
            ((pre ++ (id, key) :: suf).map Prod.snd) := by
          rw [List.map_append, List.map_append, List.map_cons]
          exact List.Sublist.append_left (List.sublist_cons_self _ _) _
        exact h2.sublist hsub
      · have hsub : List.Sublist ((pre ++ suf).map Prod.fst)
            ((pre ++ (id, key) :: suf).map Prod.fst) := by
          rw [List.map_append, List.map_append, List.map_cons]
          exact List.Sublist.append_left (List.sublist_cons_self _ _) _
        exact h3.sublist hsub
      · rw [h4, List.map_append, List.map_cons,
          alistErase_append_left _ _ key id (by simpa using hpre), List.map_append]
      · intro e he
        exact h5 e (by
          rcases List.mem_append.mp he with hx | hx
          · exact List.mem_append.mpr (Or.inl hx)
          · exact List.mem_append.mpr (Or.inr (List.mem_cons_of_mem _ hx)))

/-! ### Delete postconditions -/

theorem alistFind_erase_self {α : Type} (m : List (String × α)) (k : String)
    (hnod : (m.map Prod.fst).Nodup) : alistFind (alistErase m k) k = none := by
  induction m with
  | nil => simp [alistErase, alistFind]
  | cons a rest ih =>
      obtain ⟨k0, v0⟩ := a
      simp only [List.map_cons, List.nodup_cons] at hnod
      by_cases h0 : k0 = k
      · subst h0
        rw [alistErase]
        simp only [if_pos]
        rw [alistFind_eq_none]
        exact hnod.1
      · rw [alistErase]
        rw [if_neg h0]
        rw [alistFind]
        rw [if_neg h0]
        exact ih hnod.2

theorem Has_Delete_self (om : Map) (key : String) (hwf : wfMap om = true) :
    ((om.Delete key).2).Has key = false := by
  obtain ⟨m, l, ks, nid⟩ := om
  rw [wfMap_iff] at hwf
  obtain ⟨h1, h2, h3, h4, h5, h6⟩ := hwf
  have hnod : (m.map Prod.fst).Nodup := h1 ▸ h2
  cases hf : alistFind m key with
  | none =>
      have heq : (Map.mk m l ks nid).Delete key = ((.vnull, false), .mk m l ks nid) := by
        unfold Map.Delete
        simp only [Map.m_mk, hf]
      rw [heq]
      simp [Map.Has, hf]
  | some v =>
      have heq : ((Map.mk m l ks nid).Delete key).2.m = alistErase m key := by
        unfold Map.Delete
        simp [hf]
      rw [Map.Has, heq, alistFind_erase_self m key hnod]
      rfl

theorem toKeys_Delete_not_mem (om : Map) (key : String) (hwf : wfMap om = true) :
    key ∉ ((om.Delete key).2).toKeys := by
  obtain ⟨m, l, ks, nid⟩ := om
  have hwf0 := hwf
  rw [wfMap_iff] at hwf0
  obtain ⟨h1, h2, h3, h4, h5, h6⟩ := hwf0
  cases hf : alistFind m key with
  | none =>
      have heq : (Map.mk m l ks nid).Delete key = ((.vnull, false), .mk m l ks nid) := by
        unfold Map.Delete
        simp only [Map.m_mk, hf]
      rw [heq]
      show key ∉ (Map.mk m l ks nid).toKeys
      rw [Map.toKeys]
      simp only [Map.l_mk]
      rw [← h1]
      exact (alistFind_eq_none m key).mp hf
  | some v =>
      have hmem : key ∈ m.map Prod.fst := by
        by_contra hn
        rw [← alistFind_eq_none] at hn
        rw [hf] at hn; cases hn
      have hmeml : key ∈ l.map Prod.snd := h1 ▸ hmem
      have hkssome : ∃ id, alistFind ks key = some id := by
        have hz : key ∈ ks.map Prod.fst := by
          rw [h4]
          obtain ⟨e, he, heq⟩ := List.mem_map.mp hmeml
          exact List.mem_map.mpr ⟨(e.2, e.1), List.mem_map.mpr ⟨e, he, rfl⟩, heq⟩
        match hx : alistFind ks key with
        | some id => exact ⟨id, rfl⟩
        | none => rw [alistFind_eq_none] at hx; exact absurd hz hx
      obtain ⟨id, hks⟩ := hkssome
      obtain ⟨pre, suf, hdec, hpre⟩ := find_swap_decomp l key id (h4 ▸ hks)
      subst hdec
      have h3' := h3
      rw [List.map_append, List.map_cons, List.nodup_append] at h3'
      have hprefst : id ∉ pre.map Prod.fst := fun hmem2 => h3'.2.2 hmem2 (by simp)
      have h2' := h2
      rw [List.map_append, List.map_cons, List.nodup_append] at h2'
      have hsufsnd : key ∉ suf.map Prod.snd := (List.nodup_cons.mp h2'.2.1).1
      rw [Delete_eq_of_decomp m pre suf ks nid key id v hf hks hprefst]
      rw [Map.toKeys]
      simp only [Map.l_mk, List.map_append, List.mem_append]
      rintro (hx | hx)
      · exact hpre hx
      · exact hsufsnd hx

/-! ### toPairs under Set -/

theorem toPairs_Set_new (om : Map) (k : String) (v : Value)
    (h : om.Has k = false) (hnotl : k ∉ om.toKeys) :
    (om.Set k v).toPairs = om.toPairs ++ [(k, v)] := by
  obtain ⟨m, l, ks, nid⟩ := om
  have hf : alistFind m k = none := by
    rw [Has_iff_find] at h
    exact Option.not_isSome_iff_eq_none.mp (by simp_all)
  rw [Map.toKeys] at hnotl
  simp only [Map.l_mk] at hnotl
  rw [Set_of_not_found (Map.mk m l ks nid) k v hf]
  rw [Map.toPairs, Map.toPairs]
  simp only [Map.l_mk, Map.m_mk, List.map_append, List.map_cons, List.map_nil]
  congr 1
  · apply List.map_congr_left
    intro e he
    have hne : e.2 ≠ k := fun hx => hnotl (hx ▸ List.mem_map.mpr ⟨e, he, rfl⟩)
    simp [mGet, alistFind_store_ne m k e.2 v hne]
  · simp [mGet, alistFind_store_self]

theorem toPairs_Set_update (om : Map) (k : String) (v : Value)
    (h : om.Has k = true) :
    (om.Set k v).toPairs = om.toPairs.map (fun p => if p.1 = k then (k, v) else p) := by
  obtain ⟨m, l, ks, nid⟩ := om
  rw [Set_of_found (Map.mk m l ks nid) k v (by rw [Has_iff_find] at h; exact h)]
  rw [Map.toPairs, Map.toPairs]
  simp only [Map.l_mk, Map.m_mk, List.map_map]
  apply List.map_congr_left
  intro e he
  by_cases hek : e.2 = k
  · simp only [Function.comp_apply, hek, if_pos]
    simp [mGet, alistFind_store_self]
  · simp only [Function.comp_apply, hek, if_neg, if_false]
    simp [mGet, alistFind_store_ne m k e.2 v hek]

/-! ### setAll -/

theorem setAll_Has (om : Map) (ps : List (String × Value)) (k : String)
    (h : om.Has k = true) : (setAll om ps).Has k = true := by
  induction ps generalizing om with
  | nil => exact h
  | cons p rest ih =>
      obtain ⟨k1, v1⟩ := p
      exact ih (om.Set k1 v1) (Has_Set_preserve om k k1 v1 h)

theorem setAll_toKeys_prefix (om : Map) (ps : List (String × Value)) :
    ∃ t, (setAll om ps).toKeys = om.toKeys ++ t := by
  induction ps generalizing om with
  | nil => exact ⟨[], by simp [setAll]⟩
  | cons p rest ih =>
      obtain ⟨k1, v1⟩ := p
      obtain ⟨t, ht⟩ := ih (om.Set k1 v1)
      rw [setAll, ht]
      cases hx : om.Has k1 with
      | true => rw [toKeys_Set_found om k1 v1 hx]; exact ⟨t, rfl⟩
      | false =>
          rw [toKeys_Set_new om k1 v1 hx]
          exact ⟨[k1] ++ t, by simp⟩

theorem setAll_Get_not_mem (om : Map) (ps : List (String × Value)) (k : String)
    (h : k ∉ ps.map Prod.fst) : (setAll om ps).Get k = om.Get k := by
  induction ps generalizing om with
  | nil => rfl
  | cons p rest ih =>
      obtain ⟨k1, v1⟩ := p
      simp only [List.map_cons, List.mem_cons] at h
      push_neg at h
      rw [setAll, ih (om.Set k1 v1) h.2, Get_Set_other om k k1 v1 h.1]

theorem setAll_Has_not_mem (om : Map) (ps : List (String × Value)) (k : String)
    (h : k ∉ ps.map Prod.fst) : (setAll om ps).Has k = om.Has k := by
  induction ps generalizing om with
  | nil => rfl
  | cons p rest ih =>
      obtain ⟨k1, v1⟩ := p
      simp only [List.map_cons, List.mem_cons] at h
      push_neg at h
      rw [setAll, ih (om.Set k1 v1) h.2, Has_Set_other om k k1 v1 h.1]

theorem wf_setAll (om : Map) (ps : List (String × Value))
    (hwf : wfMap om = true) (hps : wfEntries ps = true) : wfMap (setAll om ps) = true := by
  induction ps generalizing om with
  | nil => exact hwf
  | cons p rest ih =>
      obtain ⟨k1, v1⟩ := p
      rw [wfEntries, Bool.and_eq_true] at hps
      exact ih (om.Set k1 v1) (wf_Set om k1 v1 hwf hps.1) hps.2

/-- Building from pairs with pairwise-distinct keys: the iteration view is
exactly the pairs, appended after the existing entries. -/
theorem toPairs_setAll_nodup (om : Map) (ps : List (String × Value))
    (hwf : wfMap om = true) (hps : wfEntries ps = true)
    (hnodup : (om.toKeys ++ ps.map Prod.fst).Nodup) :
    (setAll om ps).toPairs = om.toPairs ++ ps := by
  induction ps generalizing om with
  | nil => simp [setAll]
  | cons p rest ih =>
      obtain ⟨k1, v1⟩ := p
      rw [wfEntries, Bool.and_eq_true] at hps
      simp only [List.map_cons] at hnodup
      have hnotl : k1 ∉ om.toKeys := fun hmem =>
        (List.nodup_append.mp hnodup).2.2 hmem (by simp)
      have hk1new : om.Has k1 = false := by
        cases hx : om.Has k1 with
        | false => rfl
        | true =>
            exfalso
            rw [Has_iff_find] at hx
            have hmem : k1 ∈ om.m.map Prod.fst := by
              by_contra hn
              rw [← alistFind_eq_none] at hn
              rw [hn] at hx
              cases hx
            refine hnotl ?_
            obtain ⟨m, l, ks, nid⟩ := om
            rw [wfMap_iff] at hwf
            show k1 ∈ (Map.mk m l ks nid).toKeys
            rw [Map.toKeys]
            simp only [Map.l_mk]
            exact hwf.1 ▸ hmem
      have hnodup2 : ((om.Set k1 v1).toKeys ++ rest.map Prod.fst).Nodup := by
        rw [toKeys_Set_new om k1 v1 hk1new]
        rw [List.append_assoc]
        simpa using hnodup
      rw [setAll, ih (om.Set k1 v1) (wf_Set om k1 v1 hwf hps.1) hps.2 hnodup2]
      rw [toPairs_Set_new om k1 v1 hk1new hnotl]
      simp

/-! ### Cursor walks -/

theorem elemNext_decomp (l pre suf : List (Nat × String)) (e : Nat × String)
    (h : l = pre ++ e :: suf) (hnod : (l.map Prod.fst).Nodup) :
    elemNext l e.1 = suf.head? := by
  subst h
  induction pre with
  | nil => simp [elemNext]
  | cons a rest ih =>
      simp only [List.cons_append, List.map_cons, List.nodup_cons] at hnod ⊢
      have hne : a.1 ≠ e.1 := by
        intro hx
        exact hnod.1 (by
          rw [hx]
          simp only [List.map_append, List.map_cons, List.mem_append]
          exact Or.inr (by simp))
      rw [elemNext, if_neg hne]
      exact ih hnod.2

theorem drainIter_spec (om : Map) (pre suf : List (Nat × String))
    (h : om.l = pre ++ suf) (hnod : (om.l.map Prod.fst).Nodup) :
    ∀ fuel, suf.length ≤ fuel →
      drainIter fuel om suf.head? = suf.map (fun e => (e.2, mGet om.m e.2)) := by
  induction suf generalizing pre with
  | nil =>
      intro fuel hfuel
      cases fuel with
      | zero => rfl
      | succ f => simp [drainIter, iterStep]
  | cons e rest ih =>
      intro fuel hfuel
      cases fuel with
      | zero => simp at hfuel
      | succ f =>
          rw [drainIter]
          simp only [List.head?_cons, iterStep]
          rw [elemNext_decomp om.l pre rest e h hnod]
          rw [ih (pre ++ [e]) (by simpa using h) f (by simpa using hfuel)]
          simp

theorem iterateAll_eq_toPairs (om : Map) (hnod : (om.l.map Prod.fst).Nodup) :
    om.iterateAll = om.toPairs := by
  rw [Map.iterateAll, Map.EntriesIter, Map.toPairs]
  have h0 : om.l.head? = (om.l).head? := rfl
  have := drainIter_spec om [] om.l (by simp) hnod om.l.length (by simp)
  simpa using this

theorem elemPrev_decomp (l pre suf : List (Nat × String)) (e : Nat × String)
    (h : l.reverse = pre ++ e :: suf) (hnod : (l.map Prod.fst).Nodup) :
    elemPrev l e.1 = suf.head? := by
  rw [elemPrev]
  apply elemNext_decomp l.reverse pre suf e h
  rw [List.map_reverse, List.nodup_reverse]
  exact hnod

theorem drainIterBack_spec (om : Map) (pre suf : List (Nat × String))
    (h : om.l.reverse = pre ++ suf) (hnod : (om.l.map Prod.fst).Nodup) :
    ∀ fuel, suf.length ≤ fuel →
      drainIterBack fuel om suf.head? = suf.map (fun e => (e.2, mGet om.m e.2)) := by
  induction suf generalizing pre with
  | nil =>
      intro fuel hfuel
      cases fuel with
      | zero => rfl
      | succ f => simp [drainIterBack, iterStepBack]
  | cons e rest ih =>
      intro fuel hfuel
      cases fuel with
      | zero => simp at hfuel
      | succ f =>
          rw [drainIterBack]
          simp only [List.head?_cons, iterStepBack]
          rw [elemPrev_decomp om.l pre rest e h hnod]
          rw [ih (pre ++ [e]) (by simpa using h) f (by simpa using hfuel)]
          simp

theorem iterateAllBack_eq_toPairs_reverse (om : Map)
    (hnod : (om.l.map Prod.fst).Nodup) :
    om.iterateAllBack = om.toPairs.reverse := by
  rw [Map.iterateAllBack, Map.EntriesReverseIter, Map.toPairs]
  have hh : om.l.getLast? = om.l.reverse.head? := by
    rw [List.head?_reverse]
  rw [hh]
  have := drainIterBack_spec om [] om.l.reverse (by simp) hnod om.l.length
    (by simp)
  rw [this]
  rw [← List.map_reverse]


/-! ### The decoder inserts via Set

parseobject only touches the receiver through Set, so every outcome — success
or error — leaves the receiver equal to a fold of Set over the members parsed
before the end or the error; those member values are well formed. -/

@[simp] theorem wfEntries_nil : wfEntries [] = true := by rw [wfEntries]

@[simp] theorem wfList_nil : wfList [] = true := by rw [wfList]

@[simp] theorem wfValue_vnull : wfValue .vnull = true := by rw [wfValue.eq_def]

@[simp] theorem wfValue_vbool (b : Bool) : wfValue (.vbool b) = true := by rw [wfValue.eq_def]

@[simp] theorem wfValue_vnum (s : String) : wfValue (.vnum s) = true := by rw [wfValue.eq_def]

@[simp] theorem wfValue_vstr (s : String) : wfValue (.vstr s) = true := by rw [wfValue.eq_def]

theorem closeObject_fst (om : Map) (d : Dec) : (closeObject om d).1 = om := by
  rw [closeObject]
  cases token d with
  | error e => rfl
  | ok p =>
      obtain ⟨t, d1⟩ := p
      cases t with
      | tdelim c =>
          simp only []
          split <;> rfl
      | tstr s => rfl
      | tnum s => rfl
      | tbool b => rfl
      | tnull => rfl

theorem decode_wf : ∀ fuel : Nat,
    (∀ om d, ∃ ps, (parseobject fuel om d).1 = setAll om ps ∧ wfEntries ps = true) ∧
    (∀ d vs d2, parsearray fuel d = .ok (vs, d2) → wfList vs = true) ∧
    (∀ t d v d2, handledelim fuel t d = .ok (v, d2) → wfValue v = true) := by
  intro fuel
  induction fuel with
  | zero =>
      refine ⟨fun om d => ⟨[], rfl, wfEntries_nil⟩, fun d vs d2 h => ?_, fun t d v d2 h => ?_⟩
      · rw [parsearray] at h; cases h
      · rw [handledelim.eq_def] at h; simp at h
  | succ fuel ih =>
      obtain ⟨ihP, ihA, ihH⟩ := ih
      refine ⟨?_, ?_, ?_⟩
      · -- parseobject
        intro om d
        rw [parseobject]
        by_cases hmore : d.More = true
        · rw [if_pos hmore]
          cases htok : token d with
          | error e => exact ⟨[], rfl, wfEntries_nil⟩
          | ok p =>
              obtain ⟨t, d1⟩ := p
              cases t with
              | tstr key =>
                  simp only []
                  cases htok2 : token d1 with
                  | error e2 =>
                      cases e2 with
                      | eof => exact ⟨[], (closeObject_fst om d1), wfEntries_nil⟩
                      | msg s => exact ⟨[], rfl, wfEntries_nil⟩
                  | ok p2 =>
                      obtain ⟨vt, d2⟩ := p2
                      simp only []
                      cases hh : handledelim fuel vt d2 with
                      | error e3 => exact ⟨[], rfl, wfEntries_nil⟩
                      | ok pv =>
                          obtain ⟨value, d3⟩ := pv
                          simp only []
                          obtain ⟨ps, hps, hwfe⟩ := ihP (om.Set key value) d3
                          refine ⟨(key, value) :: ps, ?_, ?_⟩
                          · rw [setAll]; exact hps
                          · rw [wfEntries, Bool.and_eq_true]
                            exact ⟨ihH vt d2 value d3 hh, hwfe⟩
              | tdelim c => exact ⟨[], rfl, wfEntries_nil⟩
              | tnum s => exact ⟨[], rfl, wfEntries_nil⟩
              | tbool b => exact ⟨[], rfl, wfEntries_nil⟩
              | tnull => exact ⟨[], rfl, wfEntries_nil⟩
        · rw [if_neg hmore]
          exact ⟨[], (closeObject_fst om d), wfEntries_nil⟩
      · -- parsearray
        intro d vs d2 h
        rw [parsearray] at h
        by_cases hmore : d.More = true
        · rw [if_pos hmore] at h
          cases htok : token d with
          | error e => rw [htok] at h; cases h
          | ok p =>
              obtain ⟨t, d1⟩ := p
              rw [htok] at h
              simp only [] at h
              cases hh : handledelim fuel t d1 with
              | error e => rw [hh] at h; cases h
              | ok pv =>
                  obtain ⟨value, d3⟩ := pv
                  rw [hh] at h
                  simp only [] at h
                  cases ha : parsearray fuel d3 with
                  | error e => rw [ha] at h; cases h
                  | ok pa =>
                      obtain ⟨arr, d4⟩ := pa
                      rw [ha] at h
                      simp only [Except.ok.injEq, Prod.mk.injEq] at h
                      rw [← h.1]
                      rw [wfList, Bool.and_eq_true]
                      exact ⟨ihH t d1 value d3 hh, ihA d3 arr d4 ha⟩
        · rw [if_neg hmore] at h
          cases htok : token d with
          | error e => rw [htok] at h; cases h
          | ok p =>
              obtain ⟨t, d1⟩ := p
              rw [htok] at h
              cases t with
              | tdelim c =>
                  simp only [] at h
                  by_cases hc : c = ']'
                  · rw [if_pos hc] at h
                    simp only [Except.ok.injEq, Prod.mk.injEq] at h
                    rw [← h.1]
                    exact wfList_nil
                  · rw [if_neg hc] at h; cases h
              | tstr s => cases h
              | tnum s => cases h
              | tbool b => cases h
              | tnull => cases h
      · -- handledelim
        intro t d v d2 h
        rw [handledelim.eq_def] at h
        simp only [] at h
        cases t with
        | tdelim c =>
            simp only [] at h
            by_cases hc : c = lbrace
            · rw [if_pos hc] at h
              cases hp : parseobject fuel NewMap d with
              | mk om1 r =>
                  rw [hp] at h
                  cases r with
                  | error e => simp at h
                  | ok d1 =>
                      simp only [Except.ok.injEq, Prod.mk.injEq] at h
                      obtain ⟨ps, hps, hwfe⟩ := ihP NewMap d
                      rw [← h.1]
                      rw [wfValue]
                      have hom : om1 = setAll NewMap ps := by
                        rw [hp] at hps
                        exact hps
                      rw [hom]
                      exact wf_setAll NewMap ps wf_NewMap hwfe
            · rw [if_neg hc] at h
              by_cases hb : c = '['
              · rw [if_pos hb] at h
                cases ha : parsearray fuel d with
                | error e => rw [ha] at h; cases h
                | ok pa =>
                    obtain ⟨arr, d4⟩ := pa
                    rw [ha] at h
                    simp only [Except.ok.injEq, Prod.mk.injEq] at h
                    rw [← h.1]
                    rw [wfValue]
                    exact ihA d arr d4 ha
              · rw [if_neg hb] at h; cases h
        | tstr s => simp only [Except.ok.injEq, Prod.mk.injEq] at h; rw [← h.1]; simp
        | tnum s => simp only [Except.ok.injEq, Prod.mk.injEq] at h; rw [← h.1]; simp
        | tbool b => simp only [Except.ok.injEq, Prod.mk.injEq] at h; rw [← h.1]; simp
        | tnull => simp only [Except.ok.injEq, Prod.mk.injEq] at h; rw [← h.1]; simp


/-! ### Shape invariants (value-independent parts of well-formedness)

The structural conjuncts of wfMap do not depend on the stored values, so Set
preserves them for any value — which is what lets order-preservation hold
regardless of value content. -/

theorem Set_par (om : Map) (k : String) (v : Value)
    (hpar : om.m.map Prod.fst = om.l.map Prod.snd) :
    (om.Set k v).m.map Prod.fst = (om.Set k v).l.map Prod.snd := by
  cases hf : alistFind om.m k with
  | some w =>
      rw [Set_of_found om k v (by rw [hf]; rfl)]
      simp only [Map.m_mk, Map.l_mk]
      rw [alistStore_of_found om.m k v (by rw [hf]; simp)]
      exact hpar
  | none =>
      rw [Set_of_not_found om k v hf]
      simp only [Map.m_mk, Map.l_mk]
      rw [alistStore_of_not_found om.m k v hf]
      simp [hpar]

theorem Set_shape (om : Map) (k : String) (v : Value)
    (hpar : om.m.map Prod.fst = om.l.map Prod.snd)
    (hsnd : (om.l.map Prod.snd).Nodup)
    (hfst : (om.l.map Prod.fst).Nodup)
    (hbound : ∀ e ∈ om.l, e.1 < om.nextId) :
    (om.Set k v).m.map Prod.fst = (om.Set k v).l.map Prod.snd ∧
    ((om.Set k v).l.map Prod.snd).Nodup ∧
    ((om.Set k v).l.map Prod.fst).Nodup ∧
    (∀ e ∈ (om.Set k v).l, e.1 < (om.Set k v).nextId) := by
  refine ⟨Set_par om k v hpar, ?_⟩
  cases hf : alistFind om.m k with
  | some w =>
      rw [Set_of_found om k v (by rw [hf]; rfl)]
      simp only [Map.l_mk, Map.nextId_mk]
      exact ⟨hsnd, hfst, hbound⟩
  | none =>
      rw [Set_of_not_found om k v hf]
      simp only [Map.l_mk, Map.nextId_mk]
      have hnotl : k ∉ om.l.map Prod.snd := hpar ▸ (alistFind_eq_none om.m k).mp hf
      refine ⟨?_, ?_, ?_⟩
      · simp [List.nodup_append, hsnd, hnotl]
      · have hid : om.nextId ∉ om.l.map Prod.fst := by
          intro hmem
          obtain ⟨e, he, heq⟩ := List.mem_map.mp hmem
          exact absurd (heq ▸ hbound e he) (by omega)
        simp [List.nodup_append, hfst, hid]
      · intro e he
        rcases List.mem_append.mp he with hl | hr
        · exact Nat.lt_succ_of_lt (hbound e hl)
        · simp only [List.mem_singleton] at hr
          subst hr
          exact Nat.lt_succ_self om.nextId

theorem setAll_shape (om : Map) (ps : List (String × Value))
    (hpar : om.m.map Prod.fst = om.l.map Prod.snd)
    (hsnd : (om.l.map Prod.snd).Nodup)
    (hfst : (om.l.map Prod.fst).Nodup)
    (hbound : ∀ e ∈ om.l, e.1 < om.nextId) :
    (setAll om ps).m.map Prod.fst = (setAll om ps).l.map Prod.snd ∧
    ((setAll om ps).l.map Prod.snd).Nodup ∧
    ((setAll om ps).l.map Prod.fst).Nodup ∧
    (∀ e ∈ (setAll om ps).l, e.1 < (setAll om ps).nextId) := by
  induction ps generalizing om with
  | nil => exact ⟨hpar, hsnd, hfst, hbound⟩
  | cons p rest ih =>
      obtain ⟨k1, v1⟩ := p
      obtain ⟨s1, s2, s3, s4⟩ := Set_shape om k1 v1 hpar hsnd hfst hbound
      exact ih (om.Set k1 v1) s1 s2 s3 s4

/-- toPairs of a fold of Set over pairs with fresh, pairwise-distinct keys:
exactly the pairs, appended.  Needs only the parallel-keys shape (no
constraint on the values). -/
theorem toPairs_setAll_fresh (om : Map) (ps : List (String × Value))
    (hpar : om.m.map Prod.fst = om.l.map Prod.snd)
    (hnodup : (om.toKeys ++ ps.map Prod.fst).Nodup) :
    (setAll om ps).toPairs = om.toPairs ++ ps := by
  induction ps generalizing om with
  | nil => simp [setAll]
  | cons p rest ih =>
      obtain ⟨k1, v1⟩ := p
      simp only [List.map_cons] at hnodup
      have hnotl : k1 ∉ om.toKeys := fun hmem =>
        (List.nodup_append.mp hnodup).2.2 hmem (by simp)
      have hk1new : om.Has k1 = false := by
        cases hx : om.Has k1 with
        | false => rfl
        | true =>
            exfalso
            rw [Has_iff_find] at hx
            have hmem : k1 ∈ om.m.map Prod.fst := by
              by_contra hn
              rw [← alistFind_eq_none] at hn
              rw [hn] at hx
              cases hx
            refine hnotl ?_
            rw [Map.toKeys]
            exact hpar ▸ hmem
      have hnodup2 : ((om.Set k1 v1).toKeys ++ rest.map Prod.fst).Nodup := by
        rw [toKeys_Set_new om k1 v1 hk1new]
        rw [List.append_assoc]
        simpa using hnodup
      rw [setAll, ih (om.Set k1 v1) (Set_par om k1 v1 hpar) hnodup2]
      rw [toPairs_Set_new om k1 v1 hk1new hnotl]
      simp

theorem toPairs_map_fst (om : Map) : om.toPairs.map Prod.fst = om.toKeys := by
  rw [Map.toPairs, Map.toKeys, List.map_map]
  rfl

/-! ## Claim theorems (first group) -/

/-- C1: for every sequence of Set calls with pairwise-distinct keys on a
fresh map, a cursor from EntriesIter yields exactly those keys in insertion
order, whatever the values are; and re-setting a key already present leaves
the iteration order unchanged and changes only the value at that key. -/
theorem C1_order_preservation :
    (∀ ps : List (String × Value), (ps.map Prod.fst).Nodup →
      (setAll NewMap ps).iterateAll.map Prod.fst = ps.map Prod.fst) ∧
    (∀ (om : Map) (k : String) (v1 v2 : Value), wfMap om = true →
      ((om.Set k v1).Set k v2).toKeys = (om.Set k v1).toKeys ∧
      ((om.Set k v1).Set k v2).iterateAll =
        (om.Set k v1).iterateAll.map (fun p => if p.1 = k then (k, v2) else p)) := by
  constructor
  · intro ps hnodup
    have hbase : (NewMap.toKeys ++ ps.map Prod.fst).Nodup := by simpa [NewMap, Map.toKeys]
    have hpairs := toPairs_setAll_fresh NewMap ps rfl hbase
    have hshape := setAll_shape NewMap ps rfl (by simp [NewMap]) (by simp [NewMap])
      (by intro e he; cases he)
    rw [iterateAll_eq_toPairs _ hshape.2.2.1, hpairs]
    simp [Map.toPairs, NewMap]
  · intro om k v1 v2 hwf
    obtain ⟨m, l, ks, nid⟩ := om
    rw [wfMap_iff] at hwf
    obtain ⟨h1, h2, h3, h4, h5, h6⟩ := hwf
    have hshape1 := Set_shape (Map.mk m l ks nid) k v1 h1 h2 h3 h5
    have hshape2 := Set_shape ((Map.mk m l ks nid).Set k v1) k v2
      hshape1.1 hshape1.2.1 hshape1.2.2.1 hshape1.2.2.2
    have hhas : ((Map.mk m l ks nid).Set k v1).Has k = true := Has_Set_self _ k v1
    refine ⟨toKeys_Set_found _ k v2 hhas, ?_⟩
    rw [iterateAll_eq_toPairs _ hshape2.2.2.1, iterateAll_eq_toPairs _ hshape1.2.2.1]
    exact toPairs_Set_update _ k v2 hhas

/-- C1 witness: the general parts applied at concrete inputs. -/
theorem C1_order_preservation_witness :
    ((["b", "a"] : List String).Nodup ∧
      (setAll NewMap [("b", Value.vnum "1"), ("a", Value.vnum "2")]).iterateAll.map Prod.fst
        = ["b", "a"]) ∧
    (wfMap NewMap = true ∧
      ((NewMap.Set "a" (Value.vnum "1")).Set "a" (Value.vnum "2")).toKeys
        = (NewMap.Set "a" (Value.vnum "1")).toKeys) := by
  constructor
  · exact ⟨by decide, C1_order_preservation.1 [("b", Value.vnum "1"), ("a", Value.vnum "2")]
      (by decide)⟩
  · exact ⟨wf_NewMap,
      (C1_order_preservation.2 NewMap "a" (Value.vnum "1") (Value.vnum "2") wf_NewMap).1⟩

/-- C9 counterexample: the cursor returned by EntriesIter does not traverse a
snapshot of the keys present at creation time: on the one-key map with key a,
a cursor created before Set(b, 2) yields both a and b when drained after the
mutation, not the snapshot [a]. -/
theorem C9_cursor_snapshot_counterexample :
    (let om0 := NewMap.Set "a" (Value.vnum "1")
     let cur := om0.EntriesIter
     let om1 := om0.Set "b" (Value.vnum "2")
     (drainIter om1.l.length om1 cur).map Prod.fst = ["a", "b"] ∧
       om0.toKeys = ["a"]) := by
  constructor
  · rfl
  · rfl

/-- C9 amended: each call to EntriesIter (or EntriesReverseIter) returns a
fresh cursor positioned at the current front (back) element; the cursor reads
the live structure, so later mutations can change what it yields, but drained
without intervening mutation it yields exactly the entries present at
creation, in insertion (reverse-insertion) order. -/
theorem C9_cursor_live_traversal (om : Map) (hwf : wfMap om = true) :
    om.iterateAll = om.toPairs ∧
    om.iterateAllBack = om.toPairs.reverse ∧
    om.iterateAll.map Prod.fst = om.toKeys := by
  obtain ⟨m, l, ks, nid⟩ := om
  have hfst : ((Map.mk m l ks nid).l.map Prod.fst).Nodup := by
    rw [wfMap_iff] at hwf
    exact hwf.2.2.1
  refine ⟨iterateAll_eq_toPairs _ hfst, iterateAllBack_eq_toPairs_reverse _ hfst, ?_⟩
  rw [iterateAll_eq_toPairs _ hfst, toPairs_map_fst]

/-- C9 amended witness. -/
theorem C9_cursor_live_traversal_witness :
    wfMap NewMap = true ∧ NewMap.iterateAll = NewMap.toPairs :=
  ⟨wf_NewMap, (C9_cursor_live_traversal NewMap wf_NewMap).1⟩

/-! ### Decode factoring at the top level, and token inversion -/

theorem UnmarshalJSON_setAll (om : Map) (data : String) :
    ∃ ps, (om.UnmarshalJSON data).1 = setAll om ps ∧ wfEntries ps = true := by
  rw [Map.UnmarshalJSON]
  cases htok : token ⟨data.data, [], .top⟩ with
  | error e => exact ⟨[], rfl, wfEntries_nil⟩
  | ok p =>
      obtain ⟨t, d1⟩ := p
      cases t with
      | tdelim c =>
          simp only []
          by_cases hc : c = lbrace
          · rw [if_pos hc]
            obtain ⟨ps, hps, hwfe⟩ := (decode_wf (2 * data.length + 2)).1 om d1
            cases hp : parseobject (2 * data.length + 2) om d1 with
            | mk om1 r =>
                rw [hp] at hps
                cases r with
                | error e => exact ⟨ps, hps, hwfe⟩
                | ok d2 =>
                    simp only []
                    cases token d2 with
                    | error e2 =>
                        cases e2 with
                        | eof => exact ⟨ps, hps, hwfe⟩
                        | msg s => exact ⟨ps, hps, hwfe⟩
                    | ok p2 => exact ⟨ps, hps, hwfe⟩
          · rw [if_neg hc]
            exact ⟨[], rfl, wfEntries_nil⟩
      | tstr s => exact ⟨[], rfl, wfEntries_nil⟩
      | tnum s => exact ⟨[], rfl, wfEntries_nil⟩
      | tbool b => exact ⟨[], rfl, wfEntries_nil⟩
      | tnull => exact ⟨[], rfl, wfEntries_nil⟩

theorem wf_UnmarshalJSON (om : Map) (data : String) (hwf : wfMap om = true) :
    wfMap ((om.UnmarshalJSON data).1) = true := by
  obtain ⟨ps, hps, hwfe⟩ := UnmarshalJSON_setAll om data
  rw [hps]
  exact wf_setAll om ps hwf hwfe

theorem skipWs_cons_of_not (c : Char) (cs : List Char) (h : isWs c = false) :
    skipWs (c :: cs) = c :: cs := by
  rw [skipWs, h]
  simp

theorem readScalar_not_delim (cs : List Char) (t : JToken) (rest : List Char)
    (h : readScalar cs = .ok (t, rest)) : ∀ c, t ≠ .tdelim c := by
  intro c hne
  subst hne
  rw [readScalar.eq_def] at h
  cases cs with
  | nil => cases h
  | cons c0 cs0 =>
      simp only [] at h
      split at h
      · split at h <;> cases h
      · split at h
        · split at h <;> cases h
        · split at h <;> try (split at h <;> cases h)
          cases h

/-! ### Error dispatch of the token machine -/

/-- Reading the opening token of UnmarshalJSON: at top level the only way to
receive the object-open delimiter is an actual left brace as the first
non-whitespace character (no colon or comma is consumed at top level). -/
theorem token_top_lbrace_inv (inp : List Char) (stk : List TokState) (d1 : Dec)
    (h : token ⟨inp, stk, .top⟩ = .ok (.tdelim lbrace, d1)) :
    ∃ cs, skipWs inp = lbrace :: cs := by
  rw [token, show (2 : Nat) = 1 + 1 from rfl, tokenCore] at h
  simp only [] at h
  cases hs : skipWs inp with
  | nil => rw [hs] at h; cases h
  | cons c cs =>
      rw [hs] at h
      simp only [] at h
      by_cases h1 : c = '['
      · rw [if_pos h1] at h
        split at h
        · simp only [Except.ok.injEq, Prod.mk.injEq, JToken.tdelim.injEq] at h
          exact absurd h.1 (by decide)
        · cases h
      · rw [if_neg h1] at h
        by_cases h2 : c = ']'
        · rw [if_pos h2] at h
          split at h
          · split at h
            · simp only [Except.ok.injEq, Prod.mk.injEq, JToken.tdelim.injEq] at h
              exact absurd h.1 (by decide)
            · cases h
          · cases h
        · rw [if_neg h2] at h
          by_cases h3 : c = lbrace
          · exact ⟨cs, by rw [h3]⟩
          · rw [if_neg h3] at h
            by_cases h4 : c = rbrace
            · rw [if_pos h4] at h
              split at h
              · rename_i hst
                exact absurd hst (by simp)
              · cases h
            · rw [if_neg h4] at h
              by_cases h5 : c = ':'
              · rw [if_pos h5] at h
                rw [if_neg (by simp : ¬(TokState.top = .objColon))] at h
                cases h
              · rw [if_neg h5] at h
                by_cases h6 : c = ','
                · rw [if_pos h6] at h
                  rw [if_neg (by simp : ¬(TokState.top = .arrComma))] at h
                  rw [if_neg (by simp : ¬(TokState.top = .objComma))] at h
                  cases h
                · rw [if_neg h6] at h
                  rw [if_neg (by
                    intro hx
                    exact absurd hx.2 (by decide))] at h
                  rw [if_pos (show valueAllowed TokState.top = true by rfl)] at h
                  cases hr : readScalar (c :: cs) with
                  | error e => rw [hr] at h; cases h
                  | ok p =>
                      obtain ⟨t, rest⟩ := p
                      rw [hr] at h
                      simp only [Except.ok.injEq, Prod.mk.injEq] at h
                      exact absurd h.1 (readScalar_not_delim (c :: cs) t rest hr lbrace)

/-- At the state expecting an object key, any next character other than a
quote or a closing brace makes Token() fail. -/
theorem token_objStart_err (inp cs : List Char) (c : Char) (stk : List TokState)
    (hinp : skipWs inp = c :: cs) (hc1 : c ≠ '"') (hc2 : c ≠ rbrace) :
    ∃ e, token ⟨inp, stk, .objStart⟩ = .error e := by
  rw [token, show (2 : Nat) = 1 + 1 from rfl, tokenCore]
  simp only []
  rw [hinp]
  simp only []
  by_cases h1 : c = '['
  · rw [if_pos h1, if_neg (by simp [valueAllowed] :
      ¬(valueAllowed TokState.objStart = true))]
    exact ⟨_, rfl⟩
  · rw [if_neg h1]
    by_cases h2 : c = ']'
    · rw [if_pos h2]
      rw [if_neg (by simp : ¬(TokState.objStart = .arrStart ∨
        TokState.objStart = .arrComma))]
      exact ⟨_, rfl⟩
    · rw [if_neg h2]
      by_cases h3 : c = lbrace
      · rw [if_pos h3,
          if_neg (by simp [valueAllowed] :
            ¬(valueAllowed TokState.objStart = true))]
        exact ⟨_, rfl⟩
      · rw [if_neg h3, if_neg hc2]
        by_cases h5 : c = ':'
        · rw [if_pos h5, if_neg (by simp : ¬(TokState.objStart = .objColon))]
          exact ⟨_, rfl⟩
        · rw [if_neg h5]
          by_cases h6 : c = ','
          · rw [if_pos h6]
            rw [if_neg (by simp : ¬(TokState.objStart = .arrComma))]
            rw [if_neg (by simp : ¬(TokState.objStart = .objComma))]
            exact ⟨_, rfl⟩
          · rw [if_neg h6]
            rw [if_neg (by
              intro hx
              exact hc1 hx.1)]
            rw [if_neg (by simp [valueAllowed] :
              ¬(valueAllowed TokState.objStart = true))]
            exact ⟨_, rfl⟩

theorem wf_l_fst_nodup (om : Map) (hwf : wfMap om = true) :
    (om.l.map Prod.fst).Nodup := by
  obtain ⟨m, l, ks, nid⟩ := om
  rw [wfMap_iff] at hwf
  exact hwf.2.2.1

/-- An input whose first non-whitespace character is not a left brace (or that
is all whitespace) always fails UnmarshalJSON. -/
theorem UnmarshalJSON_err_not_open (om : Map) (data : String)
    (h : ∀ cs, skipWs data.data ≠ lbrace :: cs) :
    ((om.UnmarshalJSON data).2).isSome = true := by
  rw [Map.UnmarshalJSON]
  cases htok : token ⟨data.data, [], .top⟩ with
  | error e => simp [htok]
  | ok p =>
      obtain ⟨t, d1⟩ := p
      cases t with
      | tdelim c =>
          by_cases hc : c = lbrace
          · subst hc
            obtain ⟨cs, hcs⟩ := token_top_lbrace_inv data.data [] d1 htok
            exact absurd hcs (h cs)
          · simp [htok, hc]
      | tstr s => simp [htok]
      | tnum s => simp [htok]
      | tbool b => simp [htok]
      | tnull => simp [htok]

/-- An object whose first member does not start with a string key fails
UnmarshalJSON (the token machine rejects the character; the non-string-key
check in parseobject backs it up). -/
theorem UnmarshalJSON_err_nonstring_key (om : Map) (c : Char) (cs : List Char)
    (hws : isWs c = false) (hq : c ≠ '"') (hrb : c ≠ rbrace) :
    ((om.UnmarshalJSON (String.mk (lbrace :: c :: cs))).2).isSome = true := by
  rw [Map.UnmarshalJSON]
  have hopen : token ⟨(String.mk (lbrace :: c :: cs)).data, [], .top⟩ =
      .ok (.tdelim lbrace, ⟨c :: cs, [.top], .objStart⟩) := rfl
  rw [hopen]
  simp only [if_true]
  obtain ⟨f, hf⟩ : ∃ f, 2 * (String.mk (lbrace :: c :: cs)).length + 2 = f + 1 :=
    ⟨2 * (String.mk (lbrace :: c :: cs)).length + 1, rfl⟩
  rw [hf, parseobject]
  have hmore : (⟨c :: cs, [.top], .objStart⟩ : Dec).More = !(c == ']' || c == rbrace) := by
    rw [Dec.More]
    simp only []
    rw [skipWs_cons_of_not c cs hws]
  obtain ⟨e, he⟩ := token_objStart_err (c :: cs) cs c [.top]
    (skipWs_cons_of_not c cs hws) hq hrb
  by_cases hcl : c = ']'
  · have hmf : (⟨c :: cs, [.top], .objStart⟩ : Dec).More = false := by
      rw [hmore, hcl]
      rfl
    rw [if_neg (by rw [hmf]; intro hx; cases hx)]
    rw [closeObject, he]
    rfl
  · have hmf : (⟨c :: cs, [.top], .objStart⟩ : Dec).More = true := by
      rw [hmore]
      have h1 : (c == ']') = false := by
        cases hx : c == ']' with
        | true => exact absurd (by simpa using hx) hcl
        | false => rfl
      have h2 : (c == rbrace) = false := by
        cases hx : c == rbrace with
        | true => exact absurd (by simpa using hx) hrb
        | false => rfl
      rw [h1, h2]
      rfl
    rw [if_pos hmf, he]
    rfl

/-- C4 (amended): decode fails with an error when the input does not open
with an object-start delimiter, when a key token is not a string, when an
array or object is not properly closed, or when trailing non-whitespace
content follows the top-level object (trailing whitespace is accepted); but
decoding is not all-or-nothing: the receiver always equals a fold of Set over
the members decoded before the end or the error, so members already parsed
remain set when a later structural error occurs. -/
theorem C4_decode_errors :
    (∀ (om : Map) (data : String), (∀ cs, skipWs data.data ≠ lbrace :: cs) →
      ((om.UnmarshalJSON data).2).isSome = true) ∧
    (∀ (om : Map) (c : Char) (cs : List Char), isWs c = false → c ≠ '"' → c ≠ rbrace →
      ((om.UnmarshalJSON (String.mk (lbrace :: c :: cs))).2).isSome = true) ∧
    ((NewMap.UnmarshalJSON "\x7b\"a\":[1,2").2.isSome = true) ∧
    ((NewMap.UnmarshalJSON "\x7b\"a\":\x7b\"b\":1").2.isSome = true) ∧
    ((NewMap.UnmarshalJSON "\x7b\"a\":1\x7d x").2.isSome = true) ∧
    ((NewMap.UnmarshalJSON "\x7b\"a\":1\x7d  ").2 = none) ∧
    (∀ (om : Map) (data : String), ∃ ps, (om.UnmarshalJSON data).1 = setAll om ps) :=
  ⟨UnmarshalJSON_err_not_open, UnmarshalJSON_err_nonstring_key,
    rfl, rfl, rfl, rfl,
    fun om data => (UnmarshalJSON_setAll om data).elim fun ps h => ⟨ps, h.1⟩⟩

/-- C4 witness: the general error clauses applied at concrete inputs. -/
theorem C4_decode_errors_witness :
    ((NewMap.UnmarshalJSON "[1]").2.isSome = true) ∧
    ((NewMap.UnmarshalJSON (String.mk [lbrace, '1', ':', '2', rbrace])).2.isSome = true) := by
  constructor
  · refine C4_decode_errors.1 NewMap "[1]" ?_
    intro cs h
    rw [show skipWs ("[1]".data) = ['[', '1', ']'] from rfl] at h
    injection h with h1 _
    exact absurd h1 (by decide)
  · exact C4_decode_errors.2.1 NewMap '1' [':', '2', rbrace] (by decide) (by decide) (by decide)

/-- C4 counterexample (against all-or-nothing): decoding the truncated object
fails, yet the receiver retains the member parsed before the error instead of
being discarded. -/
theorem C4_all_or_nothing_counterexample :
    (NewMap.UnmarshalJSON "\x7b\"a\":1,").2.isSome = true ∧
    (NewMap.UnmarshalJSON "\x7b\"a\":1,").1.toPairs = [("a", Value.vnum "1")] :=
  ⟨rfl, rfl⟩

/-- C5: every public operation preserves the representation invariant — in
particular the keys of the value mapping and of the order sequence are in
bijection (each key appears exactly once on each side) — and after Delete(k)
the key is neither reported by Has nor produced by a subsequent EntriesIter
traversal. -/
theorem C5_invariants :
    wfMap NewMap = true ∧
    (∀ ps, wfEntries ps = true → wfMap (NewMapFromKVPairs ps) = true) ∧
    (∀ (om : Map) (k : String) (v : Value), wfMap om = true → wfValue v = true →
      wfMap (om.Set k v) = true) ∧
    (∀ (om : Map) (k : String), wfMap om = true → wfMap ((om.Delete k).2) = true) ∧
    (∀ (om : Map) (data : String), wfMap om = true →
      wfMap ((om.UnmarshalJSON data).1) = true) ∧
    (∀ om : Map, wfMap om = true →
      (om.m.map Prod.fst).Nodup ∧ om.toKeys.Nodup ∧
        (∀ k, k ∈ om.m.map Prod.fst ↔ k ∈ om.toKeys)) ∧
    (∀ (om : Map) (k : String), wfMap om = true →
      ((om.Delete k).2.Has k = false ∧ ∀ p ∈ (om.Delete k).2.iterateAll, p.1 ≠ k)) := by
  refine ⟨wf_NewMap, ?_, wf_Set, wf_Delete, wf_UnmarshalJSON, ?_, ?_⟩
  · intro ps hps
    exact wf_setAll NewMap ps wf_NewMap hps
  · intro om hwf
    obtain ⟨m, l, ks, nid⟩ := om
    rw [wfMap_iff] at hwf
    obtain ⟨h1, h2, h3, h4, h5, h6⟩ := hwf
    refine ⟨?_, ?_, ?_⟩
    · simp only [Map.m_mk]
      exact h1 ▸ h2
    · rw [Map.toKeys]
      simpa using h2
    · intro k
      rw [Map.toKeys]
      simp only [Map.m_mk, Map.l_mk]
      rw [h1]
  · intro om k hwf
    have hwfd := wf_Delete om k hwf
    refine ⟨Has_Delete_self om k hwf, ?_⟩
    intro p hp hkp
    have hfst : (((om.Delete k).2).l.map Prod.fst).Nodup := wf_l_fst_nodup _ hwfd
    rw [iterateAll_eq_toPairs _ hfst] at hp
    have : p.1 ∈ ((om.Delete k).2).toPairs.map Prod.fst := List.mem_map.mpr ⟨p, hp, rfl⟩
    rw [toPairs_map_fst] at this
    exact toKeys_Delete_not_mem om k hwf (hkp ▸ this)

/-- C5 witness. -/
theorem C5_invariants_witness :
    (wfEntries [("a", Value.vnull)] = true ∧
      wfMap (NewMapFromKVPairs [("a", Value.vnull)]) = true) ∧
    (wfMap NewMap = true ∧
      ((NewMap.Delete "a").2.Has "a" = false)) := by
  have he : wfEntries [("a", Value.vnull)] = true := by
    rw [wfEntries]
    simp
  refine ⟨⟨he, C5_invariants.2.1 [("a", Value.vnull)] he⟩,
    ⟨wf_NewMap, (C5_invariants.2.2.2.2.2.2 NewMap "a" wf_NewMap).1⟩⟩

/-- C10: a successful UnmarshalJSON into a non-empty receiver does not reset
it: the result is the receiver with the decoded members folded in via Set, so
every pre-existing key stays present, the original key order is a prefix of
the new order (new keys are appended after it), and a key not among the
decoded members keeps its value and presence. -/
theorem C10_decode_frame (om : Map) (data : String) (om2 : Map)
    (h : om.UnmarshalJSON data = (om2, none)) :
    ∃ ps, om2 = setAll om ps ∧
      (∀ k, om.Has k = true → om2.Has k = true) ∧
      (∃ t, om2.toKeys = om.toKeys ++ t) ∧
      (∀ k, k ∉ ps.map Prod.fst → om2.Get k = om.Get k ∧ om2.Has k = om.Has k) := by
  obtain ⟨ps, hps, _⟩ := UnmarshalJSON_setAll om data
  rw [h] at hps
  simp only [] at hps
  refine ⟨ps, hps, ?_, ?_, ?_⟩
  · intro k hk
    rw [hps]
    exact setAll_Has om ps k hk
  · rw [hps]
    exact setAll_toKeys_prefix om ps
  · intro k hk
    rw [hps]
    exact ⟨setAll_Get_not_mem om ps k hk, setAll_Has_not_mem om ps k hk⟩

/-- C10 witness: decoding one member into a one-entry receiver. -/
theorem C10_decode_frame_witness :
    (setAll NewMap [("p", Value.vnull)]).UnmarshalJSON "\x7b\"q\":2\x7d" =
      (((setAll NewMap [("p", Value.vnull)]).UnmarshalJSON "\x7b\"q\":2\x7d").1, none) ∧
    ∃ ps, ((setAll NewMap [("p", Value.vnull)]).UnmarshalJSON "\x7b\"q\":2\x7d").1 =
      setAll (setAll NewMap [("p", Value.vnull)]) ps := by
  refine ⟨rfl, ?_⟩
  obtain ⟨ps, hps, _, _, _⟩ := C10_decode_frame (setAll NewMap [("p", Value.vnull)])
    "\x7b\"q\":2\x7d" _ rfl
  exact ⟨ps, hps⟩

/-- C6: decoding an object with a duplicated key raises no error and applies
Set semantics — the first occurrence fixes the position, the last value wins;
concretely the two spec scenarios, plus the Set-level law for any present
key. -/
theorem C6_duplicate_keys :
    ((NewMap.UnmarshalJSON "\x7b\"a\":1,\"a\":2\x7d").2 = none ∧
      (NewMap.UnmarshalJSON "\x7b\"a\":1,\"a\":2\x7d").1.Len = 1 ∧
      (NewMap.UnmarshalJSON "\x7b\"a\":1,\"a\":2\x7d").1.toPairs = [("a", Value.vnum "2")]) ∧
    ((NewMap.UnmarshalJSON "\x7b\"a\":1,\"b\":5,\"a\":2\x7d").2 = none ∧
      (NewMap.UnmarshalJSON "\x7b\"a\":1,\"b\":5,\"a\":2\x7d").1.toPairs
        = [("a", Value.vnum "2"), ("b", Value.vnum "5")]) ∧
    (∀ (om : Map) (k : String) (v : Value), om.Has k = true →
      (om.Set k v).toKeys = om.toKeys ∧ (om.Set k v).Get k = v) := by
  refine ⟨⟨rfl, rfl, rfl⟩, ⟨rfl, rfl⟩, ?_⟩
  intro om k v h
  exact ⟨toKeys_Set_found om k v h, Get_Set_self om k v⟩

/-- C6 witness. -/
theorem C6_duplicate_keys_witness :
    (NewMap.Set "a" (Value.vnum "1")).Has "a" = true ∧
    ((NewMap.Set "a" (Value.vnum "1")).Set "a" (Value.vnum "2")).Get "a" = Value.vnum "2" :=
  ⟨rfl, (C6_duplicate_keys.2.2 (NewMap.Set "a" (Value.vnum "1")) "a" (Value.vnum "2") rfl).2⟩

/-! ### Equality: characterizations -/

theorem wfEntries_find (m : List (String × Value)) (k : String) (v : Value)
    (h : wfEntries m = true) (hf : alistFind m k = some v) : wfValue v = true := by
  induction m with
  | nil => cases hf
  | cons a rest ih =>
      obtain ⟨k0, v0⟩ := a
      rw [wfEntries, Bool.and_eq_true] at h
      by_cases h0 : k0 = k
      · rw [alistFind, if_pos h0] at hf
        cases hf
        exact h.1
      · rw [alistFind, if_neg h0] at hf
        exact ih h.2 hf

theorem wfValue_mGet (m : List (String × Value)) (k : String)
    (h : wfEntries m = true) : wfValue (mGet m k) = true := by
  rw [mGet]
  cases hf : alistFind m k with
  | none => simp
  | some v => simpa using wfEntries_find m k v h hf

theorem alistFind_of_mem_nodup {α : Type} (m : List (String × α)) (k : String) (v : α)
    (hnod : (m.map Prod.fst).Nodup) (hmem : (k, v) ∈ m) : alistFind m k = some v := by
  induction m with
  | nil => cases hmem
  | cons a rest ih =>
      obtain ⟨k0, v0⟩ := a
      simp only [List.map_cons, List.nodup_cons] at hnod
      rcases List.mem_cons.mp hmem with heq | htail
      · cases heq
        rw [alistFind, if_pos rfl]
      · have hk : k0 ≠ k := by
          intro hx
          exact hnod.1 (hx ▸ List.mem_map.mpr ⟨(k, v), htail, rfl⟩)
        rw [alistFind, if_neg hk]
        exact ih hnod.2 htail

theorem mGet_of_mem_nodup (m : List (String × Value)) (k : String) (v : Value)
    (hnod : (m.map Prod.fst).Nodup) (hmem : (k, v) ∈ m) : mGet m k = v := by
  rw [mGet, alistFind_of_mem_nodup m k v hnod hmem]
  rfl

theorem mem_of_mem_map_fst (m : List (String × Value)) (k : String)
    (hmem : k ∈ m.map Prod.fst) : ∃ v, (k, v) ∈ m := by
  obtain ⟨p, hp, heq⟩ := List.mem_map.mp hmem
  exact ⟨p.2, by rw [← heq]; exact hp⟩

theorem deepEqualEntries_true_iff (m1 m2 : List (String × Value)) :
    deepEqualEntries m1 m2 = true ↔
      ∀ p ∈ m1, ∃ w, alistFind m2 p.1 = some w ∧ deepEqual p.2 w = true := by
  induction m1 with
  | nil =>
      rw [deepEqualEntries]
      simp
  | cons a rest ih =>
      obtain ⟨k, v⟩ := a
      rw [deepEqualEntries, Bool.and_eq_true, ih]
      constructor
      · rintro ⟨h1, h2⟩ p hp
        rcases List.mem_cons.mp hp with heq | htail
        · subst heq
          cases hf : alistFind m2 k with
          | none => rw [hf] at h1; cases h1
          | some w =>
              rw [hf] at h1
              exact ⟨w, rfl, h1⟩
        · exact h2 p htail
      · intro h
        constructor
        · obtain ⟨w, hw, hd⟩ := h (k, v) (by simp)
          rw [hw]
          exact hd
        · intro p hp
          exact h p (List.mem_cons_of_mem _ hp)

theorem specEntriesEq_true_iff :
    ∀ (l1 : List (Nat × String)) (m1 : List (String × Value))
      (l2 : List (Nat × String)) (m2 : List (String × Value)),
      specEntriesEq l1 m1 l2 m2 = true ↔
        List.Forall₂ (fun e1 e2 => e1.2 = e2.2 ∧
          specStructEq (mGet m1 e1.2) (mGet m2 e1.2) = true) l1 l2 := by
  intro l1
  induction l1 with
  | nil =>
      intro m1 l2 m2
      cases l2 with
      | nil =>
          rw [specEntriesEq]
          simp
      | cons e2 l2 =>
          rw [specEntriesEq.eq_def]
          simp
  | cons e1 l1 ih =>
      intro m1 l2 m2
      cases l2 with
      | nil =>
          rw [specEntriesEq.eq_def]
          simp
      | cons e2 l2 =>
          rw [specEntriesEq]
          simp only [Bool.and_eq_true, beq_iff_eq, List.forall₂_cons, ih, and_assoc]
          constructor
          · rintro ⟨hk, hs, hrest⟩
            rw [← hk] at hs
            exact ⟨hk, hs, hrest⟩
          · rintro ⟨hk, hs, hrest⟩
            refine ⟨hk, ?_, hrest⟩
            rw [← hk]
            exact hs

theorem eqLoop_true_iff : ∀ (la lb : List (String × Value)), la.length = lb.length →
    (eqLoop la lb = true ↔
      List.Forall₂ (fun p q => p.1 = q.1 ∧ deepEqual p.2 q.2 = true) la lb) := by
  intro la
  induction la with
  | nil =>
      intro lb hlen
      cases lb with
      | nil => rw [eqLoop]; simp
      | cons q qs => cases hlen
  | cons p ps ih =>
      intro lb hlen
      cases lb with
      | nil => cases hlen
      | cons q qs =>
          rw [eqLoop, KVPairEqual, Bool.and_eq_true, Bool.and_eq_true]
          simp only [List.length_cons] at hlen
          rw [ih qs (by omega)]
          simp [and_assoc]

theorem forall2_of_keys {P : String → Prop} :
    ∀ (l1 l2 : List (Nat × String)), l1.map Prod.snd = l2.map Prod.snd →
      (∀ k ∈ l1.map Prod.snd, P k) →
      List.Forall₂ (fun e1 e2 : Nat × String => e1.2 = e2.2 ∧ P e1.2) l1 l2 := by
  intro l1
  induction l1 with
  | nil =>
      intro l2 hk _
      cases l2 with
      | nil => exact List.Forall₂.nil
      | cons e2 l2 => cases hk
  | cons e1 l1 ih =>
      intro l2 hk hp
      cases l2 with
      | nil => cases hk
      | cons e2 l2 =>
          simp only [List.map_cons, List.cons.injEq] at hk
          exact List.Forall₂.cons ⟨hk.1, hp e1.2 (by simp)⟩
            (ih l2 hk.2 (fun k hm => hp k (by simp [hm])))

theorem forall2_keys_extract {P : String → Prop} :
    ∀ (l1 l2 : List (Nat × String)),
      List.Forall₂ (fun e1 e2 : Nat × String => e1.2 = e2.2 ∧ P e1.2) l1 l2 →
      l1.map Prod.snd = l2.map Prod.snd ∧ ∀ k ∈ l1.map Prod.snd, P k := by
  intro l1
  induction l1 with
  | nil =>
      intro l2 h
      cases h
      simp
  | cons e1 l1 ih =>
      intro l2 h
      cases h with
      | cons hhd htl =>
          obtain ⟨hk, hrest⟩ := ih _ htl
          refine ⟨by simp [hhd.1, hk], ?_⟩
          intro k hm
          simp only [List.map_cons, List.mem_cons] at hm
          rcases hm with heq | hm
          · exact heq ▸ hhd.2
          · exact hrest k hm

/-- Bridge between the unordered hash-map comparison reflect.DeepEqual performs
on a well-formed pair of maps and the in-order pairwise comparison of the spec,
given that the two key sequences determine each other's lookups pointwise. -/
theorem deepEqualMap_eq_spec_of_pointwise
    (m1 : List (String × Value)) (l1 : List (Nat × String))
    (ks1 : List (String × Nat)) (n1 : Nat)
    (m2 : List (String × Value)) (l2 : List (Nat × String))
    (ks2 : List (String × Nat)) (n2 : Nat)
    (hm1 : m1.map Prod.fst = l1.map Prod.snd)
    (hm2 : m2.map Prod.fst = l2.map Prod.snd)
    (hnod1 : (l1.map Prod.snd).Nodup) (hnod2 : (l2.map Prod.snd).Nodup)
    (hIH : ∀ k ∈ l1.map Prod.snd,
      deepEqual (mGet m1 k) (mGet m2 k) = specStructEq (mGet m1 k) (mGet m2 k)) :
    deepEqualMap (.mk m1 l1 ks1 n1) (.mk m2 l2 ks2 n2) = specEntriesEq l1 m1 l2 m2 := by
  rw [Bool.eq_iff_iff, deepEqualMap]
  simp only [Map.m_mk, Map.l_mk, Bool.and_eq_true, beq_iff_eq, decide_eq_true_eq]
  rw [deepEqualEntries_true_iff, specEntriesEq_true_iff]
  constructor
  · rintro ⟨⟨hlen, hent⟩, hkeys⟩
    apply forall2_of_keys (P := fun k => specStructEq (mGet m1 k) (mGet m2 k) = true) l1 l2 hkeys
    intro k hk
    obtain ⟨v, hv⟩ := mem_of_mem_map_fst m1 k (hm1 ▸ hk)
    have hget1 : mGet m1 k = v := mGet_of_mem_nodup m1 k v (hm1 ▸ hnod1) hv
    obtain ⟨w, hw, hd⟩ := hent (k, v) hv
    have hget2 : mGet m2 k = w := by rw [mGet, hw]; rfl
    rw [← hIH k hk, hget1, hget2]
    exact hd
  · intro h
    obtain ⟨hkeys, hpt⟩ := forall2_keys_extract (P := fun k => specStructEq (mGet m1 k) (mGet m2 k) = true) l1 l2 h
    refine ⟨⟨?_, ?_⟩, hkeys⟩
    · have := congrArg List.length hm1
      have h2 := congrArg List.length hm2
      have h3 := congrArg List.length hkeys
      simp only [List.length_map] at this h2 h3
      omega
    · intro p hp
      obtain ⟨k, v⟩ := p
      have hk1 : k ∈ l1.map Prod.snd := hm1 ▸ List.mem_map.mpr ⟨(k, v), hp, rfl⟩
      obtain ⟨w, hwmem⟩ := mem_of_mem_map_fst m2 k (by rw [hm2, ← hkeys]; exact hk1)
      have hfind2 : alistFind m2 k = some w :=
        alistFind_of_mem_nodup m2 k w (hm2 ▸ hnod2) hwmem
      refine ⟨w, hfind2, ?_⟩
      have hget1 : mGet m1 k = v := mGet_of_mem_nodup m1 k v (hm1 ▸ hnod1) hp
      have hget2 : mGet m2 k = w := by rw [mGet, hfind2]; rfl
      have hde : deepEqual (mGet m1 k) (mGet m2 k) = true := by
        rw [hIH k hk1]
        exact hpt k hk1
      rw [hget1, hget2] at hde
      exact hde

/-- Fuel-indexed form of the bridge between reflect.DeepEqual and the spec
structural comparison on well-formed values. -/
theorem deepEqual_eq_spec_aux : ∀ (n : Nat) (v w : Value), sizeOf v < n →
    wfValue v = true → wfValue w = true → deepEqual v w = specStructEq v w := by
  intro n
  induction n with
  | zero => intro v w h _ _; exact absurd h (Nat.not_lt_zero _)
  | succ n ih =>
      intro v w hsz hv hw
      cases v with
      | vnull => cases w <;> simp [deepEqual, specStructEq]
      | vbool a => cases w <;> simp [deepEqual, specStructEq]
      | vnum a => cases w <;> simp [deepEqual, specStructEq]
      | vstr a => cases w <;> simp [deepEqual, specStructEq]
      | varr vs =>
          cases w with
          | varr ws =>
              rw [deepEqual, specStructEq]
              rw [wfValue] at hv hw
              simp only [Value.varr.sizeOf_spec] at hsz
              have hvs : sizeOf vs < n := by omega
              have harr : ∀ (as bs : List Value), sizeOf as < n → wfList as = true →
                  wfList bs = true → deepEqualList as bs = specSeqEq as bs := by
                intro as
                induction as with
                | nil => intro bs _ _ _; cases bs <;> simp [deepEqualList, specSeqEq]
                | cons a as ihl =>
                    intro bs hs ha hb
                    cases bs with
                    | nil => simp [deepEqualList, specSeqEq]
                    | cons b bs =>
                        rw [deepEqualList, specSeqEq]
                        rw [wfList, Bool.and_eq_true] at ha hb
                        have h1 : sizeOf a < n := by
                          simp only [List.cons.sizeOf_spec] at hs
                          omega
                        have h2 : sizeOf as < n := by
                          simp only [List.cons.sizeOf_spec] at hs
                          omega
                        rw [ih a b h1 ha.1 hb.1, ihl bs h2 ha.2 hb.2]
              exact harr vs ws hvs hv hw
          | vnull => simp [deepEqual, specStructEq]
          | vbool b => simp [deepEqual, specStructEq]
          | vnum b => simp [deepEqual, specStructEq]
          | vstr b => simp [deepEqual, specStructEq]
          | vmap b => simp [deepEqual, specStructEq]
      | vmap a =>
          cases w with
          | vmap b =>
              obtain ⟨m1, l1, ks1, n1⟩ := a
              obtain ⟨m2, l2, ks2, n2⟩ := b
              rw [wfValue, wfMap_iff] at hv hw
              obtain ⟨hm1, hnod1, hnodid1, hks1, hlt1, hent1⟩ := hv
              obtain ⟨hm2, hnod2, hnodid2, hks2, hlt2, hent2⟩ := hw
              rw [deepEqual, specStructEq]
              apply deepEqualMap_eq_spec_of_pointwise m1 l1 ks1 n1 m2 l2 ks2 n2
                hm1 hm2 hnod1 hnod2
              intro k hk
              apply ih
              · have h1 := mGet_sizeOf_le m1 k
                simp only [Value.vmap.sizeOf_spec, Map.mk.sizeOf_spec] at hsz
                omega
              · exact wfValue_mGet m1 k hent1
              · exact wfValue_mGet m2 k hent2
          | vnull => simp [deepEqual, specStructEq]
          | vbool b => simp [deepEqual, specStructEq]
          | vnum b => simp [deepEqual, specStructEq]
          | vstr b => simp [deepEqual, specStructEq]
          | varr ws => simp [deepEqual, specStructEq]

/-- reflect.DeepEqual agrees with the spec structural comparison on
well-formed values. -/
theorem deepEqual_eq_spec (v w : Value) (hv : wfValue v = true)
    (hw : wfValue w = true) : deepEqual v w = specStructEq v w :=
  deepEqual_eq_spec_aux (sizeOf v + 1) v w (Nat.lt_succ_self _) hv hw

/-- Map.Equal agrees with the spec comparison on well-formed maps (and on nil
arguments). -/
theorem Equal_eq_specEqual (a b : Option Map)
    (ha : ∀ x, a = some x → wfMap x = true)
    (hb : ∀ x, b = some x → wfMap x = true) :
    Map.Equal a b = specEqual a b := by
  cases a with
  | none =>
      cases b with
      | none => rfl
      | some y =>
          obtain ⟨m2, l2, ks2, n2⟩ := y
          rfl
  | some x =>
      cases b with
      | none =>
          obtain ⟨m1, l1, ks1, n1⟩ := x
          rfl
      | some y =>
          have hwx := ha x rfl
          have hwy := hb y rfl
          have hnx := wf_l_fst_nodup x hwx
          have hny := wf_l_fst_nodup y hwy
          have hix := iterateAll_eq_toPairs x hnx
          have hiy := iterateAll_eq_toPairs y hny
          obtain ⟨m1, l1, ks1, n1⟩ := x
          obtain ⟨m2, l2, ks2, n2⟩ := y
          rw [wfMap_iff] at hwx hwy
          obtain ⟨hm1, hnod1, hno1, hks1, hlt1, hent1⟩ := hwx
          obtain ⟨hm2, hnod2, hno2, hks2, hlt2, hent2⟩ := hwy
          rw [Map.Equal, specEqual]
          by_cases hlen : Map.Len (.mk m1 l1 ks1 n1) = Map.Len (.mk m2 l2 ks2 n2)
          · rw [if_pos hlen]
            have hlen2 : l1.length = l2.length := by
              simpa [Map.Len] using hlen
            rw [hix, hiy]
            rw [Bool.eq_iff_iff,
              eqLoop_true_iff _ _ (by simp [Map.toPairs, hlen2]),
              specEntriesEq_true_iff]
            simp only [Map.toPairs, Map.l_mk, Map.m_mk, List.forall₂_map_left_iff,
              List.forall₂_map_right_iff]
            constructor
            · intro h
              refine List.Forall₂.imp ?_ h
              rintro e1 e2 ⟨hk, hd⟩
              refine ⟨hk, ?_⟩
              rw [← hk] at hd
              rw [← deepEqual_eq_spec _ _ (wfValue_mGet m1 e1.2 hent1)
                (wfValue_mGet m2 e1.2 hent2)]
              exact hd
            · intro h
              refine List.Forall₂.imp ?_ h
              rintro e1 e2 ⟨hk, hs⟩
              refine ⟨hk, ?_⟩
              rw [← hk,
                deepEqual_eq_spec _ _ (wfValue_mGet m1 e1.2 hent1)
                  (wfValue_mGet m2 e1.2 hent2)]
              exact hs
          · rw [if_neg hlen]
            cases hsp : specEntriesEq l1 m1 l2 m2 with
            | false => rfl
            | true =>
                exfalso
                have hf := (specEntriesEq_true_iff l1 m1 l2 m2).mp hsp
                exact hlen (by simp [Map.Len, hf.length_eq])

/-- C3: Map.Equal is exactly the spec relation: both nil maps are equal, a nil
and a non-nil map are not, and two non-nil (well-formed) maps are equal iff
their lengths agree and their forward iterations produce identical (key,
value) pairs in identical order under deep structural comparison
(specEqual); concretely, two maps holding the same two key/value pairs but
inserted in opposite orders are not Equal. -/
theorem C3_equal_refinement :
    (∀ (a b : Option Map), (∀ x, a = some x → wfMap x = true) →
        (∀ x, b = some x → wfMap x = true) → Map.Equal a b = specEqual a b) ∧
    (setAll NewMap [("a", Value.vnum "1"), ("b", Value.vnum "2")]).toPairs =
        [("a", Value.vnum "1"), ("b", Value.vnum "2")] ∧
    (setAll NewMap [("b", Value.vnum "2"), ("a", Value.vnum "1")]).toPairs =
        [("b", Value.vnum "2"), ("a", Value.vnum "1")] ∧
    Map.Equal (some (setAll NewMap [("a", Value.vnum "1"), ("b", Value.vnum "2")]))
        (some (setAll NewMap [("b", Value.vnum "2"), ("a", Value.vnum "1")])) = false :=
  ⟨Equal_eq_specEqual, rfl, rfl, rfl⟩

theorem C3_equal_refinement_witness :
    Map.Equal (some (setAll NewMap [("a", Value.vnum "1")]))
      (some (setAll NewMap [("a", Value.vnum "1")])) =
    specEqual (some (setAll NewMap [("a", Value.vnum "1")]))
      (some (setAll NewMap [("a", Value.vnum "1")])) := by
  have hwf : wfMap (setAll NewMap [("a", Value.vnum "1")]) = true :=
    wf_setAll NewMap [("a", Value.vnum "1")] wf_NewMap (by rw [wfEntries]; simp)
  exact C3_equal_refinement.1 _ _ (fun x hx => by cases hx; exact hwf)
    (fun x hx => by cases hx; exact hwf)

/-! ### Lexical faithfulness of the number scanner -/

theorem takeDigits_append (cs : List Char) :
    (takeDigits cs).1 ++ (takeDigits cs).2 = cs := by
  induction cs with
  | nil => rfl
  | cons c cs ih =>
      rw [takeDigits]
      by_cases h : isDigit c
      · simp only [if_pos h]
        simpa using ih
      · simp only [if_neg h]
        simp

theorem numTail_eq_phases (ip rest0 : List Char) :
    readNumber.numTail ip rest0 =
      match fracStep rest0 with
      | .error e => .error e
      | .ok (fracPart, r2) =>
          match expoStep r2 with
          | .error e => .error e
          | .ok (expPart, r3) =>
              if litEndOk r3 then .ok (⟨ip ++ fracPart ++ expPart⟩, r3)
              else .error (.msg "invalid character after numeric literal") := rfl

theorem readNumber_eq_phases (cs : List Char) :
    readNumber cs =
      match (minusStep cs).2 with
      | [] => .error (.msg "invalid numeric literal")
      | c :: r1 =>
          if c = '0' then readNumber.numTail ((minusStep cs).1 ++ ['0']) r1
          else if isDigit c then
            let p := takeDigits r1
            readNumber.numTail ((minusStep cs).1 ++ c :: p.1) p.2
          else .error (.msg "invalid character in numeric literal") := rfl

theorem minusStep_append (cs : List Char) :
    (minusStep cs).1 ++ (minusStep cs).2 = cs := by
  cases cs with
  | nil => rfl
  | cons c r =>
      by_cases hc : c = '-'
      · subst hc
        rfl
      · rw [minusStep.eq_def]
        split
      
        · rename_i r3 heq
          cases heq
          exact absurd rfl hc
        · rfl

theorem signStep_append (r : List Char) :
    (signStep r).1 ++ (signStep r).2 = r := by
  cases r with
  | nil => rfl
  | cons c r3 =>
      by_cases hp : c = '+'
      · subst hp
        rfl
      · by_cases hm : c = '-'
        · subst hm
          rfl
        · rw [signStep.eq_def]
          split
          · rename_i r4 heq
            cases heq
            exact absurd rfl hp
          · rename_i r4 heq
            cases heq
            exact absurd rfl hm
          · rfl

theorem fracStep_faithful (rest0 f r2 : List Char)
    (h : fracStep rest0 = .ok (f, r2)) : f ++ r2 = rest0 := by
  cases rest0 with
  | nil =>
      cases h
      rfl
  | cons c r =>
      by_cases hc : c = '.'
      · subst hc
        rw [fracStep] at h
        split at h
        · cases h
        · cases h
          have := takeDigits_append r
          simp only [List.cons_append, List.cons.injEq, true_and]
          exact this
      · rw [fracStep.eq_def] at h
        split at h
        · rename_i r1 heq
          cases heq
          exact absurd rfl hc
        · cases h
          rfl

theorem expoStep_faithful (r2 e r3 : List Char)
    (h : expoStep r2 = .ok (e, r3)) : e ++ r3 = r2 := by
  rw [expoStep.eq_def] at h
  split at h
  · -- r2 = 'e' :: r
    rename_i r9
    simp only [] at h
    split at h
    · cases h
    · cases h
      have h1 := takeDigits_append (signStep r9).2
      have h2 := signStep_append r9
      simp only [List.head?_cons, Option.toList_some, List.singleton_append,
        List.cons_append, List.append_assoc, List.cons.injEq, true_and]
      rw [h1, h2]
      simp
  · -- r2 = 'E' :: r
    rename_i r9
    simp only [] at h
    split at h
    · cases h
    · cases h
      have h1 := takeDigits_append (signStep r9).2
      have h2 := signStep_append r9
      simp only [List.head?_cons, Option.toList_some, List.singleton_append,
        List.cons_append, List.append_assoc, List.cons.injEq, true_and]
      rw [h1, h2]
      simp
  · cases h
    rfl

theorem numTail_faithful (ip rest0 : List Char) (s : String) (rest : List Char)
    (h : readNumber.numTail ip rest0 = .ok (s, rest)) :
    s.data ++ rest = ip ++ rest0 := by
  rw [numTail_eq_phases] at h
  cases hf : fracStep rest0 with
  | error e0 => rw [hf] at h; cases h
  | ok p =>
      obtain ⟨f, r2⟩ := p
      rw [hf] at h
      simp only [] at h
      cases he : expoStep r2 with
      | error e0 => rw [he] at h; cases h
      | ok q =>
          obtain ⟨ex, r3⟩ := q
          rw [he] at h
          simp only [] at h
          split at h
          · cases h
            have h1 := fracStep_faithful _ _ _ hf
            have h2 := expoStep_faithful _ _ _ he
            dsimp only []
            rw [List.append_assoc (ip ++ f), h2, List.append_assoc, h1]
          · cases h

theorem readNumber_faithful (cs : List Char) (s : String) (rest : List Char)
    (h : readNumber cs = .ok (s, rest)) : s.data ++ rest = cs := by
  rw [readNumber_eq_phases] at h
  cases hm : (minusStep cs).2 with
  | nil => rw [hm] at h; cases h
  | cons c r1 =>
      rw [hm] at h
      simp only [] at h
      have hms := minusStep_append cs
      rw [hm] at hms
      by_cases h0 : c = '0'
      · rw [if_pos h0] at h
        subst h0
        have := numTail_faithful _ _ _ _ h
        rw [this, List.append_assoc]
        exact hms
      · rw [if_neg h0] at h
        by_cases hd : isDigit c
        · rw [if_pos hd] at h
          have := numTail_faithful _ _ _ _ h
          rw [this, List.append_assoc, List.cons_append, takeDigits_append]
          exact hms
        · rw [if_neg hd] at h
          cases h

/-- Any number token the scanner yields is the verbatim consumed input slice:
the stored lexical string concatenated with the unconsumed remainder is the
original character sequence. -/
theorem readScalar_tnum (cs : List Char) (s : String) (rest : List Char)
    (h : readScalar cs = .ok (.tnum s, rest)) : s.data ++ rest = cs := by
  cases cs with
  | nil => cases h
  | cons c cs0 =>
      rw [readScalar] at h
      split at h
      · split at h
        · cases h
        · cases h
      · split at h
        · split at h
          · rename_i s0 rest0 heq
            cases h
            exact readNumber_faithful _ _ _ heq
          · cases h
        · split at h <;> first | (split at h <;> cases h) | cases h

/-- A string passing json.Marshal validation scans back to itself exactly,
with nothing left over. -/
theorem isValidNumber_scan (s : String) (h : isValidNumber s = true) :
    readNumber s.data = .ok (s, []) := by
  rw [isValidNumber] at h
  cases hr : readNumber s.data with
  | error e =>
      rw [hr] at h
      simp at h
  | ok p =>
      obtain ⟨t, r⟩ := p
      rw [hr] at h
      cases r with
      | cons c r2 =>
          simp at h
      | nil =>
          have hfa := readNumber_faithful s.data t [] hr
          simp only [List.append_nil] at hfa
          obtain ⟨td⟩ := t
          obtain ⟨sd⟩ := s
          simp only [] at hfa
          subst hfa
          rfl

/-- json.Marshal on a json.Number value writes the lexical string verbatim
when it is a valid literal. -/
theorem marshalValue_vnum (s : String) (h : isValidNumber s = true) :
    marshalValue (.vnum s) = .ok s := by
  rw [marshalValue.eq_def]
  simp only []
  rw [if_pos h]

/-- C8: numbers decode losslessly: a number token always stores the exact
lexical characters of the input (readNumber returns the verbatim consumed
slice, both at the scanner and at the token level), a valid literal scans
back to itself with nothing left over, json.Marshal re-serializes a stored
json.Number byte-for-byte, and a decoded high-precision literal far beyond
float64 precision is stored and retrieved exactly as written. -/
theorem C8_number_preservation :
    (∀ (cs : List Char) (s : String) (rest : List Char),
        readNumber cs = .ok (s, rest) → s.data ++ rest = cs) ∧
    (∀ (cs : List Char) (s : String) (rest : List Char),
        readScalar cs = .ok (.tnum s, rest) → s.data ++ rest = cs) ∧
    (∀ s : String, isValidNumber s = true → readNumber s.data = .ok (s, [])) ∧
    (∀ s : String, isValidNumber s = true → marshalValue (.vnum s) = .ok s) ∧
    ((NewMap.UnmarshalJSON
        "\x7b\"k\":3.14159265358979323846264338327950288419716939937510582\x7d").2 =
      none ∧
     (NewMap.UnmarshalJSON
        "\x7b\"k\":3.14159265358979323846264338327950288419716939937510582\x7d").1.Get
        "k" =
      Value.vnum "3.14159265358979323846264338327950288419716939937510582") :=
  ⟨readNumber_faithful, readScalar_tnum, isValidNumber_scan, marshalValue_vnum,
    by constructor <;> rfl⟩

theorem C8_number_preservation_witness :
    isValidNumber "1.5e10" = true ∧
    readNumber (String.data "1.5e10") = .ok ("1.5e10", []) ∧
    marshalValue (Value.vnum "1.5e10") = .ok "1.5e10" :=
  ⟨by rfl, C8_number_preservation.2.2.1 "1.5e10" (by rfl),
    C8_number_preservation.2.2.2.1 "1.5e10" (by rfl)⟩

/-! ### Encoder layout -/

theorem encodeSpecList_cons_shape (p : String × Value) (ps : List (String × Value))
    (parts : List String) (h : encodeSpecList (p :: ps) = .ok parts) :
    ∃ x parts2, parts = x :: parts2 := by
  obtain ⟨k, v⟩ := p
  rw [encodeSpecList] at h
  split at h
  · cases h
    exact ⟨_, _, rfl⟩
  · cases h
  · cases h

theorem marshalEntries_eq_spec : ∀ (l : List (Nat × String)) (m : List (String × Value)),
    marshalEntries l m =
      match encodeSpecList (l.map (fun e => (e.2, mGet m e.2))) with
      | .ok parts => .ok (joinComma parts)
      | .error e => .error e := by
  intro l
  induction l with
  | nil =>
      intro m
      rw [marshalEntries, List.map_nil, encodeSpecList]
      rfl
  | cons e rest ih =>
      intro m
      cases rest with
      | nil =>
          rw [marshalEntries]
          rw [show ((([e] : List (Nat × String)).map (fun e => (e.2, mGet m e.2)))
              = [(e.2, mGet m e.2)]) from rfl]
          rw [encodeSpecList, encodeSpecList]
          cases hb : marshalValue (mGet m e.2) <;> rfl
      | cons e2 rest2 =>
          rw [marshalEntries, ih m]
          rw [show (((e :: e2 :: rest2 : List (Nat × String)).map
                (fun e => (e.2, mGet m e.2)))
              = ((e.2, mGet m e.2) ::
                  ((e2 :: rest2 : List (Nat × String)).map
                    (fun e => (e.2, mGet m e.2))))) from rfl]
          rw [encodeSpecList]
          cases hb : marshalValue (mGet m e.2) with
          | error er =>
              cases hrest : encodeSpecList
                  ((e2 :: rest2 : List (Nat × String)).map
                    (fun e => (e.2, mGet m e.2))) <;> rfl
          | ok b =>
              cases hrest : encodeSpecList
                  ((e2 :: rest2 : List (Nat × String)).map
                    (fun e => (e.2, mGet m e.2))) with
              | error er => rfl
              | ok parts =>
                  obtain ⟨x, parts2, hx⟩ := encodeSpecList_cons_shape _ _ _ hrest
                  subst hx
                  rfl
          simp

/-- Map.MarshalJSON produces exactly the layout of the spec-modelled encoder:
opening brace, the quoted-key colon value pairs in order-list order, commas
between pairs, closing brace — with the first value error aborting. -/
theorem MarshalJSON_eq_encodeSpec (om : Map) : om.MarshalJSON = encodeSpec om := by
  obtain ⟨m, l, ks, nid⟩ := om
  rw [Map.MarshalJSON, encodeSpec, Map.toPairs]
  simp only [Map.l_mk, Map.m_mk]
  rw [marshalEntries_eq_spec]
  cases encodeSpecList (l.map (fun e => (e.2, mGet m e.2))) <;> rfl

theorem marshalEntries_ok_iff : ∀ (l : List (Nat × String)) (m : List (String × Value)),
    (∃ s, marshalEntries l m = .ok s) ↔
      ∀ k ∈ l.map Prod.snd, ∃ b, marshalValue (mGet m k) = .ok b := by
  intro l
  induction l with
  | nil =>
      intro m
      rw [marshalEntries]
      simp
  | cons e rest ih =>
      intro m
      cases rest with
      | nil =>
          rw [marshalEntries]
          cases hb : marshalValue (mGet m e.2) with
          | error er => simp [hb]
          | ok b => simp [hb]
      | cons e2 rest2 =>
          rw [marshalEntries]
          cases hb : marshalValue (mGet m e.2) with
          | error er =>
              simp only [List.map_cons, List.mem_cons, forall_eq_or_imp, hb]
              constructor
              · rintro ⟨s, hs⟩
                cases hs
              · rintro ⟨⟨b, hbb⟩, _⟩
                cases hbb
          | ok b =>
              cases hrest : marshalEntries (e2 :: rest2) m with
              | error er =>
                  have hiff := (ih m).symm
                  rw [hrest] at hiff
                  simp only [List.map_cons, List.mem_cons, forall_eq_or_imp, hb]
                  constructor
                  · rintro ⟨s, hs⟩
                    cases hs
                  · rintro ⟨_, hrest2⟩
                    obtain ⟨s, hs⟩ := hiff.mp (by
                      simpa only [List.map_cons, List.mem_cons, forall_eq_or_imp]
                        using hrest2)
                    cases hs
              | ok tl =>
                  have hiff := ih m
                  rw [hrest] at hiff
                  simp only [List.map_cons, List.mem_cons, forall_eq_or_imp, hb]
                  constructor
                  · intro _
                    have hall := hiff.mp ⟨tl, rfl⟩
                    refine ⟨⟨b, rfl⟩, ?_⟩
                    simpa only [List.map_cons, List.mem_cons, forall_eq_or_imp]
                      using hall
                  · intro _
                    exact ⟨_, rfl⟩
          simp

theorem hasBadNumEntries_false_iff (m : List (String × Value)) :
    hasBadNumEntries m = false ↔ ∀ p ∈ m, hasBadNumValue p.2 = false := by
  induction m with
  | nil =>
      rw [hasBadNumEntries]
      simp
  | cons p rest ih =>
      obtain ⟨k, v⟩ := p
      rw [hasBadNumEntries, Bool.or_eq_false_iff, ih]
      simp

theorem marshalValue_ok_iff_aux : ∀ (n : Nat) (v : Value), sizeOf v < n →
    wfValue v = true →
    ((∃ s, marshalValue v = .ok s) ↔ hasBadNumValue v = false) := by
  intro n
  induction n with
  | zero => intro v h _; exact absurd h (Nat.not_lt_zero _)
  | succ n ih =>
      intro v hsz hv
      cases v with
      | vnull =>
          rw [marshalValue.eq_def, hasBadNumValue.eq_def]
          simp
      | vbool b =>
          rw [marshalValue.eq_def, hasBadNumValue.eq_def]
          simp
      | vstr a =>
          rw [marshalValue.eq_def, hasBadNumValue.eq_def]
          simp
      | vnum a =>
          rw [marshalValue.eq_def, hasBadNumValue.eq_def]
          simp only []
          cases hval : isValidNumber a <;> simp
      | varr vs =>
          rw [marshalValue.eq_def, hasBadNumValue.eq_def]
          simp only [Value.varr.sizeOf_spec] at hsz
          rw [wfValue] at hv
          simp only []
          have harr : ∀ (as : List Value), sizeOf as < n → wfList as = true →
              ((∃ s, marshalList as = .ok s) ↔ hasBadNumList as = false) := by
            intro as
            induction as with
            | nil =>
                intro _ _
                rw [marshalList, hasBadNumList]
                simp
            | cons a as0 ihl =>
                intro hs ha
                rw [wfList, Bool.and_eq_true] at ha
                have h1 : sizeOf a < n := by
                  simp only [List.cons.sizeOf_spec] at hs
                  omega
                have h2 : sizeOf as0 < n := by
                  simp only [List.cons.sizeOf_spec] at hs
                  omega
                have hhd := ih a h1 ha.1
                cases as0 with
                | nil =>
                    rw [marshalList, hasBadNumList, hasBadNumList]
                    simp only [Bool.or_false]
                    rw [← hhd]
                | cons a2 rest2 =>
                    rw [marshalList, hasBadNumList, Bool.or_eq_false_iff,
                      ← hhd, ← ihl h2 ha.2]
                    cases hb : marshalValue a with
                    | error er =>
                        constructor
                        · rintro ⟨s, hs0⟩
                          cases hrest : marshalList (a2 :: rest2) <;>
                            rw [hrest] at hs0 <;> cases hs0
                        · rintro ⟨⟨b, hbb⟩, _⟩
                          cases hbb
                    | ok b =>
                        cases hrest : marshalList (a2 :: rest2) with
                        | error er =>
                            constructor
                            · rintro ⟨s, hs0⟩
                              cases hs0
                            · rintro ⟨_, ⟨s, hs0⟩⟩
                              cases hs0
                        | ok tl =>
                            constructor
                            · intro _
                              exact ⟨⟨b, rfl⟩, ⟨tl, rfl⟩⟩
                            · intro _
                              exact ⟨_, rfl⟩
                    simp
          cases hml : marshalList vs with
          | error er =>
              have := (harr vs (by omega) hv).symm
              rw [hml] at this
              rw [← this]
          | ok body =>
              have := harr vs (by omega) hv
              rw [hml] at this
              rw [← this]
              constructor
              · intro _
                exact ⟨_, rfl⟩
              · intro _
                exact ⟨_, rfl⟩
      | vmap om =>
          obtain ⟨m, l, ks, nid⟩ := om
          rw [marshalValue.eq_def, hasBadNumValue.eq_def]
          simp only [Value.vmap.sizeOf_spec, Map.mk.sizeOf_spec] at hsz
          rw [wfValue, wfMap_iff] at hv
          obtain ⟨hm1, hnod1, hno1, hks1, hlt1, hent1⟩ := hv
          simp only []
          rw [hasBadNumMap]
          have hpt : ∀ k ∈ l.map Prod.snd,
              ((∃ b, marshalValue (mGet m k) = .ok b) ↔
                hasBadNumValue (mGet m k) = false) := by
            intro k _
            apply ih
            · have := mGet_sizeOf_le m k
              omega
            · exact wfValue_mGet m k hent1
          have hmid : (∃ s, marshalEntries l m = .ok s) ↔
              hasBadNumEntries m = false := by
            rw [marshalEntries_ok_iff, hasBadNumEntries_false_iff]
            constructor
            · intro h p hp
              have hk : p.1 ∈ l.map Prod.snd :=
                hm1 ▸ List.mem_map.mpr ⟨p, hp, rfl⟩
              have := (hpt p.1 hk).mp (h p.1 hk)
              rwa [mGet_of_mem_nodup m p.1 p.2 (hm1 ▸ hnod1) hp] at this
            · intro h k hk
              obtain ⟨v, hv0⟩ := mem_of_mem_map_fst m k (hm1 ▸ hk)
              have hg : mGet m k = v := mGet_of_mem_nodup m k v (hm1 ▸ hnod1) hv0
              exact (hpt k hk).mpr (by rw [hg]; exact h (k, v) hv0)
          rw [Map.MarshalJSON]
          cases hme : marshalEntries l m with
          | error er =>
              rw [hme] at hmid
              rw [← hmid]
          | ok body =>
              rw [hme] at hmid
              rw [← hmid]
              constructor
              · intro _
                exact ⟨_, rfl⟩
              · intro _
                exact ⟨_, rfl⟩

/-- MarshalJSON succeeds on a well-formed map exactly when no contained value
is an invalid json.Number literal (the only unrepresentable values among the
modelled shapes). -/
theorem MarshalJSON_ok_iff (om : Map) (h : wfMap om = true) :
    (∃ s, om.MarshalJSON = .ok s) ↔ hasBadNumMap om = false := by
  have := marshalValue_ok_iff_aux (sizeOf (Value.vmap om) + 1) (.vmap om)
    (Nat.lt_succ_self _) (by rw [wfValue]; exact h)
  rw [marshalValue.eq_def] at this
  simp only [] at this
  rw [show hasBadNumValue (.vmap om) = hasBadNumMap om from by
    rw [hasBadNumValue.eq_def]] at this
  rw [← this]
  cases hm : Map.MarshalJSON om with
  | error er =>
      constructor
      · rintro ⟨s, hs0⟩
        cases hs0
      · rintro ⟨s, hs0⟩
        cases hs0
  | ok s0 =>
      constructor
      · intro _
        exact ⟨_, rfl⟩
      · intro _
        exact ⟨_, rfl⟩

theorem MarshalJSON_error_of_bad (om : Map) (h : wfMap om = true)
    (hb : hasBadNumMap om = true) : ∃ e, om.MarshalJSON = .error e := by
  cases hm : om.MarshalJSON with
  | error er => exact ⟨er, rfl⟩
  | ok s0 =>
      have := (MarshalJSON_ok_iff om h).mp ⟨s0, hm⟩
      rw [this] at hb
      cases hb

/-- C7 counterexample: a well-formed map whose single value (null) is
JSON-representable, but whose key is the control character U+0001.  MarshalJSON
succeeds, emitting the Go %q escape backslash-x01 inside the key — yet that
byte sequence is not syntactically valid JSON: feeding the encoder output back
to the decoder fails.  So encode does not always produce valid JSON, against
the claim. -/
theorem C7_invalid_key_counterexample :
    wfMap (setAll NewMap [(⟨[Char.ofNat 1]⟩, Value.vnull)]) = true ∧
    hasBadNumMap (setAll NewMap [(⟨[Char.ofNat 1]⟩, Value.vnull)]) = false ∧
    (setAll NewMap [(⟨[Char.ofNat 1]⟩, Value.vnull)]).MarshalJSON =
      .ok "\x7b\"\\x01\":null\x7d" ∧
    (NewMap.UnmarshalJSON "\x7b\"\\x01\":null\x7d").2.isSome = true := by
  refine ⟨?_, ?_, ?_, ?_⟩
  · exact wf_setAll NewMap [(⟨[Char.ofNat 1]⟩, Value.vnull)] wf_NewMap
      (by rw [wfEntries]; simp)
  · show hasBadNumMap (Map.mk [(⟨[Char.ofNat 1]⟩, Value.vnull)]
      [(0, ⟨[Char.ofNat 1]⟩)] [(⟨[Char.ofNat 1]⟩, 0)] 1) = false
    rw [hasBadNumMap, hasBadNumEntries, hasBadNumEntries,
      hasBadNumValue.eq_def]
    rfl
  · have h1 : marshalValue Value.vnull = .ok "null" := by rw [marshalValue]
    have h2 : marshalEntries [(0, (⟨[Char.ofNat 1]⟩ : String))]
        [((⟨[Char.ofNat 1]⟩ : String), Value.vnull)] =
        .ok (goQuote ⟨[Char.ofNat 1]⟩ ++ ":" ++ "null") := by
      rw [marshalEntries]
      rw [show mGet [((⟨[Char.ofNat 1]⟩ : String), Value.vnull)]
        (⟨[Char.ofNat 1]⟩ : String) = Value.vnull from rfl, h1]
    show Map.MarshalJSON (Map.mk [(⟨[Char.ofNat 1]⟩, Value.vnull)]
      [(0, ⟨[Char.ofNat 1]⟩)] [(⟨[Char.ofNat 1]⟩, 0)] 1) =
      .ok "\x7b\"\\x01\":null\x7d"
    rw [Map.MarshalJSON, h2]
    rfl
  · rfl

/-- C7: the encoder layout is exactly as the spec describes — opening brace,
for each key in order-sequence order the quoted key, a colon and the JSON
encoding of its value, pairs comma-separated, closing brace (the refinement
MarshalJSON = encodeSpec, unconditionally) — and on a well-formed map encoding
succeeds exactly when every contained value is representable, failing with an
encoding error as soon as some value is an invalid json.Number literal.  (The
emitted keys use Go %q quoting; for keys outside printable ASCII the output
can fail to be valid JSON, see the counterexample.) -/
theorem C7_encoder_layout :
    (∀ om : Map, om.MarshalJSON = encodeSpec om) ∧
    (∀ om : Map, wfMap om = true →
      ((∃ s, om.MarshalJSON = .ok s) ↔ hasBadNumMap om = false)) ∧
    (∀ om : Map, wfMap om = true → hasBadNumMap om = true →
      ∃ e, om.MarshalJSON = .error e) :=
  ⟨MarshalJSON_eq_encodeSpec, MarshalJSON_ok_iff, MarshalJSON_error_of_bad⟩

theorem C7_encoder_layout_witness :
    (wfMap (setAll NewMap [("n", Value.vnum "01")]) = true ∧
      hasBadNumMap (setAll NewMap [("n", Value.vnum "01")]) = true) ∧
    ∃ e, (setAll NewMap [("n", Value.vnum "01")]).MarshalJSON = .error e := by
  have hwf : wfMap (setAll NewMap [("n", Value.vnum "01")]) = true :=
    wf_setAll NewMap [("n", Value.vnum "01")] wf_NewMap (by rw [wfEntries]; simp)
  have hbad : hasBadNumMap (setAll NewMap [("n", Value.vnum "01")]) = true := by
    show hasBadNumMap (Map.mk [("n", Value.vnum "01")] [(0, "n")] [("n", 0)] 1) = true
    rw [hasBadNumMap, hasBadNumEntries, hasBadNumEntries, hasBadNumValue]
    rfl
  exact ⟨⟨hwf, hbad⟩, C7_encoder_layout.2.2 _ hwf hbad⟩

/-! ### String literal round trip -/

theorem hexVal_toHexDigitL (n : Nat) (h : n < 16) :
    hexVal (toHexDigitL n) = some n := by
  interval_cases n <;> rfl

theorem readStringRaw_uEscape (acc : List Nat) (n : Nat) (h : n < 0x10000)
    (rest : List Char) :
    readStringRaw acc (uEscape n ++ rest) = readStringRaw (n :: acc) rest := by
  rw [uEscape]
  show readStringRaw acc
    ('\\' :: 'u' :: toHexDigitL (n / 4096 % 16) :: toHexDigitL (n / 256 % 16) ::
      toHexDigitL (n / 16 % 16) :: toHexDigitL (n % 16) :: rest) = _
  rw [readStringRaw]
  rw [hexVal_toHexDigitL _ (by omega), hexVal_toHexDigitL _ (by omega),
    hexVal_toHexDigitL _ (by omega), hexVal_toHexDigitL _ (by omega)]
  simp only []
  rw [show (((n / 4096 % 16) * 16 + n / 256 % 16) * 16 + n / 16 % 16) * 16 + n % 16
    = n from by omega]

theorem readStringRaw_enc :
    ∀ (s : List Char) (f : Char → List Char) (acc : List Nat) (rest : List Char),
      (∀ c ∈ s, encCharOk c (f c)) →
      readStringRaw acc (s.flatMap f ++ '"' :: rest) =
        .ok (acc.reverse ++ s.map Char.toNat, rest) := by
  intro s
  induction s with
  | nil =>
      intro f acc rest _
      rw [List.flatMap_nil, List.nil_append, readStringRaw]
      simp
  | cons c s ih =>
      intro f acc rest hf
      have hc := hf c (by simp)
      have htl : ∀ x ∈ s, encCharOk x (f x) := fun x hx => hf x (by simp [hx])
      rw [List.flatMap_cons, List.append_assoc]
      rcases hc with ⟨hl, hge, hq, hb⟩ | ⟨hl, hcq⟩ | ⟨hl, hcb⟩ | ⟨hl, hcn⟩ |
        ⟨hl, hcr⟩ | ⟨hl, hct⟩ | ⟨hl, hlt⟩
      · -- raw character
        rw [hl]
        rw [readStringRaw.eq_def]
        split
        · rename_i heq
          simp only [List.cons_append] at heq
          cases heq
        · rename_i heq
          simp only [List.cons_append, List.cons.injEq] at heq
          exact absurd heq.1 hq
        · rename_i a b0 c0 d0 r0 heq
          simp only [List.cons_append, List.cons.injEq] at heq
          exact absurd heq.1 hb
        · rename_i e r0 heq
          simp only [List.cons_append, List.cons.injEq] at heq
          exact absurd heq.1 hb
        · rename_i a1 a2 a3 a4 a5 a6 a7 heq
          simp only [List.cons_append, List.cons.injEq] at heq
          obtain ⟨hc0, hr0⟩ := heq
          subst hc0
          rw [if_neg (by omega), ← hr0]
          simp only [List.nil_append]
          rw [ih f _ rest htl]
          simp
      · -- escaped quote
        subst hcq
        rw [hl]
        have hstep : readStringRaw acc
            ('\\' :: '"' :: (s.flatMap f ++ '"' :: rest)) =
            readStringRaw ('"'.toNat :: acc) (s.flatMap f ++ '"' :: rest) := rfl
        rw [show ((['\\', '"'] : List Char) ++ (s.flatMap f ++ '"' :: rest))
          = '\\' :: '"' :: (s.flatMap f ++ '"' :: rest) from rfl, hstep,
          ih f _ rest htl]
        simp
      · subst hcb
        rw [hl]
        have hstep : readStringRaw acc
            ('\\' :: '\\' :: (s.flatMap f ++ '"' :: rest)) =
            readStringRaw ('\\'.toNat :: acc) (s.flatMap f ++ '"' :: rest) := rfl
        rw [show ((['\\', '\\'] : List Char) ++ (s.flatMap f ++ '"' :: rest))
          = '\\' :: '\\' :: (s.flatMap f ++ '"' :: rest) from rfl, hstep,
          ih f _ rest htl]
        simp
      · subst hcn
        rw [hl]
        have hstep : readStringRaw acc
            ('\\' :: 'n' :: (s.flatMap f ++ '"' :: rest)) =
            readStringRaw ('\n'.toNat :: acc) (s.flatMap f ++ '"' :: rest) := rfl
        rw [show ((['\\', 'n'] : List Char) ++ (s.flatMap f ++ '"' :: rest))
          = '\\' :: 'n' :: (s.flatMap f ++ '"' :: rest) from rfl, hstep,
          ih f _ rest htl]
        simp
      · subst hcr
        rw [hl]
        have hstep : readStringRaw acc
            ('\\' :: 'r' :: (s.flatMap f ++ '"' :: rest)) =
            readStringRaw ('\r'.toNat :: acc) (s.flatMap f ++ '"' :: rest) := rfl
        rw [show ((['\\', 'r'] : List Char) ++ (s.flatMap f ++ '"' :: rest))
          = '\\' :: 'r' :: (s.flatMap f ++ '"' :: rest) from rfl, hstep,
          ih f _ rest htl]
        simp
      · subst hct
        rw [hl]
        have hstep : readStringRaw acc
            ('\\' :: 't' :: (s.flatMap f ++ '"' :: rest)) =
            readStringRaw ('\t'.toNat :: acc) (s.flatMap f ++ '"' :: rest) := rfl
        rw [show ((['\\', 't'] : List Char) ++ (s.flatMap f ++ '"' :: rest))
          = '\\' :: 't' :: (s.flatMap f ++ '"' :: rest) from rfl, hstep,
          ih f _ rest htl]
        simp
      · -- backslash-u escape
        rw [hl, readStringRaw_uEscape acc c.toNat (by omega), ih f _ rest htl]
        simp

theorem surrPairSt_map_toNat :
    ∀ s : List Char, surrPairSt none (s.map Char.toNat) = s := by
  intro s
  induction s with
  | nil => rfl
  | cons c s ih =>
      rw [List.map_cons, surrPairSt]
      have hv := c.valid
      rw [UInt32.isValidChar, Nat.isValidChar] at hv
      have hv2 : c.toNat < 0xD800 ∨ 0xE000 ≤ c.toNat ∧ c.toNat < 0x110000 := hv
      rw [if_neg (by omega), if_neg (by omega), ih, Char.ofNat_toNat]

/-- The scanner inverts any rendering of a string whose characters are
escaped compatibly (encCharOk): reading the rendered literal up to its
closing quote yields exactly the original string. -/
theorem readString_enc (k : String) (f : Char → List Char) (rest : List Char)
    (hf : ∀ c ∈ k.data, encCharOk c (f c)) :
    readString (k.data.flatMap f ++ '"' :: rest) = .ok (k, rest) := by
  rw [readString, readStringRaw_enc k.data f [] rest hf]
  simp only [List.reverse_nil, List.nil_append, surrPair]
  rw [surrPairSt_map_toNat]

theorem encCharOk_json (c : Char) : encCharOk c (jsonEscapeChar c) := by
  rw [encCharOk, jsonEscapeChar]
  by_cases h1 : c = '"'
  · rw [if_pos h1]
    exact Or.inr (Or.inl ⟨rfl, h1⟩)
  rw [if_neg h1]
  by_cases h2 : c = '\\'
  · rw [if_pos h2]
    exact Or.inr (Or.inr (Or.inl ⟨rfl, h2⟩))
  rw [if_neg h2]
  by_cases h3 : c = '\n'
  · rw [if_pos h3]
    exact Or.inr (Or.inr (Or.inr (Or.inl ⟨rfl, h3⟩)))
  rw [if_neg h3]
  by_cases h4 : c = '\r'
  · rw [if_pos h4]
    exact Or.inr (Or.inr (Or.inr (Or.inr (Or.inl ⟨rfl, h4⟩))))
  rw [if_neg h4]
  by_cases h5 : c = '\t'
  · rw [if_pos h5]
    exact Or.inr (Or.inr (Or.inr (Or.inr (Or.inr (Or.inl ⟨rfl, h5⟩)))))
  rw [if_neg h5]
  by_cases h6 : c.toNat < 0x20 ∨ c = '<' ∨ c = '>' ∨ c = '&'
  · rw [if_pos h6]
    refine Or.inr (Or.inr (Or.inr (Or.inr (Or.inr (Or.inr ⟨rfl, ?_⟩)))))
    rcases h6 with h | h | h | h
    · omega
    · subst h; decide
    · subst h; decide
    · subst h; decide
  rw [if_neg h6]
  by_cases h7 : c.toNat = 0x2028 ∨ c.toNat = 0x2029
  · rw [if_pos h7]
    exact Or.inr (Or.inr (Or.inr (Or.inr (Or.inr (Or.inr ⟨rfl, by omega⟩)))))
  rw [if_neg h7]
  push_neg at h6
  exact Or.inl ⟨rfl, by omega, h1, h2⟩

theorem encCharOk_go (c : Char) (h : safeKeyChar c = true) :
    encCharOk c (goQuoteChar c) := by
  rw [safeKeyChar, Bool.and_eq_true, decide_eq_true_eq, decide_eq_true_eq] at h
  rw [encCharOk, goQuoteChar]
  by_cases h1 : c = '"'
  · rw [if_pos h1]
    exact Or.inr (Or.inl ⟨rfl, h1⟩)
  rw [if_neg h1]
  by_cases h2 : c = '\\'
  · rw [if_pos h2]
    exact Or.inr (Or.inr (Or.inl ⟨rfl, h2⟩))
  rw [if_neg h2]
  rw [if_pos ⟨h.1, h.2⟩]
  exact Or.inl ⟨rfl, h.1, h1, h2⟩

theorem encCharOk_goHtml (c : Char) (h : safeKeyChar c = true) :
    encCharOk c ((goQuoteChar c).flatMap htmlEscChar) := by
  have hs := h
  rw [safeKeyChar, Bool.and_eq_true, decide_eq_true_eq, decide_eq_true_eq] at hs
  rw [goQuoteChar]
  by_cases h1 : c = '"'
  · rw [if_pos h1]
    subst h1
    rw [show (['\\', '"'] : List Char).flatMap htmlEscChar = ['\\', '"'] from rfl]
    exact Or.inr (Or.inl ⟨rfl, rfl⟩)
  rw [if_neg h1]
  by_cases h2 : c = '\\'
  · rw [if_pos h2]
    subst h2
    rw [show (['\\', '\\'] : List Char).flatMap htmlEscChar = ['\\', '\\'] from rfl]
    exact Or.inr (Or.inr (Or.inl ⟨rfl, rfl⟩))
  rw [if_neg h2]
  rw [if_pos ⟨hs.1, hs.2⟩]
  rw [show ([c] : List Char).flatMap htmlEscChar = htmlEscChar c from by
    simp [List.flatMap_cons]]
  rw [htmlEscChar]
  by_cases h3 : c = '<' ∨ c = '>' ∨ c = '&' ∨ c.toNat = 0x2028 ∨ c.toNat = 0x2029
  · rw [if_pos h3]
    refine Or.inr (Or.inr (Or.inr (Or.inr (Or.inr (Or.inr ⟨rfl, ?_⟩)))))
    omega
  · rw [if_neg h3]
    exact Or.inl ⟨rfl, hs.1, h1, h2⟩

/-! ### Number literal extension -/

theorem litEndOk_head (ext : List Char) (he : litEndOk ext = true) :
    ∀ c, ext.head? = some c →
      isDigit c = false ∧ c ≠ '.' ∧ c ≠ 'e' ∧ c ≠ 'E' ∧ c ≠ '+' ∧ c ≠ '-' ∧
      c ≠ '"' := by
  intro c hc
  cases ext with
  | nil => cases hc
  | cons c0 tl =>
      cases hc
      rw [litEndOk] at he
      simp only [isWs, Bool.or_eq_true, beq_iff_eq] at he
      rcases he with ((((((h | h) | h) | h) | h) | h) | h) <;> subst h <;> decide

theorem takeDigits_ext (l ext : List Char)
    (hnd : ∀ c, ext.head? = some c → isDigit c = false) :
    takeDigits (l ++ ext) = ((takeDigits l).1, (takeDigits l).2 ++ ext) := by
  induction l with
  | nil =>
      cases ext with
      | nil => rfl
      | cons c tl =>
          rw [List.nil_append, takeDigits, takeDigits,
            if_neg (by simp [hnd c rfl])]
          simp
  | cons c l ih =>
      rw [List.cons_append, takeDigits, takeDigits]
      by_cases hd : isDigit c
      · rw [if_pos hd, if_pos hd, ih]
      · rw [if_neg hd, if_neg hd]
        rfl

theorem minusStep_ext (l ext : List Char) (h : l ≠ []) :
    minusStep (l ++ ext) = ((minusStep l).1, (minusStep l).2 ++ ext) := by
  cases l with
  | nil => exact absurd rfl h
  | cons c tl =>
      by_cases hm : c = '-'
      · subst hm
        rfl
      · rw [List.cons_append, minusStep.eq_def]
        split
        · rename_i r heq
          cases heq
          exact absurd rfl hm
        · rw [minusStep.eq_def]
          split
          · rename_i r heq
            cases heq
            exact absurd rfl hm
          · rfl

theorem signStep_ext (l ext : List Char) (h : l ≠ []) :
    signStep (l ++ ext) = ((signStep l).1, (signStep l).2 ++ ext) := by
  cases l with
  | nil => exact absurd rfl h
  | cons c tl =>
      by_cases hp : c = '+'
      · subst hp
        rfl
      · by_cases hm : c = '-'
        · subst hm
          rfl
        · rw [List.cons_append, signStep.eq_def]
          split
          · rename_i r heq
            cases heq
            exact absurd rfl hp
          · rename_i r heq
            cases heq
            exact absurd rfl hm
          · rw [signStep.eq_def]
            split
            · rename_i r heq
              cases heq
              exact absurd rfl hp
            · rename_i r heq
              cases heq
              exact absurd rfl hm
            · rfl

theorem fracStep_ext (r ext : List Char) (fp rr : List Char)
    (h : fracStep r = .ok (fp, rr)) (he : litEndOk ext = true) :
    fracStep (r ++ ext) = .ok (fp, rr ++ ext) := by
  have hnd : ∀ c, ext.head? = some c → isDigit c = false :=
    fun c hc => (litEndOk_head ext he c hc).1
  cases r with
  | nil =>
      cases h
      rw [List.nil_append, fracStep.eq_def]
      cases ext with
      | nil => rfl
      | cons c tl =>
          split
          · rename_i r heq
            cases heq
            exact absurd rfl (litEndOk_head _ he '.' rfl).2.1
          · rfl
  | cons c tl =>
      by_cases hc : c = '.'
      · subst hc
        rw [fracStep] at h
        rw [List.cons_append, fracStep]
        rw [takeDigits_ext tl ext hnd]
        split at h
        · cases h
        · rename_i hne
          cases h
          rw [if_neg (by simpa using hne)]
      · rw [fracStep.eq_def] at h
        split at h
        · rename_i r heq
          cases heq
          exact absurd rfl hc
        · cases h
          rw [List.cons_append, fracStep.eq_def]
          split
          · rename_i r heq
            cases heq
            exact absurd rfl hc
          · rfl

theorem expoStep_ext (r ext : List Char) (ep rr : List Char)
    (h : expoStep r = .ok (ep, rr)) (he : litEndOk ext = true) :
    expoStep (r ++ ext) = .ok (ep, rr ++ ext) := by
  have hnd : ∀ c, ext.head? = some c → isDigit c = false :=
    fun c hc => (litEndOk_head ext he c hc).1
  cases r with
  | nil =>
      cases h
      rw [List.nil_append, expoStep.eq_def]
      cases ext with
      | nil => rfl
      | cons c tl =>
          split
          · rename_i r heq
            cases heq
            exact absurd rfl (litEndOk_head _ he 'e' rfl).2.2.1
          · rename_i r heq
            cases heq
            exact absurd rfl (litEndOk_head _ he 'E' rfl).2.2.2.1
          · rfl
  | cons c tl =>
      by_cases hce : c = 'e'
      · subst hce
        rw [expoStep] at h
        rw [List.cons_append, expoStep]
        cases htl : tl with
        | nil =>
            rw [htl] at h
            simp only [signStep, takeDigits] at h
            split at h
            · cases h
            · simp at *
        | cons c2 tl2 =>
            rw [htl] at h
            have htln : (c2 :: tl2 : List Char) ≠ [] := by simp
            rw [signStep_ext (c2 :: tl2) ext htln]
            simp only [] at h ⊢
            rw [takeDigits_ext (signStep (c2 :: tl2)).2 ext hnd]
            split at h
            · cases h
            · rename_i hne
              cases h
              rw [if_neg (by simpa using hne)]
              simp
      · by_cases hcE : c = 'E'
        · subst hcE
          rw [expoStep] at h
          rw [List.cons_append, expoStep]
          cases htl : tl with
          | nil =>
              rw [htl] at h
              simp only [signStep, takeDigits] at h
              split at h
              · cases h
              · simp at *
          | cons c2 tl2 =>
              rw [htl] at h
              have htln : (c2 :: tl2 : List Char) ≠ [] := by simp
              rw [signStep_ext (c2 :: tl2) ext htln]
              simp only [] at h ⊢
              rw [takeDigits_ext (signStep (c2 :: tl2)).2 ext hnd]
              split at h
              · cases h
              · rename_i hne
                cases h
                rw [if_neg (by simpa using hne)]
                simp
        · rw [expoStep.eq_def] at h
          split at h
          · rename_i r heq
            cases heq
            exact absurd rfl hce
          · rename_i r heq
            cases heq
            exact absurd rfl hcE
          · cases h
            rw [List.cons_append, expoStep.eq_def]
            split
            · rename_i r heq
              cases heq
              exact absurd rfl hce
            · rename_i r heq
              cases heq
              exact absurd rfl hcE
            · rfl

theorem numTail_extend (ip rest0 : List Char) (t : String) (ext : List Char)
    (h : readNumber.numTail ip rest0 = .ok (t, []))
    (he : litEndOk ext = true) :
    readNumber.numTail ip (rest0 ++ ext) = .ok (t, ext) := by
  rw [numTail_eq_phases] at h ⊢
  cases hf : fracStep rest0 with
  | error e0 => rw [hf] at h; cases h
  | ok p =>
      obtain ⟨fp, r2⟩ := p
      rw [hf] at h
      simp only [] at h
      cases hex : expoStep r2 with
      | error e0 => rw [hex] at h; cases h
      | ok q =>
          obtain ⟨ep, r3⟩ := q
          rw [hex] at h
          simp only [] at h
          split at h
          · cases h
            rw [fracStep_ext rest0 ext fp r2 hf he]
            simp only []
            rw [expoStep_ext r2 ext ep [] hex he]
            simp only [List.nil_append]
            rw [if_pos he]
          · cases h

theorem readNumber_extend (s : String) (ext : List Char)
    (hv : readNumber s.data = .ok (s, [])) (he : litEndOk ext = true) :
    readNumber (s.data ++ ext) = .ok (s, ext) := by
  rw [readNumber_eq_phases] at hv ⊢
  cases hm : (minusStep s.data).2 with
  | nil => rw [hm] at hv; cases hv
  | cons c r1 =>
      have hne : s.data ≠ [] := by
        intro h0
        rw [h0] at hm
        cases hm
      rw [hm] at hv
      simp only [] at hv
      rw [minusStep_ext s.data ext hne]
      simp only []
      rw [hm]
      try simp only [List.cons_append]
      try simp only []
      by_cases h0 : c = '0'
      · rw [if_pos h0] at hv ⊢
        exact numTail_extend _ _ _ ext hv he
      · rw [if_neg h0] at hv ⊢
        by_cases hd : isDigit c
        · rw [if_pos hd] at hv ⊢
          try simp only [] at hv ⊢
          rw [takeDigits_ext r1 ext
            (fun c0 hc0 => (litEndOk_head ext he c0 hc0).1)]
          try simp only []
          exact numTail_extend _ _ _ ext hv he
        · rw [if_neg hd] at hv
          cases hv

/-! ### HTML-escape invariance of encoder output -/

theorem String_data_mk (l : List Char) : (⟨l⟩ : String).data = l := rfl

theorem htmlEsc_append (a b : String) : htmlEsc (a ++ b) = htmlEsc a ++ htmlEsc b := by
  obtain ⟨x⟩ := a
  obtain ⟨y⟩ := b
  show htmlEsc ⟨x ++ y⟩ = _
  rw [htmlEsc, htmlEsc, htmlEsc]
  show (⟨(x ++ y).flatMap htmlEscChar⟩ : String) = ⟨x.flatMap htmlEscChar ++ y.flatMap htmlEscChar⟩
  rw [List.flatMap_append]

theorem htmlEscChar_of_safe (c : Char)
    (h : ¬(c = '<' ∨ c = '>' ∨ c = '&' ∨ c.toNat = 0x2028 ∨ c.toNat = 0x2029)) :
    htmlEscChar c = [c] := by
  rw [htmlEscChar, if_neg h]

theorem htmlEsc_of_safe (l : List Char) (h : ∀ c ∈ l, htmlEscChar c = [c]) :
    htmlEsc ⟨l⟩ = ⟨l⟩ := by
  rw [htmlEsc]
  show (⟨l.flatMap htmlEscChar⟩ : String) = ⟨l⟩
  congr 1
  induction l with
  | nil => rfl
  | cons c tl ih =>
      rw [List.flatMap_cons, h c (by simp), ih (fun x hx => h x (by simp [hx]))]
      rfl

theorem htmlEscChar_toHexDigitL (n : Nat) (h : n < 16) :
    htmlEscChar (toHexDigitL n) = [toHexDigitL n] := by
  interval_cases n <;> rfl

theorem htmlEscChar_uEscape_chars (n : Nat) (c : Char) (h : c ∈ uEscape n) :
    htmlEscChar c = [c] := by
  rw [uEscape] at h
  simp only [List.mem_cons, List.not_mem_nil, or_false] at h
  rcases h with h | h | h | h | h | h <;> subst h
  · rfl
  · rfl
  · exact htmlEscChar_toHexDigitL _ (Nat.mod_lt _ (by omega))
  · exact htmlEscChar_toHexDigitL _ (Nat.mod_lt _ (by omega))
  · exact htmlEscChar_toHexDigitL _ (Nat.mod_lt _ (by omega))
  · exact htmlEscChar_toHexDigitL _ (Nat.mod_lt _ (by omega))

theorem htmlEscChar_chars_safe (c x : Char) (h : x ∈ htmlEscChar c) :
    htmlEscChar x = [x] := by
  rw [htmlEscChar] at h
  split at h
  · exact htmlEscChar_uEscape_chars _ _ h
  · rename_i hno
    simp only [List.mem_cons, List.not_mem_nil, or_false] at h
    subst h
    exact htmlEscChar_of_safe x hno

theorem htmlEsc_idem (s : String) : htmlEsc (htmlEsc s) = htmlEsc s := by
  obtain ⟨l⟩ := s
  rw [htmlEsc]
  apply htmlEsc_of_safe
  intro c hc
  rw [List.mem_flatMap] at hc
  obtain ⟨c0, _, hc0⟩ := hc
  exact htmlEscChar_chars_safe c0 c hc0

theorem jsonEscapeChar_chars_safe (c x : Char) (h : x ∈ jsonEscapeChar c) :
    htmlEscChar x = [x] := by
  rw [jsonEscapeChar] at h
  split at h
  · simp only [List.mem_cons, List.not_mem_nil, or_false] at h
    rcases h with h | h <;> subst h <;> rfl
  split at h
  · simp only [List.mem_cons, List.not_mem_nil, or_false] at h
    rcases h with h | h <;> subst h <;> rfl
  split at h
  · simp only [List.mem_cons, List.not_mem_nil, or_false] at h
    rcases h with h | h <;> subst h <;> rfl
  split at h
  · simp only [List.mem_cons, List.not_mem_nil, or_false] at h
    rcases h with h | h <;> subst h <;> rfl
  split at h
  · simp only [List.mem_cons, List.not_mem_nil, or_false] at h
    rcases h with h | h <;> subst h <;> rfl
  split at h
  · exact htmlEscChar_uEscape_chars _ _ h
  split at h
  · exact htmlEscChar_uEscape_chars _ _ h
  · rename_i h1 h2 h3 h4 h5 h6 h7
    simp only [List.mem_cons, List.not_mem_nil, or_false] at h
    subst h
    apply htmlEscChar_of_safe
    intro hcon
    rcases hcon with hx | hx | hx | hx | hx
    · exact h6 (Or.inr (Or.inl hx))
    · exact h6 (Or.inr (Or.inr (Or.inl hx)))
    · exact h6 (Or.inr (Or.inr (Or.inr hx)))
    · exact h7 (Or.inl hx)
    · exact h7 (Or.inr hx)

theorem htmlEsc_jsonQuote (s : String) : htmlEsc (jsonQuote s) = jsonQuote s := by
  rw [jsonQuote]
  apply htmlEsc_of_safe
  intro c hc
  simp only [List.mem_cons, List.mem_append, List.mem_flatMap,
    List.not_mem_nil, or_false] at hc
  rcases hc with h | ⟨c0, _, hc0⟩ | h
  · subst h; rfl
  · exact jsonEscapeChar_chars_safe c0 c hc0
  · subst h; rfl

theorem isDigit_toNat (c : Char) (h : isDigit c = true) :
    48 ≤ c.toNat ∧ c.toNat ≤ 57 := by
  rw [isDigit, Bool.and_eq_true, decide_eq_true_eq, decide_eq_true_eq] at h
  obtain ⟨h1, h2⟩ := h
  simp [Char.le_def] at h1 h2
  exact ⟨h1, h2⟩

theorem numChar_of_digit (c : Char) (h : isDigit c = true) : numChar c = true := by
  rw [numChar, h]
  rfl

theorem numChar_html_safe (c : Char) (h : numChar c = true) :
    htmlEscChar c = [c] := by
  rw [numChar] at h
  simp only [Bool.or_eq_true, beq_iff_eq] at h
  rcases h with ((((hd | h) | h) | h) | h) | h
  · obtain ⟨h1, h2⟩ := isDigit_toNat c hd
    apply htmlEscChar_of_safe
    rintro (hx | hx | hx | hx | hx)
    · subst hx; exact absurd hd (by decide)
    · subst hx; exact absurd hd (by decide)
    · subst hx; exact absurd hd (by decide)
    · omega
    · omega
  all_goals (subst h; rfl)

theorem takeDigits_chars : ∀ (l : List Char) (c : Char),
    c ∈ (takeDigits l).1 → isDigit c = true := by
  intro l
  induction l with
  | nil => intro c hc; cases hc
  | cons c0 tl ih =>
      intro c hc
      rw [takeDigits] at hc
      by_cases hd : isDigit c0
      · rw [if_pos hd] at hc
        simp only [List.mem_cons] at hc
        rcases hc with h | h
        · subst h; exact hd
        · exact ih c h
      · rw [if_neg hd] at hc
        cases hc

theorem fracStep_chars (r fp rr : List Char) (h : fracStep r = .ok (fp, rr)) :
    ∀ c ∈ fp, numChar c = true := by
  intro c hc
  cases r with
  | nil =>
      cases h
      cases hc
  | cons c0 tl =>
      by_cases h0 : c0 = '.'
      · subst h0
        rw [fracStep] at h
        split at h
        · cases h
        · cases h
          simp only [List.mem_cons] at hc
          rcases hc with h | h
          · subst h; rfl
          · exact numChar_of_digit c (takeDigits_chars tl c h)
      · rw [fracStep.eq_def] at h
        split at h
        · rename_i r0 heq
          cases heq
          exact absurd rfl h0
        · cases h
          cases hc

theorem signStep_chars (r : List Char) (c : Char) (h : c ∈ (signStep r).1) :
    numChar c = true := by
  cases r with
  | nil => cases h
  | cons c0 tl =>
      by_cases hp : c0 = '+'
      · subst hp
        simp only [signStep, List.mem_cons, List.not_mem_nil, or_false] at h
        subst h
        rfl
      · by_cases hm : c0 = '-'
        · subst hm
          simp only [signStep, List.mem_cons, List.not_mem_nil, or_false] at h
          subst h
          rfl
        · rw [signStep.eq_def] at h
          split at h
          · rename_i r0 heq
            cases heq
            exact absurd rfl hp
          · rename_i r0 heq
            cases heq
            exact absurd rfl hm
          · cases h

theorem expoStep_chars (r ep rr : List Char) (h : expoStep r = .ok (ep, rr)) :
    ∀ c ∈ ep, numChar c = true := by
  intro c hc
  cases r with
  | nil =>
      cases h
      cases hc
  | cons c0 tl =>
      by_cases hce : c0 = 'e'
      · subst hce
        rw [expoStep] at h
        try simp only [] at h
        split at h
        · exact absurd h (by simp)
        · rw [Except.ok.injEq, Prod.mk.injEq] at h
          obtain ⟨hep, hrr⟩ := h
          subst hep
          simp only [List.head?_cons, Option.toList_some, List.singleton_append,
            List.cons_append, List.mem_cons, List.mem_append] at hc
          rcases hc with h | (h0 | h) | h
          · subst h; rfl
          · cases h0
          · exact signStep_chars tl c h
          · exact numChar_of_digit c (takeDigits_chars _ c h)
      · by_cases hcE : c0 = 'E'
        · subst hcE
          rw [expoStep] at h
          try simp only [] at h
          split at h
          · exact absurd h (by simp)
          · rw [Except.ok.injEq, Prod.mk.injEq] at h
            obtain ⟨hep, hrr⟩ := h
            subst hep
            simp only [List.head?_cons, Option.toList_some, List.singleton_append,
              List.cons_append, List.mem_cons, List.mem_append] at hc
            rcases hc with h | (h0 | h) | h
            · subst h; rfl
            · cases h0
            · exact signStep_chars tl c h
            · exact numChar_of_digit c (takeDigits_chars _ c h)
        · rw [expoStep.eq_def] at h
          split at h
          · rename_i r0 heq
            cases heq
            exact absurd rfl hce
          · rename_i r0 heq
            cases heq
            exact absurd rfl hcE
          · cases h
            cases hc

theorem readNumber_chars (cs : List Char) (t : String) (rest : List Char)
    (h : readNumber cs = .ok (t, rest)) : ∀ c ∈ t.data, numChar c = true := by
  have hnum : ∀ (ip rest0 : List Char),
      (∀ c ∈ ip, numChar c = true) →
      readNumber.numTail ip rest0 = .ok (t, rest) →
      ∀ c ∈ t.data, numChar c = true := by
    intro ip rest0 hip hh c hc
    rw [numTail_eq_phases] at hh
    cases hf : fracStep rest0 with
    | error e0 => rw [hf] at hh; cases hh
    | ok p =>
        obtain ⟨fp, r2⟩ := p
        rw [hf] at hh
        simp only [] at hh
        cases hex : expoStep r2 with
        | error e0 => rw [hex] at hh; cases hh
        | ok q =>
            obtain ⟨ep, r3⟩ := q
            rw [hex] at hh
            simp only [] at hh
            split at hh
            · cases hh
              simp only [String_data_mk, List.mem_append] at hc
              rcases hc with (h | h) | h
              · exact hip c h
              · exact fracStep_chars _ _ _ hf c h
              · exact expoStep_chars _ _ _ hex c h
            · cases hh
  rw [readNumber_eq_phases] at h
  have hmnum : ∀ c ∈ (minusStep cs).1, numChar c = true := by
    intro c hc
    cases cs with
    | nil => cases hc
    | cons c0 tl =>
        by_cases hm : c0 = '-'
        · subst hm
          simp only [minusStep, List.mem_cons, List.not_mem_nil, or_false] at hc
          subst hc
          rfl
        · rw [minusStep.eq_def] at hc
          split at hc
          · rename_i r0 heq
            cases heq
            exact absurd rfl hm
          · cases hc
  cases hm : (minusStep cs).2 with
  | nil => rw [hm] at h; cases h
  | cons c r1 =>
      rw [hm] at h
      simp only [] at h
      by_cases h0 : c = '0'
      · rw [if_pos h0] at h
        refine hnum _ _ ?_ h
        intro x hx
        simp only [List.mem_append, List.mem_cons, List.not_mem_nil,
          or_false] at hx
        rcases hx with hx | hx
        · exact hmnum x hx
        · subst hx; rfl
      · rw [if_neg h0] at h
        by_cases hd : isDigit c
        · rw [if_pos hd] at h
          try simp only [] at h
          refine hnum _ _ ?_ h
          intro x hx
          simp only [List.mem_append, List.mem_cons] at hx
          rcases hx with hx | hx | hx
          · exact hmnum x hx
          · subst hx; exact numChar_of_digit _ hd
          · exact numChar_of_digit x (takeDigits_chars r1 x hx)
        · rw [if_neg hd] at h
          cases h

theorem htmlEsc_string_of_safe (s : String) (h : ∀ c ∈ s.data, htmlEscChar c = [c]) :
    htmlEsc s = s := by
  obtain ⟨l⟩ := s
  exact htmlEsc_of_safe l h

theorem marshal_htmlEsc_inv_aux : ∀ (n : Nat) (v : Value) (s : String),
    sizeOf v < n → marshalValue v = .ok s → htmlEsc s = s := by
  intro n
  induction n with
  | zero => intro v s h _; exact absurd h (Nat.not_lt_zero _)
  | succ n ih =>
      intro v s hsz h
      cases v with
      | vnull =>
          rw [marshalValue.eq_def] at h
          simp only [] at h
          cases h
          rfl
      | vbool b =>
          rw [marshalValue.eq_def] at h
          simp only [] at h
          cases h
          cases b <;> rfl
      | vnum a =>
          rw [marshalValue.eq_def] at h
          simp only [] at h
          split at h
          · cases h
            rename_i hval
            apply htmlEsc_string_of_safe
            intro c hc
            exact numChar_html_safe c
              (readNumber_chars s.data s [] (isValidNumber_scan s hval) c hc)
          · cases h
      | vstr a =>
          rw [marshalValue.eq_def] at h
          simp only [] at h
          cases h
          exact htmlEsc_jsonQuote a
      | varr vs =>
          rw [marshalValue.eq_def] at h
          simp only [] at h
          simp only [Value.varr.sizeOf_spec] at hsz
          have harr : ∀ (as : List Value) (body : String), sizeOf as < n →
              marshalList as = .ok body → htmlEsc body = body := by
            intro as
            induction as with
            | nil =>
                intro body _ hb
                rw [marshalList] at hb
                cases hb
                rfl
            | cons a as0 ihl =>
                intro body hs hb
                have h1 : sizeOf a < n := by
                  simp only [List.cons.sizeOf_spec] at hs
                  omega
                have h2 : sizeOf as0 < n := by
                  simp only [List.cons.sizeOf_spec] at hs
                  omega
                cases as0 with
                | nil =>
                    rw [marshalList] at hb
                    exact ih a body h1 hb
                | cons a2 rest2 =>
                    rw [marshalList] at hb
                    cases hma : marshalValue a with
                    | error er =>
                        rw [hma] at hb
                        exact absurd hb (by simp)
                    | ok ba =>
                        rw [hma] at hb
                        cases hml : marshalList (a2 :: rest2) with
                        | error er =>
                            rw [hml] at hb
                            exact absurd hb (by simp)
                        | ok btl =>
                            rw [hml] at hb
                            simp only [] at hb
                            cases hb
                            rw [htmlEsc_append, htmlEsc_append,
                              ih a ba h1 hma, ihl btl h2 hml]
                            rfl
                    simp
          cases hml : marshalList vs with
          | error er => rw [hml] at h; cases h
          | ok body =>
              rw [hml] at h
              simp only [] at h
              cases h
              rw [htmlEsc_append, htmlEsc_append, harr vs body (by omega) hml]
              rfl
      | vmap om =>
          rw [marshalValue.eq_def] at h
          simp only [] at h
          cases hmm : Map.MarshalJSON om with
          | error er => rw [hmm] at h; cases h
          | ok s0 =>
              rw [hmm] at h
              simp only [] at h
              cases h
              exact htmlEsc_idem s0

theorem marshal_htmlEsc_inv (v : Value) (s : String) (h : marshalValue v = .ok s) :
    htmlEsc s = s :=
  marshal_htmlEsc_inv_aux (sizeOf v + 1) v s (Nat.lt_succ_self _) h

theorem marshalEntries_eq_emitF : ∀ (l : List (Nat × String)) (m : List (String × Value)),
    marshalEntries l m = emitEntriesF goQuoteChar l m := by
  intro l
  induction l with
  | nil => intro m; rw [marshalEntries, emitEntriesF]
  | cons e rest ih =>
      intro m
      cases rest with
      | nil =>
          rw [marshalEntries, emitEntriesF]
          rfl
      | cons e2 rest2 =>
          have hexp : emitEntriesF goQuoteChar (e :: e2 :: rest2) m =
              (match marshalValue (mGet m e.2),
                  emitEntriesF goQuoteChar (e2 :: rest2) m with
               | .ok b, .ok tl =>
                   .ok (⟨'"' :: (e.2.data.flatMap goQuoteChar ++ ['"'])⟩ ++
                     ":" ++ b ++ "," ++ tl)
               | .error er, _ => .error er
               | _, .error er => .error er) := rfl
          rw [marshalEntries, ih m, hexp]
          all_goals first | rfl | simp

theorem htmlEsc_keypart (k : String) (f : Char → List Char) :
    htmlEsc ⟨'"' :: (k.data.flatMap f ++ ['"'])⟩ =
      ⟨'"' :: (k.data.flatMap (fun c => (f c).flatMap htmlEscChar) ++ ['"'])⟩ := by
  rw [htmlEsc]
  show (⟨('"' :: (k.data.flatMap f ++ ['"'])).flatMap htmlEscChar⟩ : String) = _
  congr 1
  rw [List.flatMap_cons, List.flatMap_append]
  rw [show htmlEscChar '"' = ['"'] from rfl]
  rw [List.flatMap_assoc]
  rfl

theorem emitEntriesF_htmlEsc : ∀ (l : List (Nat × String)) (m : List (String × Value))
    (body : String), emitEntriesF goQuoteChar l m = .ok body →
    emitEntriesF (fun c => (goQuoteChar c).flatMap htmlEscChar) l m =
      .ok (htmlEsc body) := by
  intro l
  induction l with
  | nil =>
      intro m body h
      rw [emitEntriesF] at h
      cases h
      rw [emitEntriesF]
      rfl
  | cons e rest ih =>
      intro m body h
      cases rest with
      | nil =>
          rw [emitEntriesF] at h ⊢
          cases hb : marshalValue (mGet m e.2) with
          | error er => rw [hb] at h; cases h
          | ok b =>
              rw [hb] at h
              simp only [] at h
              cases h
              simp only []
              rw [htmlEsc_append, htmlEsc_append, htmlEsc_keypart,
                marshal_htmlEsc_inv _ _ hb]
              rfl
      | cons e2 rest2 =>
          have hexp : emitEntriesF goQuoteChar (e :: e2 :: rest2) m =
              (match marshalValue (mGet m e.2),
                  emitEntriesF goQuoteChar (e2 :: rest2) m with
               | .ok b, .ok tl =>
                   .ok (⟨'"' :: (e.2.data.flatMap goQuoteChar ++ ['"'])⟩ ++
                     ":" ++ b ++ "," ++ tl)
               | .error er, _ => .error er
               | _, .error er => .error er) := rfl
          have hexp2 : emitEntriesF (fun c => (goQuoteChar c).flatMap htmlEscChar)
              (e :: e2 :: rest2) m =
              (match marshalValue (mGet m e.2),
                  emitEntriesF (fun c => (goQuoteChar c).flatMap htmlEscChar)
                    (e2 :: rest2) m with
               | .ok b, .ok tl =>
                   .ok (⟨'"' :: (e.2.data.flatMap
                       (fun c => (goQuoteChar c).flatMap htmlEscChar) ++ ['"'])⟩ ++
                     ":" ++ b ++ "," ++ tl)
               | .error er, _ => .error er
               | _, .error er => .error er) := rfl
          rw [hexp] at h
          rw [hexp2]
          cases hb : marshalValue (mGet m e.2) with
          | error er =>
              rw [hb] at h
              exact absurd h (by simp)
          | ok b =>
              rw [hb] at h
              cases htl : emitEntriesF goQuoteChar (e2 :: rest2) m with
              | error er =>
                  rw [htl] at h
                  exact absurd h (by simp)
              | ok tl =>
                  rw [htl] at h
                  simp only [] at h
                  cases h
                  rw [ih m tl htl]
                  simp only []
                  rw [htmlEsc_append, htmlEsc_append, htmlEsc_append,
                    htmlEsc_append, htmlEsc_keypart, marshal_htmlEsc_inv _ _ hb]
                  rfl

/-! ### Token steps on encoder output -/

theorem readNumber_head (cs : List Char) (t : String) (r : List Char)
    (h : readNumber cs = .ok (t, r)) :
    ∃ c cs0, cs = c :: cs0 ∧ (c = '-' ∨ isDigit c = true) := by
  cases cs with
  | nil => cases h
  | cons c tail =>
      refine ⟨c, tail, rfl, ?_⟩
      by_cases hm : c = '-'
      · exact Or.inl hm
      · right
        rw [readNumber_eq_phases] at h
        have hms : minusStep (c :: tail) = ([], c :: tail) := by
          rw [minusStep.eq_def]
          split
          · rename_i r0 heq
            cases heq
            exact absurd rfl hm
          · rfl
        rw [hms] at h
        simp only [] at h
        by_cases h0 : c = '0'
        · subst h0; rfl
        · rw [if_neg h0] at h
          by_cases hd : isDigit c
          · exact hd
          · rw [if_neg hd] at h
            cases h

theorem numStart_facts (c : Char) (h : c = '-' ∨ isDigit c = true) :
    isWs c = false ∧ c ≠ '"' := by
  rcases h with h | h
  · subst h; exact ⟨rfl, by decide⟩
  · obtain ⟨h1, h2⟩ := isDigit_toNat c h
    constructor
    · cases hiw : isWs c
      · rfl
      · rw [isWs] at hiw
        simp only [Bool.or_eq_true, beq_iff_eq] at hiw
        rcases hiw with ((hx | hx) | hx) | hx <;> subst hx <;>
          exact absurd h (by decide)
    · intro hx
      subst hx
      exact absurd h (by decide)

theorem tokenCore_null (g : Nat) (stk : List TokState) (st : TokState)
    (rest : List Char) (hva : valueAllowed st = true)
    (hrest : litEndOk rest = true) :
    tokenCore (g + 1) ⟨'n' :: 'u' :: 'l' :: 'l' :: rest, stk, st⟩ =
      .ok (.tnull, ⟨rest, stk, valueEnd st⟩) := by
  have hstep : tokenCore (g + 1) ⟨'n' :: 'u' :: 'l' :: 'l' :: rest, stk, st⟩ =
      if valueAllowed st = true then
        match readScalar ('n' :: 'u' :: 'l' :: 'l' :: rest) with
        | .ok (t, rest2) => .ok (t, ⟨rest2, stk, valueEnd st⟩)
        | .error e => .error e
      else .error (.msg "invalid character in token stream") := rfl
  rw [hstep, if_pos hva]
  have hrs : readScalar ('n' :: 'u' :: 'l' :: 'l' :: rest) =
      if litEndOk rest = true then .ok (.tnull, rest)
      else .error (.msg "invalid character after literal") := rfl
  rw [hrs, if_pos hrest]

theorem tokenCore_true (g : Nat) (stk : List TokState) (st : TokState)
    (rest : List Char) (hva : valueAllowed st = true)
    (hrest : litEndOk rest = true) :
    tokenCore (g + 1) ⟨'t' :: 'r' :: 'u' :: 'e' :: rest, stk, st⟩ =
      .ok (.tbool true, ⟨rest, stk, valueEnd st⟩) := by
  have hstep : tokenCore (g + 1) ⟨'t' :: 'r' :: 'u' :: 'e' :: rest, stk, st⟩ =
      if valueAllowed st = true then
        match readScalar ('t' :: 'r' :: 'u' :: 'e' :: rest) with
        | .ok (t, rest2) => .ok (t, ⟨rest2, stk, valueEnd st⟩)
        | .error e => .error e
      else .error (.msg "invalid character in token stream") := rfl
  rw [hstep, if_pos hva]
  have hrs : readScalar ('t' :: 'r' :: 'u' :: 'e' :: rest) =
      if litEndOk rest = true then .ok (.tbool true, rest)
      else .error (.msg "invalid character after literal") := rfl
  rw [hrs, if_pos hrest]

theorem tokenCore_false (g : Nat) (stk : List TokState) (st : TokState)
    (rest : List Char) (hva : valueAllowed st = true)
    (hrest : litEndOk rest = true) :
    tokenCore (g + 1) ⟨'f' :: 'a' :: 'l' :: 's' :: 'e' :: rest, stk, st⟩ =
      .ok (.tbool false, ⟨rest, stk, valueEnd st⟩) := by
  have hstep : tokenCore (g + 1) ⟨'f' :: 'a' :: 'l' :: 's' :: 'e' :: rest, stk, st⟩ =
      if valueAllowed st = true then
        match readScalar ('f' :: 'a' :: 'l' :: 's' :: 'e' :: rest) with
        | .ok (t, rest2) => .ok (t, ⟨rest2, stk, valueEnd st⟩)
        | .error e => .error e
      else .error (.msg "invalid character in token stream") := rfl
  rw [hstep, if_pos hva]
  have hrs : readScalar ('f' :: 'a' :: 'l' :: 's' :: 'e' :: rest) =
      if litEndOk rest = true then .ok (.tbool false, rest)
      else .error (.msg "invalid character after literal") := rfl
  rw [hrs, if_pos hrest]

theorem tokenCore_num (g : Nat) (stk : List TokState) (st : TokState)
    (a : String) (rest : List Char) (hva : valueAllowed st = true)
    (hv : isValidNumber a = true) (hrest : litEndOk rest = true) :
    tokenCore (g + 1) ⟨a.data ++ rest, stk, st⟩ =
      .ok (.tnum a, ⟨rest, stk, valueEnd st⟩) := by
  have hscan := isValidNumber_scan a hv
  obtain ⟨c, cs0, hcs, hclass⟩ := readNumber_head a.data a [] hscan
  obtain ⟨hws, hnq⟩ := numStart_facts c hclass
  have hrn : readNumber (a.data ++ rest) = .ok (a, rest) :=
    readNumber_extend a rest hscan hrest
  rw [hcs]
  rw [hcs, List.cons_append] at hrn
  rw [tokenCore]
  simp only []
  rw [List.cons_append, skipWs_cons_of_not c (cs0 ++ rest) hws]
  simp only []
  have hd9 : c.toNat = 45 ∨ (48 ≤ c.toNat ∧ c.toNat ≤ 57) := by
    rcases hclass with h | h
    · subst h; left; rfl
    · exact Or.inr (isDigit_toNat c h)
  rw [if_neg (by intro hx; subst hx; revert hd9; decide),
    if_neg (by intro hx; subst hx; revert hd9; decide),
    if_neg (by intro hx; subst hx; revert hd9; decide),
    if_neg (by intro hx; subst hx; revert hd9; decide),
    if_neg (by intro hx; subst hx; revert hd9; decide),
    if_neg (by intro hx; subst hx; revert hd9; decide),
    if_neg (fun hcon => hnq hcon.1), if_pos hva]
  rw [readScalar]
  rw [if_neg (by exact fun hx => hnq hx), if_pos (by
    rcases hclass with h | h
    · exact Or.inl h
    · exact Or.inr h)]
  rw [hrn]

theorem tokenCore_str_value (g : Nat) (stk : List TokState) (st : TokState)
    (k : String) (rest : List Char) (hva : valueAllowed st = true)
    (hns : ¬(st = .objStart ∨ st = .objKey)) :
    tokenCore (g + 1) ⟨'"' :: (k.data.flatMap jsonEscapeChar ++ '"' :: rest), stk, st⟩ =
      .ok (.tstr k, ⟨rest, stk, valueEnd st⟩) := by
  have hstep : tokenCore (g + 1)
      ⟨'"' :: (k.data.flatMap jsonEscapeChar ++ '"' :: rest), stk, st⟩ =
      if '"' = '"' ∧ (st = .objStart ∨ st = .objKey) then
        match readString (k.data.flatMap jsonEscapeChar ++ '"' :: rest) with
        | .ok (s, rest2) => .ok (.tstr s, ⟨rest2, stk, .objColon⟩)
        | .error e => .error e
      else if valueAllowed st = true then
        match readScalar ('"' :: (k.data.flatMap jsonEscapeChar ++ '"' :: rest)) with
        | .ok (t, rest2) => .ok (t, ⟨rest2, stk, valueEnd st⟩)
        | .error e => .error e
      else .error (.msg "invalid character in token stream") := rfl
  rw [hstep, if_neg (fun hcon => hns hcon.2), if_pos hva]
  have hrs : readScalar ('"' :: (k.data.flatMap jsonEscapeChar ++ '"' :: rest)) =
      match readString (k.data.flatMap jsonEscapeChar ++ '"' :: rest) with
      | .ok (s, rest2) => .ok (.tstr s, rest2)
      | .error e => .error e := rfl
  rw [hrs, readString_enc k jsonEscapeChar rest (fun c _ => encCharOk_json c)]

theorem tokenCore_key (g : Nat) (stk : List TokState) (st : TokState)
    (f : Char → List Char) (k : String) (rest : List Char)
    (hst : st = .objStart ∨ st = .objKey)
    (hfk : ∀ c ∈ k.data, encCharOk c (f c)) :
    tokenCore (g + 1) ⟨'"' :: (k.data.flatMap f ++ '"' :: rest), stk, st⟩ =
      .ok (.tstr k, ⟨rest, stk, .objColon⟩) := by
  have hstep : tokenCore (g + 1)
      ⟨'"' :: (k.data.flatMap f ++ '"' :: rest), stk, st⟩ =
      if '"' = '"' ∧ (st = .objStart ∨ st = .objKey) then
        match readString (k.data.flatMap f ++ '"' :: rest) with
        | .ok (s, rest2) => .ok (.tstr s, ⟨rest2, stk, .objColon⟩)
        | .error e => .error e
      else if valueAllowed st = true then
        match readScalar ('"' :: (k.data.flatMap f ++ '"' :: rest)) with
        | .ok (t, rest2) => .ok (t, ⟨rest2, stk, valueEnd st⟩)
        | .error e => .error e
      else .error (.msg "invalid character in token stream") := rfl
  rw [hstep, if_pos ⟨rfl, hst⟩, readString_enc k f rest hfk]

theorem tokenCore_open_obj (g : Nat) (stk : List TokState) (st : TokState)
    (tail : List Char) (hva : valueAllowed st = true) :
    tokenCore (g + 1) ⟨lbrace :: tail, stk, st⟩ =
      .ok (.tdelim lbrace, ⟨tail, st :: stk, .objStart⟩) := by
  have hstep : tokenCore (g + 1) ⟨lbrace :: tail, stk, st⟩ =
      if valueAllowed st = true then
        .ok (.tdelim lbrace, ⟨tail, st :: stk, .objStart⟩)
      else .error (.msg "invalid character in token stream") := rfl
  rw [hstep, if_pos hva]

theorem tokenCore_open_arr (g : Nat) (stk : List TokState) (st : TokState)
    (tail : List Char) (hva : valueAllowed st = true) :
    tokenCore (g + 1) ⟨'[' :: tail, stk, st⟩ =
      .ok (.tdelim '[', ⟨tail, st :: stk, .arrStart⟩) := by
  have hstep : tokenCore (g + 1) ⟨'[' :: tail, stk, st⟩ =
      if valueAllowed st = true then
        .ok (.tdelim '[', ⟨tail, st :: stk, .arrStart⟩)
      else .error (.msg "invalid character in token stream") := rfl
  rw [hstep, if_pos hva]

theorem tokenCore_colon (g : Nat) (stk : List TokState) (tail : List Char) :
    tokenCore (g + 1) ⟨':' :: tail, stk, .objColon⟩ =
      tokenCore g ⟨tail, stk, .objVal⟩ := rfl

theorem tokenCore_comma_arr (g : Nat) (stk : List TokState) (tail : List Char) :
    tokenCore (g + 1) ⟨',' :: tail, stk, .arrComma⟩ =
      tokenCore g ⟨tail, stk, .arrVal⟩ := rfl

theorem tokenCore_comma_obj (g : Nat) (stk : List TokState) (tail : List Char) :
    tokenCore (g + 1) ⟨',' :: tail, stk, .objComma⟩ =
      tokenCore g ⟨tail, stk, .objKey⟩ := rfl

theorem tokenCore_close_arr_start (g : Nat) (s : TokState) (stk : List TokState)
    (tail : List Char) :
    tokenCore (g + 1) ⟨']' :: tail, s :: stk, .arrStart⟩ =
      .ok (.tdelim ']', ⟨tail, stk, valueEnd s⟩) := rfl

theorem tokenCore_close_arr_comma (g : Nat) (s : TokState) (stk : List TokState)
    (tail : List Char) :
    tokenCore (g + 1) ⟨']' :: tail, s :: stk, .arrComma⟩ =
      .ok (.tdelim ']', ⟨tail, stk, valueEnd s⟩) := rfl

theorem tokenCore_close_obj_start (g : Nat) (s : TokState) (stk : List TokState)
    (tail : List Char) :
    tokenCore (g + 1) ⟨rbrace :: tail, s :: stk, .objStart⟩ =
      .ok (.tdelim rbrace, ⟨tail, stk, valueEnd s⟩) := rfl

theorem tokenCore_close_obj_comma (g : Nat) (s : TokState) (stk : List TokState)
    (tail : List Char) :
    tokenCore (g + 1) ⟨rbrace :: tail, s :: stk, .objComma⟩ =
      .ok (.tdelim rbrace, ⟨tail, stk, valueEnd s⟩) := rfl

theorem tokenCore_eof (g : Nat) (stk : List TokState) (st : TokState) :
    tokenCore (g + 1) ⟨[], stk, st⟩ = .error .eof := rfl

theorem More_cons (c : Char) (tail : List Char) (stk : List TokState)
    (st : TokState) (hws : isWs c = false) :
    Dec.More ⟨c :: tail, stk, st⟩ = !(c == ']' || c == rbrace) := by
  rw [Dec.More]
  simp only []
  rw [skipWs_cons_of_not c tail hws]

theorem More_nil (stk : List TokState) (st : TokState) :
    Dec.More ⟨[], stk, st⟩ = false := rfl

/-- The first character of any encoded (round-trip-safe) value: never
whitespace and never a closing delimiter, so Decoder.More sees a pending
element. -/
theorem marshal_head (v : Value) (s : String) (h : marshalValue v = .ok s) :
    ∃ c t, s.data = c :: t ∧ isWs c = false ∧ (c == ']' || c == rbrace) = false := by
  cases v with
  | vnull =>
      rw [marshalValue.eq_def] at h
      simp only [] at h
      cases h
      exact ⟨'n', _, rfl, rfl, rfl⟩
  | vbool b =>
      rw [marshalValue.eq_def] at h
      simp only [] at h
      cases h
      cases b
      · exact ⟨'f', _, rfl, rfl, rfl⟩
      · exact ⟨'t', _, rfl, rfl, rfl⟩
  | vnum a =>
      rw [marshalValue.eq_def] at h
      simp only [] at h
      split at h
      · cases h
        rename_i hval
        obtain ⟨c, cs0, hcs, hclass⟩ :=
          readNumber_head s.data s [] (isValidNumber_scan s hval)
        refine ⟨c, cs0, hcs, (numStart_facts c hclass).1, ?_⟩
        rcases hclass with hx | hx
        · subst hx; rfl
        · obtain ⟨h1, h2⟩ := isDigit_toNat c hx
          simp only [Bool.or_eq_false_iff, beq_eq_false_iff_ne]
          constructor
          · intro he; subst he; exact absurd hx (by decide)
          · intro he; subst he; exact absurd hx (by decide)
      · cases h
  | vstr a =>
      rw [marshalValue.eq_def] at h
      simp only [] at h
      cases h
      exact ⟨'"', _, rfl, rfl, rfl⟩
  | varr vs =>
      rw [marshalValue.eq_def] at h
      simp only [] at h
      cases hml : marshalList vs with
      | error er => rw [hml] at h; cases h
      | ok body =>
          rw [hml] at h
          simp only [] at h
          cases h
          exact ⟨'[', _, rfl, rfl, rfl⟩
  | vmap om =>
      rw [marshalValue.eq_def] at h
      simp only [] at h
      cases hmm : Map.MarshalJSON om with
      | error er => rw [hmm] at h; cases h
      | ok s0 =>
          rw [hmm] at h
          simp only [] at h
          cases h
          obtain ⟨m, l, ks, nid⟩ := om
          rw [Map.MarshalJSON] at hmm
          cases hme : marshalEntries l m with
          | error er => rw [hme] at hmm; cases hmm
          | ok body =>
              rw [hme] at hmm
              simp only [] at hmm
              cases hmm
              refine ⟨lbrace, (htmlEsc body).data ++ [rbrace], ?_, by decide,
                by decide⟩
              show (htmlEsc (⟨[lbrace]⟩ ++ body ++ ⟨[rbrace]⟩)).data = _
              rw [htmlEsc_append, htmlEsc_append,
                show htmlEsc ⟨[lbrace]⟩ = ⟨[lbrace]⟩ from rfl,
                show htmlEsc ⟨[rbrace]⟩ = ⟨[rbrace]⟩ from rfl,
                String.data_append, String.data_append]
              simp

/-! ### Round-trip assembly helpers -/

theorem rtSafeEntries_iff (m : List (String × Value)) :
    rtSafeEntries m = true ↔
      ∀ p ∈ m, p.1.data.all safeKeyChar = true ∧ rtSafeValue p.2 = true := by
  induction m with
  | nil =>
      rw [rtSafeEntries]
      simp
  | cons p rest ih =>
      obtain ⟨k, v⟩ := p
      rw [rtSafeEntries, Bool.and_eq_true, Bool.and_eq_true, ih]
      constructor
      · rintro ⟨⟨h1, h2⟩, h3⟩ q hq
        rcases List.mem_cons.mp hq with heq | htail
        · subst heq; exact ⟨h1, h2⟩
        · exact h3 q htail
      · intro h
        exact ⟨⟨(h (k, v) (by simp)).1, (h (k, v) (by simp)).2⟩,
          fun q hq => h q (List.mem_cons_of_mem _ hq)⟩

theorem wfEntries_of_forall (ps : List (String × Value))
    (h : ∀ p ∈ ps, wfValue p.2 = true) : wfEntries ps = true := by
  induction ps with
  | nil => exact wfEntries_nil
  | cons p rest ih =>
      obtain ⟨k, v⟩ := p
      rw [wfEntries, Bool.and_eq_true]
      exact ⟨h (k, v) (by simp), ih (fun q hq => h q (List.mem_cons_of_mem _ hq))⟩

theorem map_entry_facts (m : List (String × Value)) (l : List (Nat × String))
    (hm : m.map Prod.fst = l.map Prod.snd) (hnod : (l.map Prod.snd).Nodup)
    (hent : wfEntries m = true) (hsafe : rtSafeEntries m = true) :
    ∀ e ∈ l, e.2.data.all safeKeyChar = true ∧
      rtSafeValue (mGet m e.2) = true ∧ wfValue (mGet m e.2) = true := by
  intro e he
  have hk : e.2 ∈ m.map Prod.fst := hm ▸ List.mem_map.mpr ⟨e, he, rfl⟩
  obtain ⟨v, hv⟩ := mem_of_mem_map_fst m e.2 hk
  have hg : mGet m e.2 = v := mGet_of_mem_nodup m e.2 v (hm ▸ hnod) hv
  have := (rtSafeEntries_iff m).mp hsafe (e.2, v) hv
  refine ⟨this.1, ?_, ?_⟩
  · rw [hg]; exact this.2
  · exact wfValue_mGet m e.2 hent

theorem specSeqEq_of_forall₂ (vs2 vs : List Value)
    (h : List.Forall₂ (fun a b => specStructEq a b = true) vs2 vs) :
    specSeqEq vs2 vs = true := by
  induction h with
  | nil => rw [specSeqEq]
  | cons hab htl ih =>
      rw [specSeqEq, Bool.and_eq_true]
      exact ⟨hab, ih⟩

theorem wfList_of_forall (vs : List Value) (h : ∀ v ∈ vs, wfValue v = true) :
    wfList vs = true := by
  induction vs with
  | nil => exact wfList_nil
  | cons v rest ih =>
      rw [wfList, Bool.and_eq_true]
      exact ⟨h v (by simp), ih (fun x hx => h x (List.mem_cons_of_mem _ hx))⟩

theorem specStructEq_vmap_of_pairs (ps m : List (String × Value))
    (l : List (Nat × String)) (ks : List (String × Nat)) (nid : Nat)
    (hnod : (l.map Prod.snd).Nodup)
    (hf2 : List.Forall₂ (fun (p : String × Value) (e : Nat × String) =>
      p.1 = e.2 ∧ specStructEq p.2 (mGet m e.2) = true) ps l) :
    specStructEq (.vmap (setAll NewMap ps)) (.vmap (.mk m l ks nid)) = true := by
  have hkeys : ps.map Prod.fst = l.map Prod.snd := by
    clear hnod
    induction hf2 with
    | nil => rfl
    | cons hab htl ih => simp [hab.1, ih]
  have htp : (setAll NewMap ps).toPairs = ps := by
    have := toPairs_setAll_fresh NewMap ps (by rfl)
      (by rw [show NewMap.toKeys = [] from rfl, List.nil_append, hkeys]; exact hnod)
    simpa [show NewMap.toPairs = [] from rfl] using this
  cases hset : setAll NewMap ps with
  | mk m2 l2 ks2 n2 =>
      rw [specStructEq]
      rw [hset, Map.toPairs] at htp
      simp only [Map.l_mk, Map.m_mk] at htp
      rw [specEntriesEq_true_iff]
      have hf2b : List.Forall₂ (fun (p : String × Value) (e : Nat × String) =>
          p.1 = e.2 ∧ specStructEq p.2 (mGet m e.2) = true)
          (l2.map (fun e => (e.2, mGet m2 e.2))) l := htp ▸ hf2
      rw [List.forall₂_map_left_iff] at hf2b
      refine List.Forall₂.imp ?_ hf2b
      rintro e1 e ⟨hk, hs⟩
      simp only [] at hk hs
      refine ⟨hk, ?_⟩
      rw [← hk] at hs
      exact hs

theorem marshal_nonempty (v : Value) (s : String) (h : marshalValue v = .ok s) :
    1 ≤ s.data.length := by
  obtain ⟨c, t, hct, _, _⟩ := marshal_head v s h
  rw [hct]
  simp

theorem forall2_mem_left {α β : Type} {R : α → β → Prop} :
    ∀ {ps : List α} {l : List β}, List.Forall₂ R ps l →
      ∀ p ∈ ps, ∃ e ∈ l, R p e := by
  intro ps l h
  induction h with
  | nil => intro p hp; cases hp
  | cons hab htl ih =>
      intro p hp
      rcases List.mem_cons.mp hp with heq | htail
      · subst heq
        exact ⟨_, by simp, hab⟩
      · obtain ⟨e, he, hr⟩ := ih p htail
        exact ⟨e, List.mem_cons_of_mem _ he, hr⟩

theorem spec_refl_null : specStructEq .vnull .vnull = true := by rw [specStructEq]

theorem spec_refl_bool (b : Bool) : specStructEq (.vbool b) (.vbool b) = true := by
  rw [specStructEq]
  simp

theorem spec_refl_num (a : String) : specStructEq (.vnum a) (.vnum a) = true := by
  rw [specStructEq]
  simp

theorem spec_refl_str (a : String) : specStructEq (.vstr a) (.vstr a) = true := by
  rw [specStructEq]
  simp

theorem handledelim_null (f : Nat) (d : Dec) :
    handledelim (f + 1) .tnull d = .ok (.vnull, d) := by
  rw [handledelim]

theorem handledelim_bool (f : Nat) (b : Bool) (d : Dec) :
    handledelim (f + 1) (.tbool b) d = .ok (.vbool b, d) := by
  rw [handledelim]

theorem handledelim_num (f : Nat) (a : String) (d : Dec) :
    handledelim (f + 1) (.tnum a) d = .ok (.vnum a, d) := by
  rw [handledelim]

theorem handledelim_str (f : Nat) (a : String) (d : Dec) :
    handledelim (f + 1) (.tstr a) d = .ok (.vstr a, d) := by
  rw [handledelim]

theorem handledelim_obj (f : Nat) (d : Dec) :
    handledelim (f + 1) (.tdelim lbrace) d =
      match parseobject f NewMap d with
      | (om, .ok d1) => .ok (.vmap om, d1)
      | (_, .error e) => .error e := by
  rw [handledelim]
  simp only []
  simp

theorem handledelim_arr (f : Nat) (d : Dec) :
    handledelim (f + 1) (.tdelim '[') d =
      match parsearray f d with
      | .ok (arr, d1) => .ok (.varr arr, d1)
      | .error e => .error e := by
  rw [handledelim]
  simp only []
  rw [if_neg (by decide)]
  simp

theorem specSeqEq_nil_right (vs2 : List Value) (h : specSeqEq vs2 [] = true) :
    vs2 = [] := by
  cases vs2 with
  | nil => rfl
  | cons a as =>
      rw [specSeqEq.eq_def] at h
      simp only [] at h
      cases h

/-- The round-trip engine: with enough fuel, the decoder run on the encoder
output consumes exactly that output and rebuilds the encoded value (up to the
spec structural equality), for values, array element lists, and object member
lists (the latter with the per-character key escaper abstracted, covering both
the top-level Go-quoted keys and the HTML-re-escaped keys of nested maps). -/
theorem rt_main : ∀ (fuel : Nat),
    (∀ (v : Value) (s : String) (rest : List Char) (stk : List TokState)
        (st : TokState) (g : Nat),
      wfValue v = true → rtSafeValue v = true → marshalValue v = .ok s →
      valueAllowed st = true → ¬(st = .objStart ∨ st = .objKey) →
      litEndOk rest = true → 2 * s.data.length + 2 ≤ fuel →
      ∃ t d1 v2, tokenCore (g + 1) ⟨s.data ++ rest, stk, st⟩ = .ok (t, d1) ∧
        handledelim fuel t d1 = .ok (v2, ⟨rest, stk, valueEnd st⟩) ∧
        specStructEq v2 v = true ∧ wfValue v2 = true) ∧
    (∀ (vs : List Value) (body : String) (rest : List Char)
        (stk : List TokState) (st0 : TokState),
      wfList vs = true → rtSafeList vs = true → marshalList vs = .ok body →
      2 * body.data.length + 3 ≤ fuel →
      (∃ vs2, parsearray fuel ⟨body.data ++ ']' :: rest, st0 :: stk, .arrStart⟩ =
          .ok (vs2, ⟨rest, stk, valueEnd st0⟩) ∧
        specSeqEq vs2 vs = true ∧ wfList vs2 = true) ∧
      (∃ vs2, parsearray fuel
          ⟨(match vs with
            | [] => ([] : List Char)
            | _ :: _ => ',' :: body.data) ++ ']' :: rest, st0 :: stk, .arrComma⟩ =
          .ok (vs2, ⟨rest, stk, valueEnd st0⟩) ∧
        specSeqEq vs2 vs = true ∧ wfList vs2 = true)) ∧
    (∀ (f : Char → List Char) (lsuf : List (Nat × String))
        (m : List (String × Value)) (om : Map) (body : String)
        (rest : List Char) (stk : List TokState) (st0 : TokState),
      (∀ c, safeKeyChar c = true → encCharOk c (f c)) →
      (∀ e ∈ lsuf, e.2.data.all safeKeyChar = true ∧
        rtSafeValue (mGet m e.2) = true ∧ wfValue (mGet m e.2) = true) →
      emitEntriesF f lsuf m = .ok body →
      2 * body.data.length + 3 ≤ fuel →
      (∃ ps, parseobject fuel om
          ⟨body.data ++ rbrace :: rest, st0 :: stk, .objStart⟩ =
          (setAll om ps, .ok ⟨rest, stk, valueEnd st0⟩) ∧
        List.Forall₂ (fun (p : String × Value) (e : Nat × String) =>
          p.1 = e.2 ∧ specStructEq p.2 (mGet m e.2) = true ∧ wfValue p.2 = true)
          ps lsuf) ∧
      (∃ ps, parseobject fuel om
          ⟨(match lsuf with
            | [] => ([] : List Char)
            | _ :: _ => ',' :: body.data) ++ rbrace :: rest, st0 :: stk, .objComma⟩ =
          (setAll om ps, .ok ⟨rest, stk, valueEnd st0⟩) ∧
        List.Forall₂ (fun (p : String × Value) (e : Nat × String) =>
          p.1 = e.2 ∧ specStructEq p.2 (mGet m e.2) = true ∧ wfValue p.2 = true)
          ps lsuf)) := by
  intro fuel
  induction fuel using Nat.strong_induction_on with
  | _ fuel ih =>
  refine ⟨?_, ?_, ?_⟩
  · -- values
    intro v s rest stk st g hwf hsafe hm hva hns hrest hfuel
    obtain ⟨f, rfl⟩ : ∃ f, fuel = f + 1 := ⟨fuel - 1, by omega⟩
    cases v with
    | vnull =>
        rw [marshalValue.eq_def] at hm
        simp only [] at hm
        cases hm
        exact ⟨.tnull, ⟨rest, stk, valueEnd st⟩, .vnull,
          tokenCore_null g stk st rest hva hrest,
          handledelim_null f _, spec_refl_null, wfValue_vnull⟩
    | vbool b =>
        rw [marshalValue.eq_def] at hm
        simp only [] at hm
        cases hm
        cases b
        · exact ⟨.tbool false, ⟨rest, stk, valueEnd st⟩, .vbool false,
            tokenCore_false g stk st rest hva hrest,
            handledelim_bool f false _, spec_refl_bool false, wfValue_vbool false⟩
        · exact ⟨.tbool true, ⟨rest, stk, valueEnd st⟩, .vbool true,
            tokenCore_true g stk st rest hva hrest,
            handledelim_bool f true _, spec_refl_bool true, wfValue_vbool true⟩
    | vnum a =>
        rw [marshalValue.eq_def] at hm
        simp only [] at hm
        split at hm
        · cases hm
          rename_i hval
          exact ⟨.tnum s, ⟨rest, stk, valueEnd st⟩, .vnum s,
            tokenCore_num g stk st s rest hva hval hrest,
            handledelim_num f s _, spec_refl_num s, wfValue_vnum s⟩
        · cases hm
    | vstr a =>
        rw [marshalValue.eq_def] at hm
        simp only [] at hm
        cases hm
        refine ⟨.tstr a, ⟨rest, stk, valueEnd st⟩, .vstr a, ?_,
          handledelim_str f a _, spec_refl_str a, wfValue_vstr a⟩
        rw [show (jsonQuote a).data ++ rest =
          '"' :: (a.data.flatMap jsonEscapeChar ++ '"' :: rest) from by
            rw [jsonQuote]
            simp [List.append_assoc]]
        exact tokenCore_str_value g stk st a rest hva hns
    | varr vs =>
        rw [marshalValue.eq_def] at hm
        simp only [] at hm
        rw [wfValue] at hwf
        rw [rtSafeValue] at hsafe
        cases hml : marshalList vs with
        | error er => rw [hml] at hm; cases hm
        | ok body =>
            rw [hml] at hm
            simp only [] at hm
            cases hm
            have hdata : ("[" ++ body ++ "]").data ++ rest =
                '[' :: (body.data ++ ']' :: rest) := by
              rw [String.data_append, String.data_append]
              simp [List.append_assoc]
            have hlen : ("[" ++ body ++ "]").data.length = body.data.length + 2 := by
              rw [String.data_append, String.data_append]
              simp
            rw [hlen] at hfuel
            obtain ⟨vs2, hpa, hsp, hw⟩ :=
              ((ih f (by omega)).2.1 vs body rest stk st hwf hsafe hml
                (by omega)).1
            refine ⟨.tdelim '[', ⟨body.data ++ ']' :: rest, st :: stk, .arrStart⟩,
              .varr vs2, ?_, ?_, ?_, ?_⟩
            · rw [hdata]
              exact tokenCore_open_arr g stk st _ hva
            · rw [handledelim_arr f _, hpa]
            · rw [specStructEq]
              exact hsp
            · rw [wfValue]
              exact hw
    | vmap om =>
        obtain ⟨m, l, ks, nid⟩ := om
        rw [marshalValue.eq_def] at hm
        simp only [] at hm
        rw [wfValue, wfMap_iff] at hwf
        obtain ⟨hm1, hnod1, hno1, hks1, hlt1, hent1⟩ := hwf
        rw [rtSafeValue, rtSafeMap] at hsafe
        cases hmm : Map.MarshalJSON (.mk m l ks nid) with
        | error er => rw [hmm] at hm; cases hm
        | ok X =>
            rw [hmm] at hm
            simp only [] at hm
            cases hm
            rw [Map.MarshalJSON] at hmm
            cases hme : marshalEntries l m with
            | error er => rw [hme] at hmm; cases hmm
            | ok bodyGo =>
                rw [hme] at hmm
                simp only [] at hmm
                cases hmm
                have hemit : emitEntriesF
                    (fun c => (goQuoteChar c).flatMap htmlEscChar) l m =
                    .ok (htmlEsc bodyGo) := by
                  apply emitEntriesF_htmlEsc
                  rw [← marshalEntries_eq_emitF]
                  exact hme
                have hs : htmlEsc (⟨[lbrace]⟩ ++ bodyGo ++ ⟨[rbrace]⟩) =
                    ⟨[lbrace]⟩ ++ htmlEsc bodyGo ++ ⟨[rbrace]⟩ := by
                  rw [htmlEsc_append, htmlEsc_append,
                    show htmlEsc ⟨[lbrace]⟩ = ⟨[lbrace]⟩ from rfl,
                    show htmlEsc ⟨[rbrace]⟩ = ⟨[rbrace]⟩ from rfl]
                rw [hs] at hfuel ⊢
                have hdata : (⟨[lbrace]⟩ ++ htmlEsc bodyGo ++ ⟨[rbrace]⟩ :
                    String).data ++ rest =
                    lbrace :: ((htmlEsc bodyGo).data ++ rbrace :: rest) := by
                  rw [String.data_append, String.data_append]
                  simp [List.append_assoc]
                have hlen : (⟨[lbrace]⟩ ++ htmlEsc bodyGo ++ ⟨[rbrace]⟩ :
                    String).data.length = (htmlEsc bodyGo).data.length + 2 := by
                  rw [String.data_append, String.data_append]
                  simp
                rw [hlen] at hfuel
                obtain ⟨ps, hpo, hf2⟩ :=
                  ((ih f (by omega)).2.2
                    (fun c => (goQuoteChar c).flatMap htmlEscChar) l m NewMap
                    (htmlEsc bodyGo) rest stk st encCharOk_goHtml
                    (map_entry_facts m l hm1 hnod1 hent1 hsafe)
                    hemit (by omega)).1
                refine ⟨.tdelim lbrace,
                  ⟨(htmlEsc bodyGo).data ++ rbrace :: rest, st :: stk, .objStart⟩,
                  .vmap (setAll NewMap ps), ?_, ?_, ?_, ?_⟩
                · rw [hdata]
                  exact tokenCore_open_obj g stk st _ hva
                · rw [handledelim_obj f _, hpo]
                · exact specStructEq_vmap_of_pairs ps m l ks nid hnod1
                    (List.Forall₂.imp (fun p e hr => ⟨hr.1, hr.2.1⟩) hf2)
                · rw [wfValue]
                  apply wf_setAll NewMap ps wf_NewMap
                  apply wfEntries_of_forall
                  intro p hp
                  obtain ⟨e, _, hr⟩ := forall2_mem_left hf2 p hp
                  exact hr.2.2
  · -- arrays
    intro vs body rest stk st0 hwfl hsafel hml hfb
    obtain ⟨f, rfl⟩ : ∃ f, fuel = f + 1 := ⟨fuel - 1, by omega⟩
    constructor
    · -- entry at arrStart with the full element text
      cases vs with
      | nil =>
          rw [marshalList] at hml
          cases hml
          refine ⟨[], ?_, by rw [specSeqEq], wfList_nil⟩
          rw [parsearray]
          have hmore : Dec.More ⟨("" : String).data ++ ']' :: rest,
              st0 :: stk, .arrStart⟩ = false := rfl
          rw [hmore]
          simp only [Bool.false_eq_true, if_false]
          rw [show token ⟨("" : String).data ++ ']' :: rest, st0 :: stk,
            .arrStart⟩ = .ok (.tdelim ']', ⟨rest, stk, valueEnd st0⟩) from
            tokenCore_close_arr_start 1 st0 stk rest]
          simp
      | cons v vs2 =>
          rw [wfList, Bool.and_eq_true] at hwfl
          rw [rtSafeList, Bool.and_eq_true] at hsafel
          cases vs2 with
          | nil =>
              rw [marshalList] at hml
              obtain ⟨c, t0, hct, hws, hcl⟩ := marshal_head v body hml
              have hnem := marshal_nonempty v body hml
              obtain ⟨t, d1, v2, htok, hhd, hsp, hw⟩ :=
                (ih f (by omega)).1 v body (']' :: rest) (st0 :: stk) .arrStart 1
                  hwfl.1 hsafel.1 hml rfl (by decide) rfl (by omega)
              obtain ⟨vs3, hpa2, hsp2, hw2⟩ :=
                ((ih f (by omega)).2.1 [] "" rest stk st0 wfList_nil
                  (by rw [rtSafeList]) (by rw [marshalList])
                  (by have h0 : ("" : String).data.length = 0 := rfl; omega)).2
              have hv3 := specSeqEq_nil_right vs3 hsp2
              subst hv3
              refine ⟨[v2], ?_, ?_, ?_⟩
              · rw [parsearray]
                have hmore : Dec.More ⟨body.data ++ ']' :: rest,
                    st0 :: stk, .arrStart⟩ = true := by
                  rw [hct, List.cons_append, More_cons c _ _ _ hws, hcl]
                  rfl
                rw [hmore]
                simp only [if_true]
                rw [token, htok]
                simp only []
                rw [hhd]
                simp only []
                have hpa2b : parsearray f ⟨']' :: rest, st0 :: stk,
                    valueEnd TokState.arrStart⟩ =
                    .ok ([], ⟨rest, stk, valueEnd st0⟩) := hpa2
                rw [hpa2b]
              · rw [specSeqEq, Bool.and_eq_true]
                exact ⟨hsp, by rw [specSeqEq]⟩
              · rw [wfList, Bool.and_eq_true]
                exact ⟨hw, wfList_nil⟩
          | cons w ws =>
              rw [marshalList] at hml
              rotate_left
              · simp
              cases hmv : marshalValue v with
              | error er =>
                  rw [hmv] at hml
                  exact absurd hml (by simp)
              | ok sb =>
                  rw [hmv] at hml
                  cases hmt : marshalList (w :: ws) with
                  | error er =>
                      rw [hmt] at hml
                      exact absurd hml (by simp)
                  | ok tb =>
                      rw [hmt] at hml
                      simp only [] at hml
                      cases hml
                      have hdata : (sb ++ "," ++ tb).data ++ ']' :: rest =
                          sb.data ++ (',' :: (tb.data ++ ']' :: rest)) := by
                        rw [String.data_append, String.data_append]
                        simp [List.append_assoc]
                      have hlen : (sb ++ "," ++ tb).data.length =
                          sb.data.length + tb.data.length + 1 := by
                        rw [String.data_append, String.data_append]
                        simp
                        omega
                      rw [hlen] at hfb
                      obtain ⟨c, t0, hct, hws, hcl⟩ := marshal_head v sb hmv
                      have hnem := marshal_nonempty v sb hmv
                      obtain ⟨t, d1, v2, htok, hhd, hsp, hw⟩ :=
                        (ih f (by omega)).1 v sb
                          (',' :: (tb.data ++ ']' :: rest)) (st0 :: stk)
                          .arrStart 1 hwfl.1 hsafel.1 hmv rfl (by decide) rfl
                          (by omega)
                      obtain ⟨vs3, hpa2, hsp2, hw2⟩ :=
                        ((ih f (by omega)).2.1 (w :: ws) tb rest stk st0
                          hwfl.2 hsafel.2 hmt (by omega)).2
                      refine ⟨v2 :: vs3, ?_, ?_, ?_⟩
                      · rw [parsearray]
                        have hmore : Dec.More ⟨(sb ++ "," ++ tb).data ++
                            ']' :: rest, st0 :: stk, .arrStart⟩ = true := by
                          rw [hdata, hct, List.cons_append,
                            More_cons c _ _ _ hws, hcl]
                          rfl
                        rw [hmore]
                        simp only [if_true]
                        rw [hdata, token, htok]
                        simp only []
                        rw [hhd]
                        simp only []
                        have hpa2b : parsearray f
                            ⟨',' :: (tb.data ++ ']' :: rest), st0 :: stk,
                              valueEnd TokState.arrStart⟩ =
                            .ok (vs3, ⟨rest, stk, valueEnd st0⟩) := hpa2
                        rw [hpa2b]
                      · rw [specSeqEq, Bool.and_eq_true]
                        exact ⟨hsp, hsp2⟩
                      · rw [wfList, Bool.and_eq_true]
                        exact ⟨hw, hw2⟩
    · -- continuation at arrComma
      cases vs with
      | nil =>
          rw [marshalList] at hml
          cases hml
          refine ⟨[], ?_, by rw [specSeqEq], wfList_nil⟩
          rw [parsearray]
          have hmore : Dec.More ⟨(match ([] : List Value) with
              | [] => ([] : List Char)
              | _ :: _ => ',' :: ("" : String).data) ++ ']' :: rest,
              st0 :: stk, .arrComma⟩ = false := rfl
          rw [hmore]
          simp only [Bool.false_eq_true, if_false]
          rw [show token ⟨(match ([] : List Value) with
              | [] => ([] : List Char)
              | _ :: _ => ',' :: ("" : String).data) ++ ']' :: rest,
              st0 :: stk, .arrComma⟩ =
            .ok (.tdelim ']', ⟨rest, stk, valueEnd st0⟩) from
            tokenCore_close_arr_comma 1 st0 stk rest]
          simp
      | cons v vs2 =>
          rw [wfList, Bool.and_eq_true] at hwfl
          rw [rtSafeList, Bool.and_eq_true] at hsafel
          have hleadb : (match (v :: vs2 : List Value) with
              | [] => ([] : List Char)
              | _ :: _ => ',' :: body.data) ++ ']' :: rest =
              ',' :: (body.data ++ ']' :: rest) := by
            simp
          cases vs2 with
          | nil =>
              rw [marshalList] at hml
              obtain ⟨c, t0, hct, hws, hcl⟩ := marshal_head v body hml
              have hnem := marshal_nonempty v body hml
              obtain ⟨t, d1, v2, htok, hhd, hsp, hw⟩ :=
                (ih f (by omega)).1 v body (']' :: rest) (st0 :: stk) .arrVal 0
                  hwfl.1 hsafel.1 hml rfl (by decide) rfl (by omega)
              obtain ⟨vs3, hpa2, hsp2, hw2⟩ :=
                ((ih f (by omega)).2.1 [] "" rest stk st0 wfList_nil
                  (by rw [rtSafeList]) (by rw [marshalList])
                  (by have h0 : ("" : String).data.length = 0 := rfl; omega)).2
              have hv3 := specSeqEq_nil_right vs3 hsp2
              subst hv3
              refine ⟨[v2], ?_, ?_, ?_⟩
              · rw [parsearray]
                have hmore : Dec.More ⟨(match (v :: ([] : List Value)) with
                    | [] => ([] : List Char)
                    | _ :: _ => ',' :: body.data) ++ ']' :: rest,
                    st0 :: stk, .arrComma⟩ = true := by
                  rw [hleadb]
                  rw [More_cons ',' _ _ _ rfl]
                  rfl
                rw [hmore]
                simp only [if_true]
                rw [hleadb, token, tokenCore_comma_arr 1 (st0 :: stk)
                  (body.data ++ ']' :: rest), htok]
                simp only []
                rw [hhd]
                simp only []
                have hpa2b : parsearray f ⟨']' :: rest, st0 :: stk,
                    valueEnd TokState.arrVal⟩ =
                    .ok ([], ⟨rest, stk, valueEnd st0⟩) := hpa2
                rw [hpa2b]
              · rw [specSeqEq, Bool.and_eq_true]
                exact ⟨hsp, by rw [specSeqEq]⟩
              · rw [wfList, Bool.and_eq_true]
                exact ⟨hw, wfList_nil⟩
          | cons w ws =>
              rw [marshalList] at hml
              rotate_left
              · simp
              cases hmv : marshalValue v with
              | error er =>
                  rw [hmv] at hml
                  exact absurd hml (by simp)
              | ok sb =>
                  rw [hmv] at hml
                  cases hmt : marshalList (w :: ws) with
                  | error er =>
                      rw [hmt] at hml
                      exact absurd hml (by simp)
                  | ok tb =>
                      rw [hmt] at hml
                      simp only [] at hml
                      cases hml
                      have hdata : (sb ++ "," ++ tb).data ++ ']' :: rest =
                          sb.data ++ (',' :: (tb.data ++ ']' :: rest)) := by
                        rw [String.data_append, String.data_append]
                        simp [List.append_assoc]
                      have hlen : (sb ++ "," ++ tb).data.length =
                          sb.data.length + tb.data.length + 1 := by
                        rw [String.data_append, String.data_append]
                        simp
                        omega
                      rw [hlen] at hfb
                      obtain ⟨c, t0, hct, hws, hcl⟩ := marshal_head v sb hmv
                      have hnem := marshal_nonempty v sb hmv
                      obtain ⟨t, d1, v2, htok, hhd, hsp, hw⟩ :=
                        (ih f (by omega)).1 v sb
                          (',' :: (tb.data ++ ']' :: rest)) (st0 :: stk)
                          .arrVal 0 hwfl.1 hsafel.1 hmv rfl (by decide) rfl
                          (by omega)
                      obtain ⟨vs3, hpa2, hsp2, hw2⟩ :=
                        ((ih f (by omega)).2.1 (w :: ws) tb rest stk st0
                          hwfl.2 hsafel.2 hmt (by omega)).2
                      refine ⟨v2 :: vs3, ?_, ?_, ?_⟩
                      · rw [parsearray]
                        have hmore : Dec.More ⟨(match (v :: w :: ws) with
                            | [] => ([] : List Char)
                            | _ :: _ => ',' :: (sb ++ "," ++ tb).data) ++
                            ']' :: rest, st0 :: stk, .arrComma⟩ = true := by
                          rw [hleadb]
                          rw [More_cons ',' _ _ _ rfl]
                          rfl
                        rw [hmore]
                        simp only [if_true]
                        rw [hleadb, hdata, token, tokenCore_comma_arr 1
                          (st0 :: stk) (sb.data ++ (',' :: (tb.data ++
                            ']' :: rest))), htok]
                        simp only []
                        rw [hhd]
                        simp only []
                        have hpa2b : parsearray f
                            ⟨',' :: (tb.data ++ ']' :: rest), st0 :: stk,
                              valueEnd TokState.arrVal⟩ =
                            .ok (vs3, ⟨rest, stk, valueEnd st0⟩) := hpa2
                        rw [hpa2b]
                      · rw [specSeqEq, Bool.and_eq_true]
                        exact ⟨hsp, hsp2⟩
                      · rw [wfList, Bool.and_eq_true]
                        exact ⟨hw, hw2⟩
  · -- objects
    intro fenc lsuf m om body rest stk st0 hf hentry hemit hfb
    obtain ⟨f, rfl⟩ : ∃ f, fuel = f + 1 := ⟨fuel - 1, by omega⟩
    constructor
    · -- entry at objStart with the full member text
      cases lsuf with
      | nil =>
          rw [emitEntriesF] at hemit
          cases hemit
          refine ⟨[], ?_, List.Forall₂.nil⟩
          rw [parseobject]
          have hmore : Dec.More ⟨("" : String).data ++ rbrace :: rest,
              st0 :: stk, .objStart⟩ = false := rfl
          rw [hmore]
          simp only [Bool.false_eq_true, if_false]
          rw [closeObject]
          rw [show token ⟨("" : String).data ++ rbrace :: rest, st0 :: stk,
            .objStart⟩ = .ok (.tdelim rbrace, ⟨rest, stk, valueEnd st0⟩) from
            tokenCore_close_obj_start 1 st0 stk rest]
          simp [setAll]
      | cons e ls =>
          obtain ⟨hksafe, hvsafe, hvwf⟩ := hentry e (by simp)
          have hfk : ∀ c ∈ e.2.data, encCharOk c (fenc c) := by
            intro c hc
            exact hf c (List.all_eq_true.mp hksafe c hc)
          cases ls with
          | nil =>
              rw [emitEntriesF] at hemit
              cases hb : marshalValue (mGet m e.2) with
              | error er => rw [hb] at hemit; cases hemit
              | ok b =>
                  rw [hb] at hemit
                  simp only [] at hemit
                  cases hemit
                  have hdata : (⟨'"' :: (e.2.data.flatMap fenc ++ ['"'])⟩ ++
                      ":" ++ b : String).data ++ rbrace :: rest =
                      '"' :: (e.2.data.flatMap fenc ++
                        '"' :: ':' :: (b.data ++ rbrace :: rest)) := by
                    rw [String.data_append, String.data_append]
                    simp [List.append_assoc]
                  have hlen : (⟨'"' :: (e.2.data.flatMap fenc ++ ['"'])⟩ ++
                      ":" ++ b : String).data.length =
                      (e.2.data.flatMap fenc).length + 3 + b.data.length := by
                    rw [String.data_append, String.data_append]
                    simp
                    omega
                  rw [hlen] at hfb
                  obtain ⟨t2, d2, v2, htok, hhd, hsp, hw⟩ :=
                    (ih f (by omega)).1 (mGet m e.2) b (rbrace :: rest)
                      (st0 :: stk) .objVal 0 hvwf hvsafe hb rfl (by decide)
                      rfl (by omega)
                  obtain ⟨ps2, hpo2, hf22⟩ :=
                    ((ih f (by omega)).2.2 fenc [] m (om.Set e.2 v2) ""
                      rest stk st0 hf (by intro x hx; cases hx) (by rw [emitEntriesF])
                      (by have h0 : ("" : String).data.length = 0 := rfl; omega)).2
                  cases hf22
                  refine ⟨[(e.2, v2)], ?_, ?_⟩
                  · rw [parseobject]
                    have hmore : Dec.More ⟨(⟨'"' :: (e.2.data.flatMap fenc ++
                        ['"'])⟩ ++ ":" ++ b : String).data ++ rbrace :: rest,
                        st0 :: stk, .objStart⟩ = true := by
                      rw [hdata, More_cons '"' _ _ _ rfl]
                      rfl
                    rw [hmore]
                    simp only [if_true]
                    rw [hdata, token,
                      tokenCore_key 1 (st0 :: stk) .objStart fenc e.2
                        (':' :: (b.data ++ rbrace :: rest)) (Or.inl rfl) hfk]
                    simp only []
                    rw [token, tokenCore_colon 1 (st0 :: stk)
                      (b.data ++ rbrace :: rest), htok]
                    simp only []
                    rw [hhd]
                    simp only []
                    have hpo2b : parseobject f (om.Set e.2 v2)
                        ⟨rbrace :: rest, st0 :: stk, valueEnd TokState.objVal⟩ =
                        (setAll (om.Set e.2 v2) [],
                          .ok ⟨rest, stk, valueEnd st0⟩) := hpo2
                    rw [hpo2b]
                    rfl
                  · exact List.Forall₂.cons ⟨rfl, hsp, hw⟩ List.Forall₂.nil
          | cons e2 ls2 =>
              have hexp : emitEntriesF fenc (e :: e2 :: ls2) m =
                  (match marshalValue (mGet m e.2),
                      emitEntriesF fenc (e2 :: ls2) m with
                   | .ok b, .ok tl =>
                       .ok (⟨'"' :: (e.2.data.flatMap fenc ++ ['"'])⟩ ++
                         ":" ++ b ++ "," ++ tl)
                   | .error er, _ => .error er
                   | _, .error er => .error er) := rfl
              rw [hexp] at hemit
              cases hb : marshalValue (mGet m e.2) with
              | error er => rw [hb] at hemit; exact absurd hemit (by simp)
              | ok b =>
                  rw [hb] at hemit
                  cases htl : emitEntriesF fenc (e2 :: ls2) m with
                  | error er => rw [htl] at hemit; exact absurd hemit (by simp)
                  | ok tl =>
                      rw [htl] at hemit
                      simp only [] at hemit
                      cases hemit
                      have hdata : (⟨'"' :: (e.2.data.flatMap fenc ++ ['"'])⟩ ++
                          ":" ++ b ++ "," ++ tl : String).data ++ rbrace :: rest =
                          '"' :: (e.2.data.flatMap fenc ++
                            '"' :: ':' :: (b.data ++
                              ',' :: (tl.data ++ rbrace :: rest))) := by
                        rw [String.data_append, String.data_append,
                          String.data_append, String.data_append]
                        simp [List.append_assoc]
                      have hlen : (⟨'"' :: (e.2.data.flatMap fenc ++ ['"'])⟩ ++
                          ":" ++ b ++ "," ++ tl : String).data.length =
                          (e.2.data.flatMap fenc).length + 4 + b.data.length +
                            tl.data.length := by
                        rw [String.data_append, String.data_append,
                          String.data_append, String.data_append]
                        simp
                        omega
                      rw [hlen] at hfb
                      obtain ⟨t2, d2, v2, htok, hhd, hsp, hw⟩ :=
                        (ih f (by omega)).1 (mGet m e.2) b
                          (',' :: (tl.data ++ rbrace :: rest))
                          (st0 :: stk) .objVal 0 hvwf hvsafe hb rfl (by decide)
                          rfl (by omega)
                      obtain ⟨ps2, hpo2, hf22⟩ :=
                        ((ih f (by omega)).2.2 fenc (e2 :: ls2) m
                          (om.Set e.2 v2) tl rest stk st0 hf
                          (fun x hx => hentry x (List.mem_cons_of_mem _ hx))
                          htl (by omega)).2
                      refine ⟨(e.2, v2) :: ps2, ?_, ?_⟩
                      · rw [parseobject]
                        have hmore : Dec.More ⟨(⟨'"' :: (e.2.data.flatMap fenc
                            ++ ['"'])⟩ ++ ":" ++ b ++ "," ++ tl :
                            String).data ++ rbrace :: rest,
                            st0 :: stk, .objStart⟩ = true := by
                          rw [hdata, More_cons '"' _ _ _ rfl]
                          rfl
                        rw [hmore]
                        simp only [if_true]
                        rw [hdata, token,
                          tokenCore_key 1 (st0 :: stk) .objStart fenc e.2
                            (':' :: (b.data ++ ',' :: (tl.data ++
                              rbrace :: rest))) (Or.inl rfl) hfk]
                        simp only []
                        rw [token, tokenCore_colon 1 (st0 :: stk)
                          (b.data ++ ',' :: (tl.data ++ rbrace :: rest)), htok]
                        simp only []
                        rw [hhd]
                        simp only []
                        have hpo2b : parseobject f (om.Set e.2 v2)
                            ⟨',' :: (tl.data ++ rbrace :: rest), st0 :: stk,
                              valueEnd TokState.objVal⟩ =
                            (setAll (om.Set e.2 v2) ps2,
                              .ok ⟨rest, stk, valueEnd st0⟩) := hpo2
                        rw [hpo2b]
                        rfl
                      · exact List.Forall₂.cons ⟨rfl, hsp, hw⟩ hf22
    · -- continuation at objComma
      cases lsuf with
      | nil =>
          rw [emitEntriesF] at hemit
          cases hemit
          refine ⟨[], ?_, List.Forall₂.nil⟩
          rw [parseobject]
          have hmore : Dec.More ⟨(match ([] : List (Nat × String)) with
              | [] => ([] : List Char)
              | _ :: _ => ',' :: ("" : String).data) ++ rbrace :: rest,
              st0 :: stk, .objComma⟩ = false := rfl
          rw [hmore]
          simp only [Bool.false_eq_true, if_false]
          rw [closeObject]
          rw [show token ⟨(match ([] : List (Nat × String)) with
              | [] => ([] : List Char)
              | _ :: _ => ',' :: ("" : String).data) ++ rbrace :: rest,
              st0 :: stk, .objComma⟩ =
            .ok (.tdelim rbrace, ⟨rest, stk, valueEnd st0⟩) from
            tokenCore_close_obj_comma 1 st0 stk rest]
          simp [setAll]
      | cons e ls =>
          obtain ⟨hksafe, hvsafe, hvwf⟩ := hentry e (by simp)
          have hfk : ∀ c ∈ e.2.data, encCharOk c (fenc c) := by
            intro c hc
            exact hf c (List.all_eq_true.mp hksafe c hc)
          have hleadb : (match (e :: ls : List (Nat × String)) with
              | [] => ([] : List Char)
              | _ :: _ => ',' :: body.data) ++ rbrace :: rest =
              ',' :: (body.data ++ rbrace :: rest) := by
            simp
          cases ls with
          | nil =>
              rw [emitEntriesF] at hemit
              cases hb : marshalValue (mGet m e.2) with
              | error er => rw [hb] at hemit; cases hemit
              | ok b =>
                  rw [hb] at hemit
                  simp only [] at hemit
                  cases hemit
                  have hdata : (⟨'"' :: (e.2.data.flatMap fenc ++ ['"'])⟩ ++
                      ":" ++ b : String).data ++ rbrace :: rest =
                      '"' :: (e.2.data.flatMap fenc ++
                        '"' :: ':' :: (b.data ++ rbrace :: rest)) := by
                    rw [String.data_append, String.data_append]
                    simp [List.append_assoc]
                  have hlen : (⟨'"' :: (e.2.data.flatMap fenc ++ ['"'])⟩ ++
                      ":" ++ b : String).data.length =
                      (e.2.data.flatMap fenc).length + 3 + b.data.length := by
                    rw [String.data_append, String.data_append]
                    simp
                    omega
                  rw [hlen] at hfb
                  obtain ⟨t2, d2, v2, htok, hhd, hsp, hw⟩ :=
                    (ih f (by omega)).1 (mGet m e.2) b (rbrace :: rest)
                      (st0 :: stk) .objVal 0 hvwf hvsafe hb rfl (by decide)
                      rfl (by omega)
                  obtain ⟨ps2, hpo2, hf22⟩ :=
                    ((ih f (by omega)).2.2 fenc [] m (om.Set e.2 v2) ""
                      rest stk st0 hf (by intro x hx; cases hx)
                      (by rw [emitEntriesF])
                      (by have h0 : ("" : String).data.length = 0 := rfl; omega)).2
                  cases hf22
                  refine ⟨[(e.2, v2)], ?_, ?_⟩
                  · rw [parseobject]
                    have hmore : Dec.More ⟨(match (e :: ([] : List (Nat × String))) with
                        | [] => ([] : List Char)
                        | _ :: _ => ',' :: ((⟨'"' :: (e.2.data.flatMap fenc ++
                            ['"'])⟩ ++ ":" ++ b : String)).data) ++
                        rbrace :: rest, st0 :: stk, .objComma⟩ = true := by
                      rw [hleadb, More_cons ',' _ _ _ rfl]
                      rfl
                    rw [hmore]
                    simp only [if_true]
                    rw [hleadb, hdata, token, tokenCore_comma_obj 1 (st0 :: stk)
                      ('"' :: (e.2.data.flatMap fenc ++
                        '"' :: ':' :: (b.data ++ rbrace :: rest))),
                      tokenCore_key 0 (st0 :: stk) .objKey fenc e.2
                        (':' :: (b.data ++ rbrace :: rest)) (Or.inr rfl) hfk]
                    simp only []
                    rw [token, tokenCore_colon 1 (st0 :: stk)
                      (b.data ++ rbrace :: rest), htok]
                    simp only []
                    rw [hhd]
                    simp only []
                    have hpo2b : parseobject f (om.Set e.2 v2)
                        ⟨rbrace :: rest, st0 :: stk, valueEnd TokState.objVal⟩ =
                        (setAll (om.Set e.2 v2) [],
                          .ok ⟨rest, stk, valueEnd st0⟩) := hpo2
                    rw [hpo2b]
                    rfl
                  · exact List.Forall₂.cons ⟨rfl, hsp, hw⟩ List.Forall₂.nil
          | cons e2 ls2 =>
              have hexp : emitEntriesF fenc (e :: e2 :: ls2) m =
                  (match marshalValue (mGet m e.2),
                      emitEntriesF fenc (e2 :: ls2) m with
                   | .ok b, .ok tl =>
                       .ok (⟨'"' :: (e.2.data.flatMap fenc ++ ['"'])⟩ ++
                         ":" ++ b ++ "," ++ tl)
                   | .error er, _ => .error er
                   | _, .error er => .error er) := rfl
              rw [hexp] at hemit
              cases hb : marshalValue (mGet m e.2) with
              | error er => rw [hb] at hemit; exact absurd hemit (by simp)
              | ok b =>
                  rw [hb] at hemit
                  cases htl : emitEntriesF fenc (e2 :: ls2) m with
                  | error er => rw [htl] at hemit; exact absurd hemit (by simp)
                  | ok tl =>
                      rw [htl] at hemit
                      simp only [] at hemit
                      cases hemit
                      have hdata : (⟨'"' :: (e.2.data.flatMap fenc ++ ['"'])⟩ ++
                          ":" ++ b ++ "," ++ tl : String).data ++ rbrace :: rest =
                          '"' :: (e.2.data.flatMap fenc ++
                            '"' :: ':' :: (b.data ++
                              ',' :: (tl.data ++ rbrace :: rest))) := by
                        rw [String.data_append, String.data_append,
                          String.data_append, String.data_append]
                        simp [List.append_assoc]
                      have hlen : (⟨'"' :: (e.2.data.flatMap fenc ++ ['"'])⟩ ++
                          ":" ++ b ++ "," ++ tl : String).data.length =
                          (e.2.data.flatMap fenc).length + 4 + b.data.length +
                            tl.data.length := by
                        rw [String.data_append, String.data_append,
                          String.data_append, String.data_append]
                        simp
                        omega
                      rw [hlen] at hfb
                      obtain ⟨t2, d2, v2, htok, hhd, hsp, hw⟩ :=
                        (ih f (by omega)).1 (mGet m e.2) b
                          (',' :: (tl.data ++ rbrace :: rest))
                          (st0 :: stk) .objVal 0 hvwf hvsafe hb rfl (by decide)
                          rfl (by omega)
                      obtain ⟨ps2, hpo2, hf22⟩ :=
                        ((ih f (by omega)).2.2 fenc (e2 :: ls2) m
                          (om.Set e.2 v2) tl rest stk st0 hf
                          (fun x hx => hentry x (List.mem_cons_of_mem _ hx))
                          htl (by omega)).2
                      refine ⟨(e.2, v2) :: ps2, ?_, ?_⟩
                      · rw [parseobject]
                        have hmore : Dec.More ⟨(match (e :: e2 :: ls2) with
                            | [] => ([] : List Char)
                            | _ :: _ => ',' :: ((⟨'"' :: (e.2.data.flatMap fenc
                              ++ ['"'])⟩ ++ ":" ++ b ++ "," ++ tl :
                              String)).data) ++ rbrace :: rest,
                            st0 :: stk, .objComma⟩ = true := by
                          rw [hleadb, More_cons ',' _ _ _ rfl]
                          rfl
                        rw [hmore]
                        simp only [if_true]
                        rw [hleadb, hdata, token,
                          tokenCore_comma_obj 1 (st0 :: stk)
                            ('"' :: (e.2.data.flatMap fenc ++
                              '"' :: ':' :: (b.data ++
                                ',' :: (tl.data ++ rbrace :: rest)))),
                          tokenCore_key 0 (st0 :: stk) .objKey fenc e.2
                            (':' :: (b.data ++ ',' :: (tl.data ++
                              rbrace :: rest))) (Or.inr rfl) hfk]
                        simp only []
                        rw [token, tokenCore_colon 1 (st0 :: stk)
                          (b.data ++ ',' :: (tl.data ++ rbrace :: rest)), htok]
                        simp only []
                        rw [hhd]
                        simp only []
                        have hpo2b : parseobject f (om.Set e.2 v2)
                            ⟨',' :: (tl.data ++ rbrace :: rest), st0 :: stk,
                              valueEnd TokState.objVal⟩ =
                            (setAll (om.Set e.2 v2) ps2,
                              .ok ⟨rest, stk, valueEnd st0⟩) := hpo2
                        rw [hpo2b]
                        rfl
                      · exact List.Forall₂.cons ⟨rfl, hsp, hw⟩ hf22

theorem rtSafe_no_badNum_aux : ∀ (n : Nat) (v : Value), sizeOf v < n →
    rtSafeValue v = true → hasBadNumValue v = false := by
  intro n
  induction n with
  | zero => intro v h _; exact absurd h (Nat.not_lt_zero _)
  | succ n ih =>
      intro v hsz hs
      cases v with
      | vnull => rw [hasBadNumValue.eq_def]
      | vbool b => rw [hasBadNumValue.eq_def]
      | vstr a => rw [hasBadNumValue.eq_def]
      | vnum a =>
          rw [rtSafeValue] at hs
          rw [hasBadNumValue, hs]
          rfl
      | varr vs =>
          rw [rtSafeValue] at hs
          rw [hasBadNumValue]
          simp only [Value.varr.sizeOf_spec] at hsz
          have harr : ∀ (as : List Value), sizeOf as < n → rtSafeList as = true →
              hasBadNumList as = false := by
            intro as
            induction as with
            | nil => intro _ _; rw [hasBadNumList]
            | cons a as0 ihl =>
                intro hsz0 hs0
                rw [rtSafeList, Bool.and_eq_true] at hs0
                rw [hasBadNumList, Bool.or_eq_false_iff]
                have h1 : sizeOf a < n := by
                  simp only [List.cons.sizeOf_spec] at hsz0
                  omega
                have h2 : sizeOf as0 < n := by
                  simp only [List.cons.sizeOf_spec] at hsz0
                  omega
                exact ⟨ih a h1 hs0.1, ihl h2 hs0.2⟩
          exact harr vs (by omega) hs
      | vmap om =>
          obtain ⟨m, l, ks, nid⟩ := om
          rw [rtSafeValue, rtSafeMap] at hs
          rw [hasBadNumValue, hasBadNumMap]
          simp only [Value.vmap.sizeOf_spec, Map.mk.sizeOf_spec] at hsz
          have hment : ∀ (ms : List (String × Value)), sizeOf ms < n →
              rtSafeEntries ms = true → hasBadNumEntries ms = false := by
            intro ms
            induction ms with
            | nil => intro _ _; rw [hasBadNumEntries]
            | cons p rest ihl =>
                obtain ⟨k, v0⟩ := p
                intro hsz0 hs0
                rw [rtSafeEntries, Bool.and_eq_true, Bool.and_eq_true] at hs0
                rw [hasBadNumEntries, Bool.or_eq_false_iff]
                have h1 : sizeOf v0 < n := by
                  simp only [List.cons.sizeOf_spec, Prod.mk.sizeOf_spec] at hsz0
                  omega
                have h2 : sizeOf rest < n := by
                  simp only [List.cons.sizeOf_spec] at hsz0
                  omega
                exact ⟨ih v0 h1 hs0.1.2, ihl h2 hs0.2⟩
          exact hment m (by omega) hs

theorem rtSafe_no_badNum (om : Map) (h : rtSafeMap om = true) :
    hasBadNumMap om = false := by
  obtain ⟨m, l, ks, nid⟩ := om
  rw [rtSafeMap] at h
  have := rtSafe_no_badNum_aux (sizeOf (Value.vmap (Map.mk m l ks nid)) + 1)
    (.vmap (.mk m l ks nid)) (Nat.lt_succ_self _)
    (by rw [rtSafeValue, rtSafeMap]; exact h)
  rw [hasBadNumValue, hasBadNumMap] at this
  rw [hasBadNumMap]
  exact this

theorem specEqual_some_some (a b : Map) :
    specEqual (some a) (some b) = specStructEq (.vmap a) (.vmap b) := by
  obtain ⟨m1, l1, ks1, n1⟩ := a
  obtain ⟨m2, l2, ks2, n2⟩ := b
  rw [specEqual, specStructEq]

/-- The round trip: encoding a well-formed, round-trip-safe map and decoding
the output into a fresh map succeeds and produces a map Equal to the
original. -/
theorem roundtrip_ok (om : Map) (hwf : wfMap om = true)
    (hsafe : rtSafeMap om = true) :
    ∃ s om2, om.MarshalJSON = .ok s ∧
      NewMap.UnmarshalJSON s = (om2, none) ∧
      wfMap om2 = true ∧
      Map.Equal (some om2) (some om) = true := by
  obtain ⟨s, hms⟩ := (MarshalJSON_ok_iff om hwf).mpr (rtSafe_no_badNum om hsafe)
  obtain ⟨m, l, ks, nid⟩ := om
  rw [wfMap_iff] at hwf
  obtain ⟨hm1, hnod1, hno1, hks1, hlt1, hent1⟩ := hwf
  rw [rtSafeMap] at hsafe
  have hms2 := hms
  rw [Map.MarshalJSON] at hms2
  cases hme : marshalEntries l m with
  | error er => rw [hme] at hms2; cases hms2
  | ok body =>
      rw [hme] at hms2
      simp only [] at hms2
      cases hms2
      have hemit : emitEntriesF goQuoteChar l m = .ok body := by
        rw [← marshalEntries_eq_emitF]
        exact hme
      have hslen : (⟨[lbrace]⟩ ++ body ++ ⟨[rbrace]⟩ : String).length =
          body.data.length + 2 := by
        show (⟨[lbrace]⟩ ++ body ++ ⟨[rbrace]⟩ : String).data.length = _
        rw [String.data_append, String.data_append]
        simp
      have hsdata : (⟨[lbrace]⟩ ++ body ++ ⟨[rbrace]⟩ : String).data =
          lbrace :: (body.data ++ rbrace :: []) := by
        rw [String.data_append, String.data_append]
        simp [List.append_assoc]
      obtain ⟨ps, hpo, hf2⟩ :=
        ((rt_main (2 * (⟨[lbrace]⟩ ++ body ++ ⟨[rbrace]⟩ : String).length + 2)).2.2
          goQuoteChar l m NewMap body [] [] .top encCharOk_go
          (map_entry_facts m l hm1 hnod1 hent1 hsafe) hemit
          (by rw [hslen]; omega)).1
      have hwf2 : wfMap (setAll NewMap ps) = true := by
        apply wf_setAll NewMap ps wf_NewMap
        apply wfEntries_of_forall
        intro p hp
        obtain ⟨e, _, hr⟩ := forall2_mem_left hf2 p hp
        exact hr.2.2
      refine ⟨⟨[lbrace]⟩ ++ body ++ ⟨[rbrace]⟩, setAll NewMap ps, hms, ?_, hwf2, ?_⟩
      · rw [Map.UnmarshalJSON]
        rw [hsdata]
        rw [show token ⟨lbrace :: (body.data ++ rbrace :: []), [], .top⟩ =
          .ok (.tdelim lbrace, ⟨body.data ++ rbrace :: [], [.top], .objStart⟩)
          from tokenCore_open_obj 1 [] .top (body.data ++ rbrace :: []) rfl]
        simp only [reduceIte]
        have hpob : parseobject
            (2 * (⟨[lbrace]⟩ ++ body ++ ⟨[rbrace]⟩ : String).length + 2) NewMap
            ⟨body.data ++ rbrace :: [], [.top], .objStart⟩ =
            (setAll NewMap ps, .ok ⟨[], [], valueEnd .top⟩) := hpo
        rw [hpob]
        simp only []
        rw [show token ⟨[], [], valueEnd .top⟩ = .error .eof from
          tokenCore_eof 1 [] (valueEnd .top)]
      · rw [Equal_eq_specEqual (some (setAll NewMap ps))
          (some (.mk m l ks nid))
          (fun x hx => by cases hx; exact hwf2)
          (fun x hx => by
            cases hx
            rw [wfMap_iff]
            exact ⟨hm1, hnod1, hno1, hks1, hlt1, hent1⟩)]
        rw [specEqual_some_some]
        exact specStructEq_vmap_of_pairs ps m l ks nid hnod1
          (List.Forall₂.imp (fun p e hr => ⟨hr.1, hr.2.1⟩) hf2)

/-- Counterexample to the unrestricted round-trip claim: the map with the
single key U+0007 (the bell control character) and value null is well formed
and its only value is JSON-representable, yet MarshalJSON quotes the key with
fmt %q, emitting the Go-only escape backslash-a; decoding that output fails
(backslash-a is not a JSON string escape), so decode of encode does not
produce a map Equal to the original. -/
theorem C2_roundtrip_counterexample :
    wfMap (setAll NewMap [(⟨[Char.ofNat 7]⟩, Value.vnull)]) = true ∧
    hasBadNumMap (setAll NewMap [(⟨[Char.ofNat 7]⟩, Value.vnull)]) = false ∧
    (setAll NewMap [(⟨[Char.ofNat 7]⟩, Value.vnull)]).MarshalJSON =
      .ok "\x7b\"\\a\":null\x7d" ∧
    (NewMap.UnmarshalJSON "\x7b\"\\a\":null\x7d").2.isSome = true ∧
    Map.Equal (some (NewMap.UnmarshalJSON "\x7b\"\\a\":null\x7d").1)
      (some (setAll NewMap [(⟨[Char.ofNat 7]⟩, Value.vnull)])) = false := by
  refine ⟨?_, ?_, ?_, ?_, ?_⟩
  · exact wf_setAll NewMap [(⟨[Char.ofNat 7]⟩, Value.vnull)] wf_NewMap
      (by rw [wfEntries]; simp)
  · show hasBadNumMap (Map.mk [(⟨[Char.ofNat 7]⟩, Value.vnull)]
      [(0, ⟨[Char.ofNat 7]⟩)] [(⟨[Char.ofNat 7]⟩, 0)] 1) = false
    rw [hasBadNumMap, hasBadNumEntries, hasBadNumEntries,
      hasBadNumValue.eq_def]
    rfl
  · have h1 : marshalValue Value.vnull = .ok "null" := by rw [marshalValue]
    have h2 : marshalEntries [(0, (⟨[Char.ofNat 7]⟩ : String))]
        [((⟨[Char.ofNat 7]⟩ : String), Value.vnull)] =
        .ok (goQuote ⟨[Char.ofNat 7]⟩ ++ ":" ++ "null") := by
      rw [marshalEntries]
      rw [show mGet [((⟨[Char.ofNat 7]⟩ : String), Value.vnull)]
        (⟨[Char.ofNat 7]⟩ : String) = Value.vnull from rfl, h1]
    show Map.MarshalJSON (Map.mk [(⟨[Char.ofNat 7]⟩, Value.vnull)]
      [(0, ⟨[Char.ofNat 7]⟩)] [(⟨[Char.ofNat 7]⟩, 0)] 1) =
      .ok "\x7b\"\\a\":null\x7d"
    rw [Map.MarshalJSON, h2]
    rfl
  · rfl
  · rfl

/-- C2: the round trip holds on the restricted domain — for every well-formed
map that is round-trip safe (all keys, at every nesting level, consist of
printable ASCII characters, and every number value is a valid JSON number
literal), MarshalJSON succeeds and feeding its output to UnmarshalJSON on a
fresh map succeeds with no error and yields a map Equal to the original.
Without the key restriction the claim fails: %q-quoted keys outside printable
ASCII produce Go-only escapes the decoder rejects (see the counterexample). -/
theorem C2_roundtrip (om : Map) (hwf : wfMap om = true)
    (hsafe : rtSafeMap om = true) :
    ∃ s om2, om.MarshalJSON = .ok s ∧
      NewMap.UnmarshalJSON s = (om2, none) ∧
      Map.Equal (some om2) (some om) = true := by
  obtain ⟨s, om2, h1, h2, _, h4⟩ := roundtrip_ok om hwf hsafe
  exact ⟨s, om2, h1, h2, h4⟩

theorem C2_roundtrip_witness :
    (wfMap (setAll NewMap [("a", Value.vnum "1")]) = true ∧
      rtSafeMap (setAll NewMap [("a", Value.vnum "1")]) = true) ∧
    ∃ s om2, (setAll NewMap [("a", Value.vnum "1")]).MarshalJSON = .ok s ∧
      NewMap.UnmarshalJSON s = (om2, none) ∧
      Map.Equal (some om2) (some (setAll NewMap [("a", Value.vnum "1")])) = true := by
  have hwf : wfMap (setAll NewMap [("a", Value.vnum "1")]) = true :=
    wf_setAll NewMap [("a", Value.vnum "1")] wf_NewMap (by rw [wfEntries]; simp)
  have hsafe : rtSafeMap (setAll NewMap [("a", Value.vnum "1")]) = true := by
    show rtSafeMap (Map.mk [("a", Value.vnum "1")] [(0, "a")] [("a", 0)] 1) = true
    rw [rtSafeMap, rtSafeEntries, rtSafeEntries, rtSafeValue]
    rfl
  exact ⟨⟨hwf, hsafe⟩, C2_roundtrip (setAll NewMap [("a", Value.vnum "1")]) hwf hsafe⟩

end OrderedJson
